import Mathlib

/-!
# Elemental: index arithmetic, the `[STAR,MD]` block distribution, and small kernels

A shallow embedding of

* `src/core/DistMatrix/Block/STAR_MD.cpp`: the assignment operators and the basic queries
  of `DistMatrix<T,STAR,MD,BLOCK>`;
* `include/El/blas_like/level1/AxpyTrapezoid.hpp`: the dense, the sparse and the
  distributed overload;
* `src/core/mpi_register.cpp`: the user-defined reduction for `Int`;
* `include/El/core/random/impl.hpp`: `Choose`, `LogChoose`, `LogBinomial`, `LogEulerian`;
* `src/matrices/Lauchli.cpp`: both overloads of `Lauchli`;
* `src/matrices/Gaussian.cpp`: `MakeGaussian` on a sequential and on a distributed matrix;

together with the pieces of the library these files call but do not define: the process grid,
the index map of one matrix dimension, the redistribution routines of namespace `copy`, and
a few library routines on matrices.  Those pieces follow the data model and the component
contracts of the specification, or the comments at their call sites, and are marked as such
where they are defined.

Conventions: a process is named by its column-major rank in the grid; a distributed matrix
is its global shape, its descriptor and one local buffer per process, addressed by local row
and column (`DistMatrix`) or, for the kernels that work on the buffer, held as a sequential
matrix (`ElementalMatrix`); a sequential matrix is its shape, leading dimension and
column-major buffer; `Int` of the sources is `Int`, and
indices known to be non-negative are `Nat`; the dense `AxpyTrapezoid` takes every operation
on `Int` in the `w` bits of the type (`wrapInt`) and says where the buffer of its read-only
argument lies (`Storage`); a routine that may call `LogicError` returns the message next to
the state, or an `Except`.
-/

namespace El

/-! ## Distribution alphabet and process grid -/

/-- The distribution alphabet `{MC, MD, MR, VC, VR, STAR, CIRC}`. -/
inductive Dist where
  | MC
  | MD
  | MR
  | VC
  | VR
  | STAR
  | CIRC
  deriving DecidableEq, Repr

/-- An `r × c` process grid.  Processes are named by their column-major linear rank.
The diagonal bookkeeping of the grid (`MDRank`, `MDPerpRank`) is computed by `Grid.cpp`,
which is not part of the sources at hand; it is carried as data of the grid. -/
structure Grid where
  height : Nat
  width : Nat
  MDRank : Nat → Nat
  MDPerpRank : Nat → Nat

namespace Grid

/-- Number of processes of the grid. -/
def Size (g : Grid) : Nat := g.height * g.width

/-- Modelled from the spec: `Grid::GCD()` is absent from the sources; the spec names
`gcd(grid height, grid width)` as the size attached to the diagonal communicators. -/
def GCD (g : Grid) : Nat := Nat.gcd g.height g.width

/-- Modelled from the spec: `Grid::LCM()` is absent from the sources; it is the least
common multiple of the grid height and the grid width, the companion of `GCD`. -/
def LCM (g : Grid) : Nat := Nat.lcm g.height g.width

/-- Modelled from the spec: `Grid::InGrid()` is absent from the sources; a process of the
viewing communicator belongs to the grid when its rank is below the grid size. -/
def InGrid (g : Grid) (p : Nat) : Bool := decide (p < g.Size)

/-- Process row of the process with column-major rank `p`. -/
def Row (g : Grid) (p : Nat) : Nat := p % g.height

/-- Process column of the process with column-major rank `p`. -/
def Col (g : Grid) (p : Nat) : Nat := p / g.height

/-- Linear rank in column-major numbering. -/
def VCRank (_g : Grid) (p : Nat) : Nat := p

/-- Linear rank in row-major numbering. -/
def VRRank (g : Grid) (p : Nat) : Nat := g.Col p + g.Row p * g.width

/-- Invariant of a grid: positive shape, and the diagonal bookkeeping enumerates the
processes as (diagonal, position on the diagonal) pairs without gaps. -/
structure WellFormed (g : Grid) : Prop where
  height_pos : 0 < g.height
  width_pos : 0 < g.width
  md_rank_lt : ∀ p, p < g.Size → g.MDRank p < g.LCM
  md_perp_lt : ∀ p, p < g.Size → g.MDPerpRank p < g.GCD
  md_cover : ∀ d k, d < g.GCD → k < g.LCM →
    ∃ p, p < g.Size ∧ g.MDPerpRank p = d ∧ g.MDRank p = k

end Grid

/-! ## Basic queries of `DistMatrix<T,STAR,MD,BLOCK>` (`STAR_MD.cpp`, lines 162-243) -/

namespace BDM

/-- Query `BDM::ColStride`. -/
def ColStride (_g : Grid) : Int := 1

/-- Query `BDM::RowStride`. -/
def RowStride (g : Grid) : Int := g.LCM

/-- Query `BDM::DistSize`. -/
def DistSize (g : Grid) : Int := g.LCM

/-- Query `BDM::CrossSize`. -/
def CrossSize (g : Grid) : Int := g.GCD

/-- Query `BDM::RedundantSize`. -/
def RedundantSize (_g : Grid) : Int := 1

/-- Query `BDM::PartialColStride`. -/
def PartialColStride (g : Grid) : Int := ColStride g

/-- Query `BDM::PartialRowStride`. -/
def PartialRowStride (g : Grid) : Int := RowStride g

/-- Query `BDM::PartialUnionColStride`. -/
def PartialUnionColStride (_g : Grid) : Int := 1

/-- Query `BDM::PartialUnionRowStride`. -/
def PartialUnionRowStride (_g : Grid) : Int := 1

/-- Query `BDM::DistRank`. -/
def DistRank (g : Grid) (p : Nat) : Int := g.MDRank p

/-- Query `BDM::CrossRank`. -/
def CrossRank (g : Grid) (p : Nat) : Int := g.MDPerpRank p

/-- Query `BDM::RedundantRank`; `undef` stands for the constant `mpi::UNDEFINED`. -/
def RedundantRank (undef : Int) (g : Grid) (p : Nat) : Int :=
  if g.InGrid p then 0 else undef

/-- Query `BDM::ColRank`; `undef` stands for the constant `mpi::UNDEFINED`. -/
def ColRank (undef : Int) (g : Grid) (p : Nat) : Int :=
  if g.InGrid p then 0 else undef

/-- Query `BDM::RowRank`. -/
def RowRank (g : Grid) (p : Nat) : Int := g.MDRank p

/-- Query `BDM::PartialColRank`. -/
def PartialColRank (undef : Int) (g : Grid) (p : Nat) : Int := ColRank undef g p

/-- Query `BDM::PartialRowRank`. -/
def PartialRowRank (g : Grid) (p : Nat) : Int := RowRank g p

end BDM

/-- The 2 x 3 grid with the diagonal bookkeeping obtained by walking the single diagonal
`(j mod 2, j mod 3)`, `j = 0..5`. -/
def grid23 : Grid where
  height := 2
  width := 3
  MDRank := fun p => match p with
    | 0 => 0
    | 3 => 1
    | 4 => 2
    | 1 => 3
    | 2 => 4
    | _ => 5
  MDPerpRank := fun _ => 0

/-! ## Index map (one matrix dimension) -/

/-- Modelled from the spec: the index map (`Shift`, `Length`, `GlobalRow`, ... of
`El/core/indexing`) is absent from the sources.  The ownership predicate in the
spec's words: the process with coordinate `k` owns global index `g` iff
`(g − a) mod s == k`, for stride `s` and alignment `a`. -/
def Owns (s a k g : Int) : Prop := (g - a) % s = k

instance instDecidableOwns (s a k g : Int) : Decidable (Owns s a k g) :=
  inferInstanceAs (Decidable ((g - a) % s = k))

/-- Modelled from the spec: the second statement of the ownership rule,
`owner(g) = (a + g) mod s`. -/
def Owner (s a g : Int) : Int := (a + g) % s

/-- Modelled from the spec: the closed-form local size `LocalCount(n, s, a)`, the ceiling of
`(n − a mod s) / s`, and `0` when `n − a mod s` is not positive.  Its third argument is
reduced modulo the stride; evaluated at `a + k` it is the local size of the process with
coordinate `k` under alignment `a`, whose first owned index is `(a + k) mod s`. -/
def LocalCount (n s a : Int) : Int :=
  if n - a % s ≤ 0 then 0 else (n - a % s + (s - 1)) / s

/-- Modelled from the spec: the first global index owned by the process with coordinate `k`
under the ownership predicate, `(a + k) mod s`. -/
def Shift (k a s : Nat) : Nat := (k + a) % s

/-- Number of indices below `n` owned by a process whose first owned index is `shift`. -/
def Length (n shift s : Nat) : Nat := (LocalCount n s shift).toNat

/-- Modelled from the spec: local index of an owned global index, `(g − shift) div s`. -/
def LocalIndex (g shift s : Nat) : Nat := (g - shift) / s

/-- Modelled from the spec: the inverse of `LocalIndex` on owned indices
(`GlobalRow`/`GlobalCol` of the library). -/
def GlobalIndex (l shift s : Nat) : Nat := shift + l * s

/-- Modelled from the spec: `LocalRowOffset(i)` is absent from the sources; it is the
number of locally owned rows with global index below `i`, in closed form. -/
def LocalRowOffset (colStride colShift i : Int) : Int := LocalCount i colStride colShift

/-- The two triangles of `AxpyTrapezoid`. -/
inductive UpperOrLower where
  | LOWER
  | UPPER
  deriving DecidableEq, Repr

/-- The value `localHeightAbove` that the distributed `AxpyTrapezoid`
(`AxpyTrapezoid.hpp`, lines 104-127) computes for the local column with global index `j`. -/
def localHeightAbove (uplo : UpperOrLower) (colStride colShift j offset : Int) : Int :=
  match uplo with
  | UpperOrLower.UPPER => LocalRowOffset colStride colShift (j + 1 - offset)
  | UpperOrLower.LOWER => LocalRowOffset colStride colShift (j - offset)

/-! ## Distributed matrices -/

/-- The descriptor of a distributed matrix on a fixed grid: the pair of distributions, the
two alignments and the root. -/
structure DistData where
  colDist : Dist
  rowDist : Dist
  colAlign : Nat
  rowAlign : Nat
  root : Nat
  deriving DecidableEq, Repr

namespace Dist

/-- Modelled from the spec: the stride a distribution tag gives to one matrix dimension.
For `MD` the stride is the one `BDM::RowStride` returns, `Grid::LCM()`. -/
def stride (g : Grid) : Dist → Nat
  | MC => g.height
  | MD => g.LCM
  | MR => g.width
  | VC => g.Size
  | VR => g.Size
  | STAR => 1
  | CIRC => 1

/-- Modelled from the spec: the coordinate of process `p` along the communicator of a
distribution tag (process row, process column, linear rank, position on the diagonal;
`0` for `STAR` and `CIRC`). -/
def rank (g : Grid) (p : Nat) : Dist → Nat
  | MC => g.Row p
  | MD => g.MDRank p
  | MR => g.Col p
  | VC => g.VCRank p
  | VR => g.VRRank p
  | STAR => 0
  | CIRC => 0

end Dist

/-- The fourteen pairs of distributions a matrix can have. -/
def legalPairs : List (Dist × Dist) :=
  [(Dist.CIRC, Dist.CIRC), (Dist.MC, Dist.MR), (Dist.MC, Dist.STAR), (Dist.MD, Dist.STAR),
   (Dist.MR, Dist.MC), (Dist.MR, Dist.STAR), (Dist.STAR, Dist.MC), (Dist.STAR, Dist.MD),
   (Dist.STAR, Dist.MR), (Dist.STAR, Dist.STAR), (Dist.STAR, Dist.VC), (Dist.STAR, Dist.VR),
   (Dist.VC, Dist.STAR), (Dist.VR, Dist.STAR)]

namespace DistData

variable (g : Grid) (d : DistData)

/-- Stride of the column distribution (over the row indices). -/
def ColStride : Nat := d.colDist.stride g

/-- Stride of the row distribution (over the column indices). -/
def RowStride : Nat := d.rowDist.stride g

/-- Coordinate of process `p` for the column distribution. -/
def ColRank (p : Nat) : Nat := d.colDist.rank g p

/-- Coordinate of process `p` for the row distribution. -/
def RowRank (p : Nat) : Nat := d.rowDist.rank g p

/-- Modelled from the spec: size of the cross communicator, over which the root is chosen:
the whole grid for `CIRC`, the `gcd(r,c)` diagonals for `MD` (`BDM::CrossSize`), and a single
process otherwise. -/
def CrossSize : Nat :=
  if d.colDist = Dist.CIRC ∨ d.rowDist = Dist.CIRC then g.Size
  else if d.colDist = Dist.MD ∨ d.rowDist = Dist.MD then g.GCD
  else 1

/-- Modelled from the spec: rank of process `p` in the cross communicator: its linear rank
for `CIRC`, its diagonal for `MD` (`BDM::CrossRank`), and `0` otherwise. -/
def CrossRank (p : Nat) : Nat :=
  if d.colDist = Dist.CIRC ∨ d.rowDist = Dist.CIRC then g.VCRank p
  else if d.colDist = Dist.MD ∨ d.rowDist = Dist.MD then g.MDPerpRank p
  else 0

/-- Modelled from the spec: a process takes part in a matrix when it is in the grid and its
cross rank is the root ("processes outside the owning sub-grid receive nothing"). -/
def Participating (p : Nat) : Bool := g.InGrid p && decide (d.CrossRank g p = d.root)

/-- First global row owned by process `p`. -/
def ColShift (p : Nat) : Nat := Shift (d.ColRank g p) d.colAlign (d.ColStride g)

/-- First global column owned by process `p`. -/
def RowShift (p : Nat) : Nat := Shift (d.RowRank g p) d.rowAlign (d.RowStride g)

/-- Invariant of a descriptor: `0 ≤ colAlign < colStride`, `0 ≤ rowAlign < rowStride`, the
root is a rank of the cross communicator, and the pair of distributions is one of the
fourteen. -/
def Valid : Prop :=
  d.colAlign < d.ColStride g ∧ d.rowAlign < d.RowStride g ∧ d.root < d.CrossSize g ∧
    (d.colDist, d.rowDist) ∈ legalPairs

instance instDecidableValid : Decidable (d.Valid g) :=
  inferInstanceAs (Decidable (_ ∧ _ ∧ _ ∧ _))

/-- Process `p` owns the global entry `(i,j)`: it takes part in the matrix and both of its
coordinates satisfy the ownership predicate. -/
def OwnsEntry (p i j : Nat) : Prop :=
  d.Participating g p = true ∧
    Owns (d.ColStride g) d.colAlign (d.ColRank g p) i ∧
    Owns (d.RowStride g) d.rowAlign (d.RowRank g p) j

instance instDecidableOwnsEntry (p i j : Nat) : Decidable (d.OwnsEntry g p i j) :=
  inferInstanceAs (Decidable (_ ∧ _ ∧ _))

/-- Local height on process `p` of a matrix of global height `m`. -/
def LocalHeight (m p : Nat) : Nat :=
  if d.Participating g p then Length m (d.ColShift g p) (d.ColStride g) else 0

/-- Local width on process `p` of a matrix of global width `n`. -/
def LocalWidth (n p : Nat) : Nat :=
  if d.Participating g p then Length n (d.RowShift g p) (d.RowStride g) else 0

/-- Global row of the local row `iLoc` of process `p`. -/
def GlobalRow (p iLoc : Nat) : Nat := GlobalIndex iLoc (d.ColShift g p) (d.ColStride g)

/-- Global column of the local column `jLoc` of process `p`. -/
def GlobalCol (p jLoc : Nat) : Nat := GlobalIndex jLoc (d.RowShift g p) (d.RowStride g)

/-- Local row on process `p` of the global row `i`. -/
def LocalRow (p i : Nat) : Nat := LocalIndex i (d.ColShift g p) (d.ColStride g)

/-- Local column on process `p` of the global column `j`. -/
def LocalCol (p j : Nat) : Nat := LocalIndex j (d.RowShift g p) (d.RowStride g)

end DistData

/-- A distributed matrix on a fixed grid: global height and width, descriptor, and the
local buffer of every process, addressed by local row and local column. -/
structure DistMatrix (T : Type) where
  height : Nat
  width : Nat
  data : DistData
  loc : Nat → Nat → Nat → T

namespace DistMatrix

variable {T : Type}

/-- Accessor `LocalHeight()` on process `p`. -/
def LocalHeight (g : Grid) (A : DistMatrix T) (p : Nat) : Nat := A.data.LocalHeight g A.height p

/-- Accessor `LocalWidth()` on process `p`. -/
def LocalWidth (g : Grid) (A : DistMatrix T) (p : Nat) : Nat := A.data.LocalWidth g A.width p

/-- The value process `p` holds for the global entry `(i,j)`. -/
def Get (g : Grid) (A : DistMatrix T) (p i j : Nat) : T :=
  A.loc p (A.data.LocalRow g p i) (A.data.LocalCol g p j)

/-- All owners of an entry hold the same value for it (redundant copies agree). -/
def Consistent (g : Grid) (A : DistMatrix T) : Prop :=
  ∀ i j p q, i < A.height → j < A.width → A.data.OwnsEntry g p i j → A.data.OwnsEntry g q i j →
    A.Get g p i j = A.Get g q i j

end DistMatrix

/-- Write `SetLocal(iLoc,jLoc,v)` on one local buffer. -/
def SetLocal {T : Type} (L : Nat → Nat → T) (iLoc jLoc : Nat) (v : T) : Nat → Nat → T :=
  fun i j => if i = iLoc ∧ j = jLoc then v else L i j

/-- The process at position `k` of diagonal `d` (the rank-to-process table of the diagonal
communicator). -/
def Grid.MDProc (g : Grid) (d k : Nat) : Nat :=
  ((List.range g.Size).find? (fun p => decide (g.MDPerpRank p = d ∧ g.MDRank p = k))).getD 0

/-! ## Redistribution strategies -/

namespace copy

variable {T : Type}

/-- The local entries of process `q`, column by column, as pairs (local row, local column). -/
def localEntries (g : Grid) (src : DistData) (m n q : Nat) : List (Nat × Nat) :=
  (List.range (src.LocalWidth g n q)).flatMap fun jLoc =>
    (List.range (src.LocalHeight g m q)).map fun iLoc => (iLoc, jLoc)

/-- Modelled from the spec: step (a) of the general-purpose strategy: the run of the local
entries of source process `q` that destination process `p` owns under the destination
descriptor, found with the ownership predicate. -/
def runFor (g : Grid) (src dst : DistData) (m n q p : Nat) : List (Nat × Nat) :=
  (localEntries g src m n q).filter fun e =>
    decide (dst.OwnsEntry g p (src.GlobalRow g q e.1) (src.GlobalCol g q e.2))

/-- Modelled from the spec: step (b): source process `q` packs the run for `p` into a
contiguous send buffer. -/
def pack (g : Grid) (A : DistMatrix T) (dst : DistData) (q p : Nat) : List T :=
  (runFor g A.data dst A.height A.width q p).map fun e => A.loc q e.1 e.2

/-- Modelled from the spec: step (d): destination process `p` unpacks the buffer received
from `q` into its own local buffer, entry by entry, at the local offset its own descriptor
gives to the global index of the entry. -/
def unpack (g : Grid) (src dst : DistData) (m n q p : Nat) (buf : List T)
    (L : Nat → Nat → T) : Nat → Nat → T :=
  ((runFor g src dst m n q p).zip buf).foldl
    (fun L ev => SetLocal L (dst.LocalRow g p (src.GlobalRow g q ev.1.1))
      (dst.LocalCol g p (src.GlobalCol g q ev.1.2)) ev.2) L

/-- Modelled from the spec: `copy::GeneralPurpose` is absent from the sources.  The
destination takes the global shape of the source; every process receives one buffer from
every process of the grid (step (c)) and unpacks them in rank order. -/
def GeneralPurpose (g : Grid) (A B : DistMatrix T) : DistMatrix T where
  height := A.height
  width := A.width
  data := B.data
  loc := fun p => (List.range g.Size).foldl
    (fun L q => unpack g A.data B.data A.height A.width q p (pack g A B.data q p) L) (B.loc p)

/-- Modelled from the spec: `copy::Translate` is absent from the sources (identity with
shift, used for `[STAR,MD] = [STAR,MD]`).  The local buffers are rotated along the diagonal
communicator: the process with row rank `k` under the destination receives the buffer of
the process whose row rank differs by the difference of the alignments, on the diagonal of
the source root. -/
def Translate (g : Grid) (A B : DistMatrix T) : DistMatrix T where
  height := A.height
  width := A.width
  data := B.data
  loc := fun p =>
    if B.data.Participating g p then
      A.loc (g.MDProc A.data.root
        ((B.data.RowRank g p + B.data.rowAlign
            + (B.data.RowStride g - A.data.rowAlign % B.data.RowStride g))
          % B.data.RowStride g))
    else B.loc p

/-- Modelled from the spec: `copy::RowFilter` is absent from the sources (filter on the row
dimension).  No communication: every participating process slices, out of the columns it
already holds, the columns it owns under the destination descriptor. -/
def RowFilter (g : Grid) (A B : DistMatrix T) : DistMatrix T where
  height := A.height
  width := A.width
  data := B.data
  loc := fun p iLoc jLoc =>
    if B.data.Participating g p = true ∧ jLoc < B.data.LocalWidth g A.width p then
      A.loc p iLoc (A.data.LocalCol g p (B.data.GlobalCol g p jLoc))
    else B.loc p iLoc jLoc

end copy

/-! ## Assignment operators of `DistMatrix<T,STAR,MD,BLOCK>` (`STAR_MD.cpp`, lines 24-160) -/

/-- The four strategies of the redistribution engine. -/
inductive Strategy where
  | IdentityWithShift
  | Filter
  | ViaCIRC
  | GeneralPurpose
  deriving DecidableEq, Repr

/-- The routines of namespace `copy` that `STAR_MD.cpp` calls. -/
inductive Routine where
  | GeneralPurpose
  | Translate
  | RowFilter
  deriving DecidableEq, Repr

/-- The strategy a routine of namespace `copy` implements. -/
def Routine.strategy : Routine → Strategy
  | Routine.GeneralPurpose => Strategy.GeneralPurpose
  | Routine.Translate => Strategy.IdentityWithShift
  | Routine.RowFilter => Strategy.Filter

/-- The bodies of the routines of namespace `copy` that `STAR_MD.cpp` calls; they are
defined outside `STAR_MD.cpp`, which only calls them. -/
structure copy.Routines (T : Type) where
  GeneralPurpose : Grid → DistMatrix T → DistMatrix T → DistMatrix T
  Translate : Grid → DistMatrix T → DistMatrix T → DistMatrix T
  RowFilter : Grid → DistMatrix T → DistMatrix T → DistMatrix T

/-- The routines as the redistribution engine of the spec describes them. -/
def copy.engine (T : Type) : copy.Routines T where
  GeneralPurpose := copy.GeneralPurpose
  Translate := copy.Translate
  RowFilter := copy.RowFilter

/-- Run a routine of namespace `copy`: `copy::r( A, B )`. -/
def Routine.run {T : Type} (impl : copy.Routines T) (r : Routine) (g : Grid)
    (A B : DistMatrix T) : DistMatrix T :=
  match r with
  | Routine.GeneralPurpose => impl.GeneralPurpose g A B
  | Routine.Translate => impl.Translate g A B
  | Routine.RowFilter => impl.RowFilter g A B

/-- Outcome of an assignment `B = A`: the destination after the call, the object the
operator returns, and the routines of namespace `copy` that were called, in order. -/
structure Assigned (T : Type) where
  self : DistMatrix T
  returned : DistMatrix T
  calls : List Routine

namespace BDM

variable {T : Type}

/-- The body shared by every overload: one call `copy::r( A, *this )`, then `return *this`. -/
def callAndReturnThis (impl : copy.Routines T) (r : Routine) (g : Grid)
    (A B : DistMatrix T) : Assigned T :=
  let this := r.run impl g A B
  { self := this, returned := this, calls := [r] }

/-- The overloads `BDM::operator=( const DistMatrix<T,U,V,BLOCK>& A )`, selected by the
static type `[U,V]` of the source; there is none for a pair outside the fourteen. -/
def assign (impl : copy.Routines T) (U V : Dist) (g : Grid) (A B : DistMatrix T) :
    Option (Assigned T) :=
  match U, V with
  | Dist.MC, Dist.MR => some (callAndReturnThis impl Routine.GeneralPurpose g A B)
  | Dist.MC, Dist.STAR => some (callAndReturnThis impl Routine.GeneralPurpose g A B)
  | Dist.STAR, Dist.MR => some (callAndReturnThis impl Routine.GeneralPurpose g A B)
  | Dist.MD, Dist.STAR => some (callAndReturnThis impl Routine.GeneralPurpose g A B)
  | Dist.STAR, Dist.MD => some (callAndReturnThis impl Routine.Translate g A B)
  | Dist.MR, Dist.MC => some (callAndReturnThis impl Routine.GeneralPurpose g A B)
  | Dist.MR, Dist.STAR => some (callAndReturnThis impl Routine.GeneralPurpose g A B)
  | Dist.STAR, Dist.MC => some (callAndReturnThis impl Routine.GeneralPurpose g A B)
  | Dist.VC, Dist.STAR => some (callAndReturnThis impl Routine.GeneralPurpose g A B)
  | Dist.STAR, Dist.VC => some (callAndReturnThis impl Routine.GeneralPurpose g A B)
  | Dist.VR, Dist.STAR => some (callAndReturnThis impl Routine.GeneralPurpose g A B)
  | Dist.STAR, Dist.VR => some (callAndReturnThis impl Routine.GeneralPurpose g A B)
  | Dist.STAR, Dist.STAR => some (callAndReturnThis impl Routine.RowFilter g A B)
  | Dist.CIRC, Dist.CIRC => some (callAndReturnThis impl Routine.GeneralPurpose g A B)
  | _, _ => none

/-- Operator `BDM::operator=( const BlockMatrix<T>& A )`: the guard reads the distribution pair of
the source at run time and the payload calls the overload for that pair. -/
def assignBlockMatrix (impl : copy.Routines T) (g : Grid) (A B : DistMatrix T) :
    Option (Assigned T) :=
  assign impl A.data.colDist A.data.rowDist g A B

/-- The eleven source distributions whose overload is marked
"TODO: More efficient implementation" and is not `[CIRC,CIRC]`. -/
def mismatchedPairs : List (Dist × Dist) :=
  [(Dist.MC, Dist.MR), (Dist.MC, Dist.STAR), (Dist.STAR, Dist.MR), (Dist.MD, Dist.STAR),
   (Dist.MR, Dist.MC), (Dist.MR, Dist.STAR), (Dist.STAR, Dist.MC), (Dist.VC, Dist.STAR),
   (Dist.STAR, Dist.VC), (Dist.VR, Dist.STAR), (Dist.STAR, Dist.VR)]

end BDM

/-! ## Example matrices on the 2 x 3 grid -/

/-- A matrix with the given shape and descriptor whose entry `(i,j)` is `100 i + j`. -/
def exampleMatrix (d : DistData) (m n : Nat) : DistMatrix Int where
  height := m
  width := n
  data := d
  loc := fun p iLoc jLoc => 100 * (d.GlobalRow grid23 p iLoc) + d.GlobalCol grid23 p jLoc

/-- A 3 x 7 matrix distributed `[MC,MR]` with alignments 1 and 2. -/
def exampleMCMR : DistMatrix Int := exampleMatrix ⟨Dist.MC, Dist.MR, 1, 2, 0⟩ 3 7

/-- A 3 x 7 matrix distributed `[CIRC,CIRC]` with root 3. -/
def exampleCIRC : DistMatrix Int := exampleMatrix ⟨Dist.CIRC, Dist.CIRC, 0, 0, 3⟩ 3 7

/-- An empty `[STAR,MD]` matrix with row alignment 2. -/
def exampleSTARMD : DistMatrix Int where
  height := 0
  width := 0
  data := ⟨Dist.STAR, Dist.MD, 0, 2, 0⟩
  loc := fun _ _ _ => 0

/-! ## Round trip through `[STAR,MD]` -/

namespace copy

variable {T : Type}

/-- Modelled from the spec: the assignment `C = B` of a `[STAR,MD]` matrix `B` to a matrix
`C` of another distribution is an operator of that distribution, absent from the sources.
When `C` is `[STAR,MD]` itself it is the overload of `STAR_MD.cpp` (identity with shift);
for every other destination it is the general-purpose exchange of the redistribution
engine. -/
def assignFromSTARMD (g : Grid) (B C : DistMatrix T) : DistMatrix T :=
  if C.data.colDist = Dist.STAR ∧ C.data.rowDist = Dist.MD then
    (BDM.callAndReturnThis (copy.engine T) Routine.Translate g B C).self
  else GeneralPurpose g B C

/-- The round trip `B = A; C = B` through the `[STAR,MD]` matrix `B`. -/
def roundTrip (g : Grid) (A B C : DistMatrix T) : Option (DistMatrix T) :=
  (BDM.assignBlockMatrix (copy.engine T) g A B).map fun R => assignFromSTARMD g R.self C

end copy

/-- An empty matrix with the descriptor of the `[MC,MR]` example. -/
def exampleTarget : DistMatrix Int where
  height := 0
  width := 0
  data := exampleMCMR.data
  loc := fun _ _ _ => 0

/-! ## User-defined reductions for `Int` (`mpi_register.cpp`, lines 183-220) -/

namespace mpi

/-- The two file-scope objects `::userIntFunc` and `::userIntCommFunc`; a `std::function` may
be empty (`none`). -/
structure UserIntFuncs where
  userIntFunc : Option (Int → Int → Int)
  userIntCommFunc : Option (Int → Int → Int)

/-- Specialisation `SetUserReduceFunc<Int>( func, commutative )`. -/
def SetUserReduceFunc (func : Int → Int → Int) (commutative : Bool) (st : UserIntFuncs) :
    UserIntFuncs :=
  if commutative then { st with userIntCommFunc := some func }
  else { st with userIntFunc := some func }

/-- The loop `for( int j=0; j<length; ++j ) outData[j] = f(inData[j],outData[j]);` on the
buffer `outData`. -/
def reduceLoop (f : Int → Int → Int) (inData outData : Nat → Int) (length : Int) : Nat → Int :=
  (List.range length.toNat).foldl
    (fun out j => Function.update out j (f (inData j) (out j))) outData

/-- The body shared by the two callbacks: the input buffer is read only, the loop calls the
stored function, and calling an empty `std::function` is fatal (`none`).  The result is the
pair of the input and the output buffer after the call. -/
def reduceWith (f : Option (Int → Int → Int)) (inData outData : Nat → Int) (length : Int) :
    Option ((Nat → Int) × (Nat → Int)) :=
  match f with
  | some f => some (inData, reduceLoop f inData outData length)
  | none => if length ≤ 0 then some (inData, outData) else none

/-- Callback `UserIntReduce( inVoid, outVoid, lengthPtr, datatype )`. -/
def UserIntReduce (st : UserIntFuncs) (inData outData : Nat → Int) (length : Int) :
    Option ((Nat → Int) × (Nat → Int)) :=
  reduceWith st.userIntFunc inData outData length

/-- Callback `UserIntReduceComm( inVoid, outVoid, lengthPtr, datatype )`. -/
def UserIntReduceComm (st : UserIntFuncs) (inData outData : Nat → Int) (length : Int) :
    Option ((Nat → Int) × (Nat → Int)) :=
  reduceWith st.userIntCommFunc inData outData length

/-- The callback registered for the given commutativity flag (`CreateCustom` registers
`UserIntReduce` with `false` and `UserIntReduceComm` with `true`). -/
def userCallback (commutative : Bool) (st : UserIntFuncs) (inData outData : Nat → Int)
    (length : Int) : Option ((Nat → Int) × (Nat → Int)) :=
  if commutative then UserIntReduceComm st inData outData length
  else UserIntReduce st inData outData length

end mpi

/-! ## `AxpyTrapezoid` on dense and on sparse matrices (`AxpyTrapezoid.hpp`, lines 15-76) -/

/-- Outcome of a routine that may call `LogicError`: the state of the object it works on
when it returns or raises, and the message when it raises. -/
structure Outcome (σ : Type) where
  state : σ
  error : Option String

/-- A sequential `Matrix<T>`: height, width, leading dimension and the column-major buffer
(`Height()`, `Width()`, `LDim()`, `Buffer()`), entry `(i,j)` at `buf[i + j*ldim]`. -/
structure Matrix (T : Type) where
  height : Int
  width : Int
  ldim : Int
  buf : Int → T

/-- Entry `(i,j)` of a sequential matrix. -/
def Matrix.Get {T : Type} (A : Matrix T) (i j : Int) : T := A.buf (i + j * A.ldim)

/-- The BLAS routine `blas::Axpy( n, alpha, x, 1, y, 1 )` with `x` at offset `xOff` of one
buffer and `y` at offset `yOff` of another: `y[k] += alpha*x[k]` for `k = 0..n-1`. -/
def blas.Axpy {T : Type} [Add T] [Mul T] (n : Int) (alpha : T) (x : Int → T) (xOff : Int)
    (y : Int → T) (yOff : Int) : Int → T :=
  (List.range n.toNat).foldl
    (fun y (k : Nat) =>
      Function.update y (yOff + k) (y (yOff + k) + alpha * x (xOff + k))) y

/-- The check of the dense overload: `X` and `Y` are square of the same order. -/
def Nonconformal {T : Type} (X Y : Matrix T) : Prop :=
  X.height ≠ X.width ∨ Y.height ≠ Y.width ∨ X.height ≠ Y.height

instance instDecidableNonconformal {T : Type} (X Y : Matrix T) : Decidable (Nonconformal X Y) :=
  inferInstanceAs (Decidable (_ ∨ _ ∨ _))

/-- The value a signed integer of `w` bits holds for the mathematical result `x` of an
operation on `Int`: `x` itself when it is in range, and `x` reduced modulo `2^w` into the
range otherwise (an overflow wraps around, as two's complement hardware computes it). -/
def wrapInt (w : Nat) (x : Int) : Int :=
  (x + ((2 ^ (w - 1) : Nat) : Int)) % ((2 ^ w : Nat) : Int) - ((2 ^ (w - 1) : Nat) : Int)

/-- The values of a signed integer of `w` bits. -/
def InRange (w : Nat) (x : Int) : Prop :=
  -((2 ^ (w - 1) : Nat) : Int) ≤ x ∧ x < ((2 ^ (w - 1) : Nat) : Int)

instance instDecidableInRange (w : Nat) (x : Int) : Decidable (InRange w x) :=
  inferInstanceAs (Decidable (_ ∧ _))

/-- Where the buffer of the read-only argument `X` of a routine lies: in storage of its
own, or in the storage of the updated argument `Y`, `d` positions behind the start of the
buffer of `Y` (`X.LockedBuffer() == Y.Buffer() + d`; `d = 0` when `X` and `Y` are the same
matrix). -/
inductive Storage where
  | separate
  | shared (d : Int)
  deriving DecidableEq, Repr

/-- The entry `XBuf[pos]` of the buffer of `X` while the storage of `Y` holds `YBuf`. -/
def Storage.read {T : Type} (st : Storage) (X : Matrix T) (YBuf : Int → T) (pos : Int) : T :=
  match st with
  | Storage.separate => X.buf pos
  | Storage.shared d => YBuf (d + pos)

/-- The matrix `X` after a call that writes through `Y` alone and leaves `Y2`: `X` keeps its
buffer when it has storage of its own, and shows the new contents of the storage of `Y`
when its buffer lies there. -/
def Storage.after {T : Type} (st : Storage) (X Y2 : Matrix T) : Matrix T :=
  match st with
  | Storage.separate => X
  | Storage.shared d => { X with buf := fun pos => Y2.buf (d + pos) }

/-- The BLAS routine `blas::Axpy( n, alpha, x, 1, y, 1 )` when `x` may lie in the storage of
`y`: `y[k] += alpha*x[k]` for `k = 0..n-1` in this order, where `rd y q` is the entry at
position `q` of the buffer `x` belongs to while the storage of `y` holds `y`. -/
def blas.AxpyFrom {T : Type} [Add T] [Mul T] (n : Int) (alpha : T)
    (rd : (Int → T) → Int → T) (xOff : Int) (y : Int → T) (yOff : Int) : Int → T :=
  (List.range n.toNat).foldl
    (fun y (k : Nat) =>
      Function.update y (yOff + k) (y (yOff + k) + alpha * rd y (xOff + k))) y

/-- The dense overload `AxpyTrapezoid( uplo, alphaS, X, Y, offset )`.  The flag `debug` says
whether the build expands `DEBUG_ONLY( ... )` to its argument (the macro is defined outside
the sources at hand); `w` is the number of bits of the type `Int` of the build, and every
operation on `Int` is taken in `w` bits; `st` says where the buffer of `X` lies, so that a
call with `X` and `Y` sharing storage reads what it has written; `alpha` is `T(alphaS)`.
The result is `Y` after the call, and `st.after X` of it is `X` after the call. -/
def AxpyTrapezoid {T : Type} [Add T] [Mul T] (w : Nat) (debug : Bool) (uplo : UpperOrLower)
    (alpha : T) (X Y : Matrix T) (st : Storage) (offset : Int) : Outcome (Matrix T) :=
  if debug = true ∧ Nonconformal X Y then
    { state := Y, error := some "Nonconformal AxpyTrapezoid" }
  else
    let m := X.height
    let n := X.width
    let XLDim := X.ldim
    let YLDim := Y.ldim
    let YBuf :=
      match uplo with
      | UpperOrLower.UPPER =>
        (List.range n.toNat).foldl
          (fun YBuf (j : Nat) =>
            let iSize := max (min (wrapInt w (wrapInt w ((j : Int) + 1) - offset)) m) 0
            blas.AxpyFrom iSize alpha (st.read X) (wrapInt w (j * XLDim)) YBuf
              (wrapInt w (j * YLDim))) Y.buf
      | UpperOrLower.LOWER =>
        (List.range n.toNat).foldl
          (fun YBuf (j : Nat) =>
            let i := max (min (wrapInt w ((j : Int) - offset)) m) 0
            blas.AxpyFrom (wrapInt w (m - i)) alpha (st.read X)
              (wrapInt w (i + wrapInt w (j * XLDim))) YBuf
              (wrapInt w (i + wrapInt w (j * YLDim)))) Y.buf
    { state := { Y with buf := YBuf }, error := none }

/-- The part of `SparseMatrix<T>` that `AxpyTrapezoid` uses, for a representation `S` of the
class (the class is defined outside the sources at hand): the sizes, the three locked
buffers read at position `k`, and the three mutators. -/
structure SparseInterface (S T : Type) where
  Height : S → Int
  Width : S → Int
  NumEntries : S → Int
  LockedValueBuffer : S → Nat → T
  LockedSourceBuffer : S → Nat → Int
  LockedTargetBuffer : S → Nat → Int
  Reserve : S → Int → S
  QueueUpdate : S → Int → Int → T → S
  ProcessQueues : S → S

/-- The test that decides whether entry `(i,j)` of `X` is queued. -/
def inTrapezoid (uplo : UpperOrLower) (i j offset : Int) : Bool :=
  (uplo = UpperOrLower.UPPER && decide (j - i ≥ offset)) ||
    (uplo = UpperOrLower.LOWER && decide (j - i ≤ offset))

/-- The difference that the loops of the dense overload form for column `j`: `j+1-offset`
for the upper triangle and `j-offset` for the lower one. -/
def trapezoidEdge (uplo : UpperOrLower) (j offset : Int) : Int :=
  match uplo with
  | UpperOrLower.UPPER => j + 1 - offset
  | UpperOrLower.LOWER => j - offset

/-- The first row of column `j` inside the trapezoid of a matrix of height `m`: the clamped
value that the loops of the dense overload form, without overflow. -/
def rowLo (uplo : UpperOrLower) (m offset : Int) (j : Nat) : Int :=
  match uplo with
  | UpperOrLower.UPPER => 0
  | UpperOrLower.LOWER => max (min ((j : Int) - offset) m) 0

/-- The row behind the last row of column `j` inside the trapezoid of a matrix of height
`m`. -/
def rowHi (uplo : UpperOrLower) (m offset : Int) (j : Nat) : Int :=
  match uplo with
  | UpperOrLower.UPPER => max (min ((j : Int) + 1 - offset) m) 0
  | UpperOrLower.LOWER => m

/-- The sparse overload `AxpyTrapezoid( uplo, alphaS, X, Y, offset )`; `alpha` is
`T(alphaS)`. -/
def AxpyTrapezoidSparse {S T : Type} [Mul T] (ops : SparseInterface S T) (uplo : UpperOrLower)
    (alpha : T) (X Y : S) (offset : Int) : Outcome S :=
  if ops.Height X ≠ ops.Height Y ∨ ops.Width X ≠ ops.Width Y then
    { state := Y, error := some "X and Y must have the same dimensions" }
  else
    let numEntries := ops.NumEntries X
    let Y1 := ops.Reserve Y (ops.NumEntries Y + numEntries)
    let Y2 := (List.range numEntries.toNat).foldl
      (fun Y k =>
        let i := ops.LockedSourceBuffer X k
        let j := ops.LockedTargetBuffer X k
        if inTrapezoid uplo i j offset then
          ops.QueueUpdate Y i j (alpha * ops.LockedValueBuffer X k)
        else Y) Y1
    { state := ops.ProcessQueues Y2, error := none }

/-- A sparse matrix as the list of its (row, column, value) triplets, with the queue of
pending updates, to run the sparse overload on. -/
structure TripletMatrix where
  height : Int
  width : Int
  entries : List (Int × Int × Int)
  queue : List (Int × Int × Int)
  deriving DecidableEq, Repr

/-- The interface of `TripletMatrix`: `QueueUpdate` appends to the queue and
`ProcessQueues` moves the queue into the entries. -/
def tripletInterface : SparseInterface TripletMatrix Int where
  Height := fun A => A.height
  Width := fun A => A.width
  NumEntries := fun A => A.entries.length
  LockedValueBuffer := fun A k => (A.entries.getD k (0, 0, 0)).2.2
  LockedSourceBuffer := fun A k => (A.entries.getD k (0, 0, 0)).1
  LockedTargetBuffer := fun A k => (A.entries.getD k (0, 0, 0)).2.1
  Reserve := fun A _ => A
  QueueUpdate := fun A i j v => { A with queue := A.queue ++ [(i, j, v)] }
  ProcessQueues := fun A => { A with entries := A.entries ++ A.queue, queue := [] }

/-- A 1 x 2 dense matrix with constant entries. -/
def exampleRow (v : Int) : Matrix Int where
  height := 1
  width := 2
  ldim := 1
  buf := fun _ => v

/-! ## Combinatorial helpers (`include/El/core/random/impl.hpp`, lines 15-100) -/

/-- The arithmetic of the template parameter `Real`: conversion from `Int`, the four
operations, `Log` and `Exp`.  Nothing is assumed of the operations, so that a floating-point
type is an instance as well as an exact field. -/
structure Arith (R : Type) where
  ofInt : Int → R
  add : R → R → R
  sub : R → R → R
  mul : R → R → R
  div : R → R → R
  Log : R → R
  Exp : R → R

/-- Exact arithmetic in a field, with a given logarithm and exponential. -/
def Arith.exact (R : Type) [Field R] (Log Exp : R → R) : Arith R where
  ofInt := fun z => (z : R)
  add := fun x y => x + y
  sub := fun x y => x - y
  mul := fun x y => x * y
  div := fun x y => x / y
  Log := Log
  Exp := Exp

/-- The message of `LogicError("Choose(",n,",",k,") is not defined")`. -/
def notDefinedMessage (n k : Int) : String :=
  "Choose(" ++ toString n ++ "," ++ toString k ++ ") is not defined"

/-- The loop `for( Int j=0; j<k; ++j ) product *= Real(n-j)/Real(k-j);` from `product = 1`. -/
def chooseLoop {R : Type} (ar : Arith R) (n k : Int) : R :=
  (List.range k.toNat).foldl
    (fun product (j : Nat) => ar.mul product (ar.div (ar.ofInt (n - j)) (ar.ofInt (k - j))))
    (ar.ofInt 1)

/-- Function `Choose<Real>( n, k )`. -/
def Choose {R : Type} (ar : Arith R) (n k : Int) : Except String R :=
  if k < 0 ∨ k > n then Except.error (notDefinedMessage n k)
  else
    let k := if n - k < k then n - k else k
    Except.ok (chooseLoop ar n k)

/-- The loop `for( Int j=0; j<k; ++j ) logProd += Log(Real(n-j)/Real(k-j));` from
`logProd = 0`. -/
def logChooseLoop {R : Type} (ar : Arith R) (n k : Int) : R :=
  (List.range k.toNat).foldl
    (fun logProd (j : Nat) =>
      ar.add logProd (ar.Log (ar.div (ar.ofInt (n - j)) (ar.ofInt (k - j)))))
    (ar.ofInt 0)

/-- Function `LogChoose<Real>( n, k )`. -/
def LogChoose {R : Type} (ar : Arith R) (n k : Int) : Except String R :=
  if k < 0 ∨ k > n then Except.error (notDefinedMessage n k)
  else
    let k := if n - k < k then n - k else k
    Except.ok (logChooseLoop ar n k)

/-- One pass `for( Int k=1; k<j; ++k ) binomTmp[k] = Log(Exp(binom[k]-binom[k-1])+1) +
binom[k-1];` of `LogBinomial`. -/
def logBinomialPass {R : Type} (ar : Arith R) (j : Nat) (binom binomTmp : Nat → R) : Nat → R :=
  (List.range' 1 (j - 1)).foldl
    (fun tmp (k : Nat) =>
      Function.update tmp k
        (ar.add (ar.Log (ar.add (ar.Exp (ar.sub (binom k) (binom (k - 1)))) (ar.ofInt 1)))
          (binom (k - 1))))
    binomTmp

/-- Function `LogBinomial<Real>( n )`: the two vectors of length `n+1` start at zero, the
passes `j = 1..n` each end with `binom = binomTmp`, and `binom` is returned. -/
def LogBinomial {R : Type} (ar : Arith R) (n : Int) : List R :=
  let final := (List.range' 1 n.toNat).foldl
    (fun (st : (Nat → R) × (Nat → R)) (j : Nat) =>
      let binomTmp := logBinomialPass ar j st.1 st.2
      (binomTmp, binomTmp))
    ((fun _ => ar.ofInt 0), (fun _ => ar.ofInt 0))
  (List.range (n + 1).toNat).map final.1

/-- One pass `for( Int k=1; k<j; ++k ) eulerTmp[k] =
Log((k+1)*Exp(euler[k]-euler[k-1])+j-k+1) + euler[k-1];` of `LogEulerian`. -/
def logEulerianPass {R : Type} (ar : Arith R) (j : Nat) (euler eulerTmp : Nat → R) : Nat → R :=
  (List.range' 1 (j - 1)).foldl
    (fun tmp (k : Nat) =>
      Function.update tmp k
        (ar.add
          (ar.Log
            (ar.add
              (ar.sub
                (ar.add (ar.mul (ar.ofInt ((k : Int) + 1))
                  (ar.Exp (ar.sub (euler k) (euler (k - 1))))) (ar.ofInt j))
                (ar.ofInt k))
              (ar.ofInt 1)))
          (euler (k - 1))))
    eulerTmp

/-- Function `LogEulerian<Real>( n )`: the two vectors of length `n` start at zero, the
passes `j = 1..n-1` each end with `euler = eulerTmp`, and `euler` is returned. -/
def LogEulerian {R : Type} (ar : Arith R) (n : Int) : List R :=
  let final := (List.range' 1 (n - 1).toNat).foldl
    (fun (st : (Nat → R) × (Nat → R)) (j : Nat) =>
      let eulerTmp := logEulerianPass ar j st.1 st.2
      (eulerTmp, eulerTmp))
    ((fun _ => ar.ofInt 0), (fun _ => ar.ofInt 0))
  (List.range n.toNat).map final.1

/-- The Eulerian numbers in the words of the claim: `A(n,k) = (k+1) A(n-1,k) +
(n-k) A(n-1,k-1)` with `A(1,0) = 1`, extended by the row `A(0,0) = 1` and by zero outside
`0 <= k < n`. -/
def Eulerian : Nat → Nat → Nat
  | 0, 0 => 1
  | 0, _ + 1 => 0
  | n + 1, 0 => Eulerian n 0
  | n + 1, k + 1 => (k + 2) * Eulerian n (k + 1) + (n + 1 - (k + 1)) * Eulerian n k

/-! ## The Lauchli matrix (`src/matrices/Lauchli.cpp`) -/

/-- Write `A.Set(i,j,v)` on a sequential matrix. -/
def Matrix.Set {T : Type} (A : Matrix T) (i j : Int) (v : T) : Matrix T :=
  { A with buf := Function.update A.buf (i + j * A.ldim) v }

/-- The entries of an `m x n` window, column by column. -/
def windowEntries (m n : Int) : List (Int × Int) :=
  (List.range n.toNat).flatMap fun (j : Nat) =>
    (List.range m.toNat).map fun (i : Nat) => ((i : Int), (j : Int))

/-- Library routine `Zeros( A, m, n )` on a sequential matrix (defined outside the sources at
hand): `A` is resized to `m x n`, keeping its leading dimension when the old buffer is large
enough and taking `Max(m,1)` otherwise, and every entry is set to zero. -/
def Zeros {T : Type} [Zero T] (A : Matrix T) (m n : Int) : Matrix T where
  height := m
  width := n
  ldim := if m > A.ldim ∨ n > A.width then max m 1 else A.ldim
  buf := fun _ => 0

/-- The view `A( IR(iBeg,iEnd), ALL )` of a block of rows: it shares the buffer of `A`,
starting at row `iBeg`, and keeps the leading dimension of `A`. -/
def RowView {T : Type} (A : Matrix T) (iBeg iEnd : Int) : Matrix T where
  height := iEnd - iBeg
  width := A.width
  ldim := A.ldim
  buf := fun idx => A.buf (iBeg + idx)

/-- The matrix `A` after its row view starting at `iBeg` has been written to: the two share
one buffer. -/
def throughRowView {T : Type} (A : Matrix T) (iBeg : Int) (view : Matrix T) : Matrix T :=
  { A with buf := fun idx => view.buf (idx - iBeg) }

/-- Library routine `Fill( A, alpha )` on a sequential matrix (defined outside the sources at
hand): every entry is set to `alpha`. -/
def Fill {T : Type} (A : Matrix T) (alpha : T) : Matrix T :=
  (windowEntries A.height A.width).foldl (fun B e => B.Set e.1 e.2 alpha) A

/-- Library routine `FillDiagonal( A, alpha, offset )` on a sequential matrix (defined
outside the sources at hand): the entries `(j - offset, j)` inside the matrix are set to
`alpha`. -/
def FillDiagonal {T : Type} (A : Matrix T) (alpha : T) (offset : Int) : Matrix T :=
  (List.range A.width.toNat).foldl
    (fun B (j : Nat) =>
      let i := (j : Int) - offset
      if 0 ≤ i ∧ i < A.height then B.Set i j alpha else B) A

/-- Function `Lauchli( Matrix<T>& A, Int n, T mu )`. -/
def Lauchli {T : Type} [Zero T] [One T] (A : Matrix T) (n : Int) (mu : T) : Matrix T :=
  let A1 := Zeros A (n + 1) n
  let a0 := RowView A1 0 1
  let A2 := throughRowView A1 0 (Fill a0 1)
  FillDiagonal A2 mu (-1)

namespace DistMatrix

variable {T : Type}

/-- Library routine `Zeros( A, m, n )` on a distributed matrix (defined outside the sources
at hand): the matrix is resized to `m x n` under its descriptor and every local entry is
set to zero. -/
def Zeros [Zero T] (A : DistMatrix T) (m n : Int) : DistMatrix T where
  height := m.toNat
  width := n.toNat
  data := A.data
  loc := fun _ _ _ => 0

/-- The calls `View( *a0, A, IR(iBeg,iEnd), ALL ); Fill( *a0, alpha );` on a distributed
matrix (the routines are defined outside the sources at hand): the view shares the local
buffers of `A`, and every process sets the local entries whose global row lies in
`[iBeg,iEnd)` to `alpha`. -/
def FillRows (g : Grid) (A : DistMatrix T) (iBeg iEnd : Nat) (alpha : T) : DistMatrix T :=
  { A with
    loc := fun p iLoc jLoc =>
      if iLoc < A.LocalHeight g p ∧ jLoc < A.LocalWidth g p ∧
          iBeg ≤ A.data.GlobalRow g p iLoc ∧ A.data.GlobalRow g p iLoc < iEnd then alpha
      else A.loc p iLoc jLoc }

/-- Library routine `FillDiagonal( A, alpha, offset )` on a distributed matrix (defined
outside the sources at hand): every process sets the local entries whose global indices
satisfy `j - i = offset` to `alpha`. -/
def FillDiagonal (g : Grid) (A : DistMatrix T) (alpha : T) (offset : Int) : DistMatrix T :=
  { A with
    loc := fun p iLoc jLoc =>
      if iLoc < A.LocalHeight g p ∧ jLoc < A.LocalWidth g p ∧
          (A.data.GlobalCol g p jLoc : Int) - (A.data.GlobalRow g p iLoc : Int) = offset then
        alpha
      else A.loc p iLoc jLoc }

/-- Function `Lauchli( ElementalMatrix<T>& A, Int n, T mu )`. -/
def Lauchli [Zero T] [One T] (g : Grid) (A : DistMatrix T) (n : Int) (mu : T) : DistMatrix T :=
  let A1 := Zeros A (n + 1) n
  let A2 := FillRows g A1 0 1 1
  FillDiagonal g A2 mu (-1)

end DistMatrix

/-- The value of the Lauchli matrix at `(i,j)`. -/
def lauchliEntry {T : Type} [Zero T] [One T] (mu : T) (i j : Int) : T :=
  if i = 0 then 1 else if i = j + 1 then mu else 0

/-- The distribution pairs that replicate every entry on several processes of a larger
grid: one dimension `STAR` and the other `MC` or `MR`, or both `STAR`. -/
def redundantPairs : List (Dist × Dist) :=
  [(Dist.MC, Dist.STAR), (Dist.MR, Dist.STAR), (Dist.STAR, Dist.MC), (Dist.STAR, Dist.MR),
   (Dist.STAR, Dist.STAR)]

/-- A 2 x 2 dense matrix with constant entries and leading dimension `2^31 - 1`, as a view
of two columns of a tall matrix has. -/
def exampleStrided (v : Int) : Matrix Int where
  height := 2
  width := 2
  ldim := 2147483647
  buf := fun _ => v

/-- A 2 x 2 dense matrix with constant entries and leading dimension 2; the positions of
the buffer behind the matrix hold the same constant. -/
def exampleSquare (v : Int) : Matrix Int where
  height := 2
  width := 2
  ldim := 2
  buf := fun _ => v

/-! ## Distributed matrices as kernels see them (`AxpyTrapezoid.hpp`, lines 78-136) -/

/-- An `ElementalMatrix<T>` as a kernel sees it on the processes of the grid: the global
shape, the descriptor `DistData()`, and for every process its local matrix `Matrix()`, whose
height, width, buffer and leading dimension are `LocalHeight()`, `LocalWidth()`, `Buffer()`
and `LDim()`. -/
structure ElementalMatrix (T : Type) where
  height : Nat
  width : Nat
  data : DistData
  matrix : Nat → Matrix T

/-- Accessor `LocalHeight()` on process `p`. -/
def ElementalMatrix.LocalHeight {T : Type} (A : ElementalMatrix T) (p : Nat) : Int :=
  (A.matrix p).height

/-- Accessor `LocalWidth()` on process `p`. -/
def ElementalMatrix.LocalWidth {T : Type} (A : ElementalMatrix T) (p : Nat) : Int :=
  (A.matrix p).width

/-- Invariant of a distributed matrix: on every process the local shape is the one the index
map gives for the global shape and the descriptor, and the leading dimension is at least the
local height and at least 1. -/
def ElementalMatrix.WellFormed {T : Type} (g : Grid) (A : ElementalMatrix T) : Prop :=
  ∀ p, (A.matrix p).height = A.data.LocalHeight g A.height p ∧
    (A.matrix p).width = A.data.LocalWidth g A.width p ∧
    max (A.matrix p).height 1 ≤ (A.matrix p).ldim

/-- The loops of the distributed overload on process `p`, taken when
`XDistData == YDistData` (lines 96-127): for every local column, one `blas::Axpy` on the
local buffers, with the row count (upper triangle) or the first row (lower triangle) read
from `LocalRowOffset`. -/
def AxpyTrapezoidLocal {T : Type} [Add T] [Mul T] (uplo : UpperOrLower) (alpha : T) (g : Grid)
    (X Y : ElementalMatrix T) (offset : Int) (p : Nat) : Matrix T :=
  let localHeight := X.LocalHeight p
  let localWidth := X.LocalWidth p
  let XBuffer := (X.matrix p).buf
  let XLDim := (X.matrix p).ldim
  let YLDim := (Y.matrix p).ldim
  let YBuffer :=
    match uplo with
    | UpperOrLower.UPPER =>
      (List.range localWidth.toNat).foldl
        (fun YBuffer (jLoc : Nat) =>
          let j : Int := X.data.GlobalCol g p jLoc
          let above := localHeightAbove UpperOrLower.UPPER (X.data.ColStride g)
            (X.data.ColShift g p) j offset
          blas.Axpy above alpha XBuffer (jLoc * XLDim) YBuffer (jLoc * YLDim)) (Y.matrix p).buf
    | UpperOrLower.LOWER =>
      (List.range localWidth.toNat).foldl
        (fun YBuffer (jLoc : Nat) =>
          let j : Int := X.data.GlobalCol g p jLoc
          let above := localHeightAbove UpperOrLower.LOWER (X.data.ColStride g)
            (X.data.ColShift g p) j offset
          let localHeightBelow := localHeight - above
          blas.Axpy localHeightBelow alpha XBuffer (above + jLoc * XLDim) YBuffer
            (above + jLoc * YLDim)) (Y.matrix p).buf
  { Y.matrix p with buf := YBuffer }

/-- The distributed overload `AxpyTrapezoid( uplo, alphaS, X, Y, offset )` on all processes
of one grid.  The flag `debug` is as for the dense overload; `Copy X d p` is the local matrix
on process `p` of the copy of `X` that `Copy( X, *XCopy )` leaves in a matrix aligned with
the descriptor `d` (the routine is defined outside the sources at hand).  The recursive call
on `XCopy` meets equal descriptors and equal shapes, so it runs the loops. -/
def ElementalMatrix.AxpyTrapezoid {T : Type} [Add T] [Mul T] (debug : Bool)
    (Copy : ElementalMatrix T → DistData → Nat → Matrix T) (uplo : UpperOrLower) (alpha : T)
    (g : Grid) (X Y : ElementalMatrix T) (offset : Int) : Outcome (ElementalMatrix T) :=
  if debug = true ∧ (X.height ≠ X.width ∨ Y.height ≠ Y.width ∨ X.height ≠ Y.height) then
    { state := Y, error := some "Nonconformal AxpyTrapezoid" }
  else if X.data = Y.data then
    { state := { Y with matrix := fun p => AxpyTrapezoidLocal uplo alpha g X Y offset p },
      error := none }
  else
    let XCopy : ElementalMatrix T :=
      { height := X.height, width := X.width, data := Y.data, matrix := Copy X Y.data }
    { state := { Y with matrix := fun p => AxpyTrapezoidLocal uplo alpha g XCopy Y offset p },
      error := none }

/-- A sequential matrix without entries. -/
def exampleEmpty (v : Int) : Matrix Int where
  height := 0
  width := 0
  ldim := 1
  buf := fun _ => v

/-- A 2 x 2 matrix distributed `[STAR,STAR]` on the 2 x 3 grid: each of the six processes
holds the whole matrix, with constant entries. -/
def exampleSTARSTAR (v : Int) : ElementalMatrix Int where
  height := 2
  width := 2
  data := ⟨Dist.STAR, Dist.STAR, 0, 0, 0⟩
  matrix := fun p => if p < 6 then exampleSquare v else exampleEmpty v

/-! ## Gaussian random matrices (`src/matrices/Gaussian.cpp`, lines 13-29) -/

/-- Library routine `EntrywiseFill( A, func )` on a sequential matrix (defined outside the
sources at hand): the entries are set, column by column, to the values that successive calls
of `func` return; a call reads the state of the generator of the calling process and leaves
a new state. -/
def EntrywiseFill {σ T : Type} (A : Matrix T) (func : σ → T × σ) (s : σ) : Matrix T × σ :=
  (windowEntries A.height A.width).foldl
    (fun (st : Matrix T × σ) e => (st.1.Set e.1 e.2 (func st.2).1, (func st.2).2)) (A, s)

/-- Function `MakeGaussian( Matrix<F>& A, F mean, Base<F> stddev )`.  The value
`SampleNormal mean stddev s` is the sample drawn in the state `s` of the generator, with the
state it leaves (the generator and the distributions of the standard library that
`SampleNormal` draws from are defined outside the sources at hand). -/
def MakeGaussian {σ F B : Type} (SampleNormal : F → B → σ → F × σ) (A : Matrix F) (mean : F)
    (stddev : B) (s : σ) : Matrix F × σ :=
  let sampleNormal := fun s => SampleNormal mean stddev s
  EntrywiseFill A sampleNormal s

/-- Modelled from the spec: two processes hold the same data of a matrix ("data replicated
identically on multiple processes") when they have the same coordinate in the column
distribution, in the row distribution and in the cross communicator. -/
def DistData.Redundant (g : Grid) (d : DistData) (p q : Nat) : Bool :=
  decide (d.ColRank g p = d.ColRank g q ∧ d.RowRank g p = d.RowRank g q ∧
    d.CrossRank g p = d.CrossRank g q)

/-- Modelled from the spec: the redundant communicator of process `p`, as the list of its
members in the order of their ranks (`RedundantComm()` is absent from the sources but for
`[STAR,MD]`): the processes of the grid that hold the same data as `p`, by increasing linear
rank, and no process when `p` is outside the grid. -/
def DistData.RedundantComm (g : Grid) (d : DistData) (p : Nat) : List Nat :=
  if g.InGrid p then (List.range g.Size).filter (fun q => d.Redundant g p q) else []

/-- Modelled from the spec: `RedundantRank()`, the rank of process `p` in its redundant
communicator, and `mpi::UNDEFINED` outside the grid. -/
def DistData.RedundantRank (g : Grid) (d : DistData) (undef : Int) (p : Nat) : Int :=
  if g.InGrid p then ((d.RedundantComm g p).indexOf p : Nat) else undef

/-- Modelled from the spec: `Broadcast( A, comm, rank )` on a distributed matrix (the
collective is absent from the sources; the transport "exposes ... broadcast ... over a given
communicator").  On every process of a communicator the entries of the local matrix become
those of the local matrix of the member with rank `rank`, which keeps its own; `comm p` is
the communicator of process `p` as the list of its members by rank. -/
def Broadcast {T : Type} (A : ElementalMatrix T) (comm : Nat → List Nat) (rank : Nat) :
    ElementalMatrix T :=
  { A with
    matrix := fun p =>
      match (comm p)[rank]? with
      | some r =>
        if r = p then A.matrix p
        else
          (windowEntries (A.matrix p).height (A.matrix p).width).foldl
            (fun B e => B.Set e.1 e.2 ((A.matrix r).Get e.1 e.2)) (A.matrix p)
      | none => A.matrix p }

/-- Function `MakeGaussian( AbstractDistMatrix<F>& A, F mean, Base<F> stddev )` on all
processes: `gen p` is the state of the generator of process `p`, and the result is the
matrix with the states the generators are left in; `undef` is `mpi::UNDEFINED`. -/
def ElementalMatrix.MakeGaussian {σ F B : Type} (undef : Int)
    (SampleNormal : F → B → σ → F × σ) (g : Grid) (A : ElementalMatrix F) (mean : F)
    (stddev : B) (gen : Nat → σ) : ElementalMatrix F × (Nat → σ) :=
  let drawn : Nat → Matrix F × σ := fun p =>
    if A.data.RedundantRank g undef p = 0 then
      El.MakeGaussian SampleNormal (A.matrix p) mean stddev (gen p)
    else (A.matrix p, gen p)
  let A1 : ElementalMatrix F := { A with matrix := fun p => (drawn p).1 }
  (Broadcast A1 (A1.data.RedundantComm g) 0, fun p => (drawn p).2)

/-- A 3 x 2 matrix distributed `[MC,STAR]` on the 2 x 3 grid, all entries zero: the three
processes of a grid row hold the same rows. -/
def exampleMCSTAR : ElementalMatrix Int where
  height := 3
  width := 2
  data := ⟨Dist.MC, Dist.STAR, 0, 0, 0⟩
  matrix := fun p =>
    if p < 6 then { height := if p % 2 = 0 then 2 else 1, width := 2, ldim := 2, buf := fun _ => 0 }
    else exampleEmpty 0

/-- A generator for the examples: the state counts the samples drawn, and the sample drawn
in state `s` is `mean + 10 * s`. -/
def exampleSampler (mean : Int) (_stddev : Int) (s : Int) : Int × Int := (mean + 10 * s, s + 1)

/-! ## Theorems -/

/-! ### Index map -/

theorem owns_iff_emod (s a k g : Int) (hk0 : 0 ≤ k) (hk : k < s) :
    Owns s a k g ↔ g % s = (a + k) % s := by
  unfold Owns
  have hk1 : k % s = k := Int.emod_eq_of_lt hk0 hk
  have h1 : (g - a) % s = k ↔ (g - a) % s = k % s := by rw [hk1]
  rw [h1, Int.emod_eq_emod_iff_emod_sub_eq_zero, Int.emod_eq_emod_iff_emod_sub_eq_zero]
  have h2 : g - a - k = g - (a + k) := by ring
  rw [h2]

/-- The indices below `n` owned by a process with first owned index `sh` are exactly
`sh + l * s` for `l` below the closed-form local size. -/
theorem mem_owned_iff (n s sh g : Int) (hs : 1 ≤ s) (h0 : 0 ≤ sh) (h1 : sh < s) :
    (0 ≤ g ∧ g < n ∧ g % s = sh) ↔ ∃ l : Int, 0 ≤ l ∧ l < LocalCount n s sh ∧ g = sh + l * s := by
  have hsh : sh % s = sh := Int.emod_eq_of_lt h0 h1
  have hspos : 0 < s := by omega
  unfold LocalCount
  rw [hsh]
  constructor
  · rintro ⟨hg0, hgn, hgm⟩
    refine ⟨g / s, Int.ediv_nonneg hg0 (by omega), ?_, ?_⟩
    · have hdm : s * (g / s) + g % s = g := Int.ediv_add_emod g s
      have hq : 0 ≤ g / s := Int.ediv_nonneg hg0 (by omega)
      have hq2 : 0 ≤ s * (g / s) := mul_nonneg (by omega) hq
      have hnsh : ¬ (n - sh ≤ 0) := by omega
      rw [if_neg hnsh]
      have hle : (g / s + 1) * s ≤ n - sh + (s - 1) := by
        have : (g / s + 1) * s = s * (g / s) + s := by ring
        omega
      have := (Int.le_ediv_iff_mul_le hspos).mpr hle
      omega
    · have hdm : s * (g / s) + g % s = g := Int.ediv_add_emod g s
      rw [hgm] at hdm
      rw [mul_comm (g / s) s]
      omega
  · rintro ⟨l, hl0, hl, rfl⟩
    have hls : 0 ≤ l * s := mul_nonneg hl0 (by omega)
    by_cases hn : n - sh ≤ 0
    · rw [if_pos hn] at hl
      omega
    · rw [if_neg hn] at hl
      have h2 : l + 1 ≤ (n - sh + (s - 1)) / s := by omega
      have h3 := (Int.le_ediv_iff_mul_le hspos).mp h2
      have h4 : (l + 1) * s = l * s + s := by ring
      refine ⟨by omega, by omega, ?_⟩
      rw [Int.add_mul_emod_self, hsh]

theorem sum_owns_indicator (s a g : Int) (hs : 1 ≤ s) :
    (∑ k in Finset.Ico (0 : Int) s, if Owns s a k g then (1 : Nat) else 0) = 1 := by
  have hspos : 0 < s := by omega
  unfold Owns
  rw [Finset.sum_ite_eq]
  rw [if_pos]
  rw [Finset.mem_Ico]
  exact ⟨Int.emod_nonneg _ (by omega), Int.emod_lt_of_pos _ hspos⟩

/-- C2: for every stride, alignment and global index exactly one coordinate in `[0,s)`
satisfies the ownership predicate `(g - a) mod s == k` (in the row as in the column
dimension), and the ownership indicator of an entry `(i,j)` summed over all pairs of a
row coordinate and a column coordinate is exactly 1.  The ranges `0 <= a < s`,
`0 <= i < m`, `0 <= j < n` of the claim are not needed: `mod` is the mathematical one. -/
theorem ownership_coverage_disjointness (sr ar sc ac i j : Int)
    (hsr : 1 ≤ sr) (hsc : 1 ≤ sc) :
    (∃! kr : Int, (0 ≤ kr ∧ kr < sr) ∧ Owns sr ar kr i) ∧
    (∃! kc : Int, (0 ≤ kc ∧ kc < sc) ∧ Owns sc ac kc j) ∧
    (∑ kr in Finset.Ico (0 : Int) sr, ∑ kc in Finset.Ico (0 : Int) sc,
        if Owns sr ar kr i ∧ Owns sc ac kc j then (1 : Nat) else 0) = 1 := by
  have huniq : ∀ s a g : Int, 1 ≤ s → ∃! k : Int, (0 ≤ k ∧ k < s) ∧ Owns s a k g := by
    intro s a g hs
    refine ⟨(g - a) % s, ⟨⟨Int.emod_nonneg _ (by omega), Int.emod_lt_of_pos _ (by omega)⟩, rfl⟩, ?_⟩
    rintro k ⟨_, hk⟩
    exact hk.symm
  refine ⟨huniq sr ar i hsr, huniq sc ac j hsc, ?_⟩
  have hinner : ∀ kr : Int,
      (∑ kc in Finset.Ico (0 : Int) sc,
        if Owns sr ar kr i ∧ Owns sc ac kc j then (1 : Nat) else 0)
      = if Owns sr ar kr i then 1 else 0 := by
    intro kr
    by_cases h : Owns sr ar kr i
    · simp only [h, true_and, if_true]
      exact sum_owns_indicator sc ac j hsc
    · simp [h]
  simp only [hinner]
  exact sum_owns_indicator sr ar i hsr

/-- Witness of C2: entry (4,0) with strides 2 and 3 and alignments 1 and 2. -/
theorem ownership_coverage_disjointness_witness :
    (∃! kr : Int, (0 ≤ kr ∧ kr < 2) ∧ Owns 2 1 kr 4) ∧
    (∃! kc : Int, (0 ≤ kc ∧ kc < 3) ∧ Owns 3 2 kc 0) ∧
    (∑ kr in Finset.Ico (0 : Int) 2, ∑ kc in Finset.Ico (0 : Int) 3,
        if Owns 2 1 kr 4 ∧ Owns 3 2 kc 0 then (1 : Nat) else 0) = 1 :=
  ownership_coverage_disjointness 2 1 3 2 4 0 (by decide) (by decide)

/-- C3, as stated, fails: with stride 3 and alignment 1, global index 0 satisfies
`(g - a) mod s == 2`, while `(a + g) mod s` is 1. -/
theorem ownership_rules_disagree :
    ¬ ((1 : Int) ≤ 3 → (0 : Int) ≤ 1 → (1 : Int) < 3 → (0 : Int) ≤ 2 → (2 : Int) < 3 →
        (0 : Int) ≤ 0 → (Owns 3 1 2 0 ↔ (2 : Int) = Owner 3 1 0)) := by
  decide

/-- C3, amended: the two statements of the ownership rule agree for every coordinate and
every global index exactly when the stride divides twice the alignment (for instance when
the alignment is 0). -/
theorem ownership_rules_agree_iff (s a : Int) (hs : 1 ≤ s) (ha0 : 0 ≤ a) :
    (∀ k g : Int, 0 ≤ k → k < s → 0 ≤ g → (Owns s a k g ↔ k = Owner s a g)) ↔ s ∣ 2 * a := by
  constructor
  · intro h
    have h1 := (h 0 a (le_refl 0) (by omega) ha0).mp (by unfold Owns; simp)
    unfold Owner at h1
    have h2 : a + a = 2 * a := by ring
    rw [h2] at h1
    exact Int.dvd_of_emod_eq_zero h1.symm
  · intro hd k g _ _ _
    unfold Owns Owner
    have h1 : (g - a) % s = (a + g) % s := by
      rw [Int.emod_eq_emod_iff_emod_sub_eq_zero]
      have h2 : g - a - (a + g) = -(2 * a) := by ring
      rw [h2]
      exact Int.emod_eq_zero_of_dvd ((Int.dvd_neg).mpr hd)
    rw [h1]
    exact eq_comm

/-- Witness of the amended C3: stride 2 and alignment 1. -/
theorem ownership_rules_agree_iff_witness :
    (∀ k g : Int, 0 ≤ k → k < 2 → 0 ≤ g → (Owns 2 1 k g ↔ k = Owner 2 1 g)) ↔
      (2 : Int) ∣ 2 * 1 :=
  ownership_rules_agree_iff 2 1 (by decide) (by decide)

/-- C5, as stated, fails: on the 2 x 3 grid `RowStride()` is 6 while `gcd(2,3)` is 1. -/
theorem RowStride_ne_gcd :
    ¬ (BDM.RowStride grid23 = ((Nat.gcd grid23.height grid23.width : Nat) : Int)) := by
  decide

/-- C5, amended: on a grid of height `r` and width `c`, `RowStride()` (and `DistSize()`) of a
`[STAR,MD]` block matrix is `lcm(r,c)`; `gcd(r,c)` is `CrossSize()`; and `RowStride()`
equals `gcd(r,c)` exactly when `r = c`. -/
theorem RowStride_eq_lcm (g : Grid) :
    BDM.RowStride g = ((Nat.lcm g.height g.width : Nat) : Int) ∧
    BDM.DistSize g = ((Nat.lcm g.height g.width : Nat) : Int) ∧
    BDM.CrossSize g = ((Nat.gcd g.height g.width : Nat) : Int) ∧
    (BDM.RowStride g = ((Nat.gcd g.height g.width : Nat) : Int) ↔ g.height = g.width) := by
  refine ⟨rfl, rfl, rfl, ?_⟩
  simp only [BDM.RowStride, Grid.LCM, Nat.cast_inj]
  constructor
  · intro h
    have h1 : g.height ∣ g.width :=
      dvd_trans (Nat.dvd_lcm_left g.height g.width) (h ▸ Nat.gcd_dvd_right g.height g.width)
    have h2 : g.width ∣ g.height :=
      dvd_trans (Nat.dvd_lcm_right g.height g.width) (h ▸ Nat.gcd_dvd_left g.height g.width)
    exact Nat.dvd_antisymm h1 h2
  · intro h
    rw [h, Nat.lcm_self, Nat.gcd_self]

/-- C6: on every process that belongs to the grid, the STAR-distributed dimension of a
`[STAR,MD]` block matrix has `ColStride() = 1` and `ColRank() = 0`, whatever the grid. -/
theorem ColStride_ColRank (undef : Int) (g : Grid) (p : Nat) (h : g.InGrid p = true) :
    BDM.ColStride g = 1 ∧ BDM.ColRank undef g p = 0 := by
  refine ⟨rfl, ?_⟩
  simp [BDM.ColRank, h]

/-- Witness of C6: process 4 of the 2 x 3 grid. -/
theorem ColStride_ColRank_witness :
    BDM.ColStride grid23 = 1 ∧ BDM.ColRank (-32766) grid23 4 = 0 :=
  ColStride_ColRank (-32766) grid23 4 (by decide)

/-! ### Index map over the naturals -/

theorem owns_nat_iff (s a k g : Nat) (hk : k < s) :
    Owns s a k g ↔ g % s = Shift k a s := by
  rw [owns_iff_emod (s : Int) a k g (by omega) (by exact_mod_cast hk)]
  unfold Shift
  rw [add_comm k a]
  constructor
  · intro h
    exact_mod_cast h
  · intro h
    exact_mod_cast h

theorem Shift_lt (k a s : Nat) (hs : 0 < s) : Shift k a s < s :=
  Nat.mod_lt _ hs

theorem mem_owned_nat (n s sh g : Nat) (hs : 0 < s) (h1 : sh < s) :
    (g < n ∧ g % s = sh) ↔ ∃ l, l < Length n sh s ∧ g = GlobalIndex l sh s := by
  have key := mem_owned_iff (n : Int) (s : Int) (sh : Int) (g : Int) (by omega) (by omega)
    (by omega)
  unfold Length GlobalIndex
  constructor
  · rintro ⟨hg, hm⟩
    have h2 : (0 : Int) ≤ g ∧ (g : Int) < n ∧ (g : Int) % s = sh := by
      refine ⟨by omega, by omega, ?_⟩
      exact_mod_cast hm
    obtain ⟨l, hl0, hl, hgl⟩ := key.mp h2
    refine ⟨l.toNat, by omega, ?_⟩
    have h3 : ((l.toNat : Nat) : Int) = l := Int.toNat_of_nonneg hl0
    have h4 : (g : Int) = ((sh + l.toNat * s : Nat) : Int) := by
      push_cast
      rw [h3]
      exact hgl
    exact_mod_cast h4
  · rintro ⟨l, hl, rfl⟩
    have h2 : ∃ l' : Int, 0 ≤ l' ∧ l' < LocalCount n s sh ∧
        ((sh + l * s : Nat) : Int) = sh + l' * s :=
      ⟨(l : Int), by omega, by omega, by push_cast; ring⟩
    obtain ⟨_, hlt, hm⟩ := key.mpr h2
    refine ⟨by omega, ?_⟩
    exact_mod_cast hm

theorem GlobalIndex_LocalIndex (g sh s : Nat) (hm : g % s = sh) :
    GlobalIndex (LocalIndex g sh s) sh s = g := by
  unfold GlobalIndex LocalIndex
  rcases Nat.eq_zero_or_pos s with hs | hs
  · subst hs
    simp at hm
    simp [hm]
  · have h1 : s * (g / s) + g % s = g := Nat.div_add_mod g s
    rw [hm] at h1
    have h2 : g - sh = s * (g / s) := by omega
    rw [h2, Nat.mul_div_cancel_left _ hs, mul_comm]
    omega

theorem LocalIndex_GlobalIndex (l sh s : Nat) (hs : 0 < s) :
    LocalIndex (GlobalIndex l sh s) sh s = l := by
  unfold GlobalIndex LocalIndex
  rw [Nat.add_sub_cancel_left, Nat.mul_div_cancel _ hs]

theorem GlobalIndex_mod (l sh s : Nat) (h : sh < s) : GlobalIndex l sh s % s = sh := by
  unfold GlobalIndex
  rw [Nat.add_mul_mod_self_right, Nat.mod_eq_of_lt h]

/-- On the indices a process owns, the local index determines the global index. -/
theorem LocalIndex_inj (g1 g2 sh s : Nat) (h1 : g1 % s = sh) (h2 : g2 % s = sh)
    (h : LocalIndex g1 sh s = LocalIndex g2 sh s) : g1 = g2 := by
  rw [← GlobalIndex_LocalIndex g1 sh s h1, ← GlobalIndex_LocalIndex g2 sh s h2, h]

/-! ### Grid -/

theorem coords_lt_size (r c k l : Nat) (hk : k < r) (hl : l < c) : k + l * r < r * c := by
  calc k + l * r < r + l * r := by omega
    _ = (l + 1) * r := by ring
    _ ≤ c * r := Nat.mul_le_mul_right r (by omega)
    _ = r * c := Nat.mul_comm c r

namespace Grid

theorem WellFormed.size_pos {g : Grid} (hg : g.WellFormed) : 0 < g.Size :=
  Nat.mul_pos hg.height_pos hg.width_pos

theorem WellFormed.lcm_pos {g : Grid} (hg : g.WellFormed) : 0 < g.LCM :=
  Nat.lcm_pos hg.height_pos hg.width_pos

theorem WellFormed.col_lt {g : Grid} (hg : g.WellFormed) (p : Nat) (hp : p < g.Size) :
    g.Col p < g.width := by
  unfold Col
  rw [Nat.div_lt_iff_lt_mul hg.height_pos, Nat.mul_comm]
  exact hp

theorem WellFormed.row_lt {g : Grid} (hg : g.WellFormed) (p : Nat) : g.Row p < g.height :=
  Nat.mod_lt _ hg.height_pos

theorem row_mk (g : Grid) (k l : Nat) (hk : k < g.height) : g.Row (k + l * g.height) = k := by
  unfold Row
  rw [Nat.add_mul_mod_self_right, Nat.mod_eq_of_lt hk]

theorem col_mk (g : Grid) (k l : Nat) (hk : k < g.height) : g.Col (k + l * g.height) = l := by
  unfold Col
  have hpos : 0 < g.height := by omega
  rw [Nat.add_mul_div_right _ _ hpos, Nat.div_eq_of_lt hk, Nat.zero_add]

theorem MDProc_spec {g : Grid} (hg : g.WellFormed) (d k : Nat) (hd : d < g.GCD)
    (hk : k < g.LCM) :
    g.MDProc d k < g.Size ∧ g.MDPerpRank (g.MDProc d k) = d ∧ g.MDRank (g.MDProc d k) = k := by
  unfold MDProc
  cases hfind : (List.range g.Size).find?
      (fun p => decide (g.MDPerpRank p = d ∧ g.MDRank p = k)) with
  | none =>
    obtain ⟨p, hp, h1, h2⟩ := hg.md_cover d k hd hk
    rw [List.find?_eq_none] at hfind
    have := hfind p (List.mem_range.mpr hp)
    simp [h1, h2] at this
  | some p =>
    have hmem := List.mem_of_find?_eq_some hfind
    have hprop := List.find?_some hfind
    simp only [Option.getD_some]
    simp only [decide_eq_true_eq] at hprop
    exact ⟨List.mem_range.mp hmem, hprop.1, hprop.2⟩

end Grid

namespace Dist

theorem stride_pos {g : Grid} (hg : g.WellFormed) (X : Dist) : 0 < X.stride g := by
  cases X <;> simp only [stride]
  · exact hg.height_pos
  · exact hg.lcm_pos
  · exact hg.width_pos
  · exact hg.size_pos
  · exact hg.size_pos
  · exact Nat.one_pos
  · exact Nat.one_pos

theorem rank_lt_stride {g : Grid} (hg : g.WellFormed) (X : Dist) (p : Nat) (hp : p < g.Size) :
    X.rank g p < X.stride g := by
  cases X <;> simp only [stride, rank]
  · exact hg.row_lt p
  · exact hg.md_rank_lt p hp
  · exact hg.col_lt p hp
  · exact hp
  · unfold Grid.VRRank Grid.Size
    have := coords_lt_size g.width g.height (g.Col p) (g.Row p) (hg.col_lt p hp) (hg.row_lt p)
    rw [Nat.mul_comm g.height g.width]
    exact this
  · exact Nat.one_pos
  · exact Nat.one_pos

end Dist

namespace Grid

theorem exists_row_col (g : Grid) (k l : Nat) (hk : k < g.height) (hl : l < g.width) :
    ∃ q, q < g.Size ∧ g.Row q = k ∧ g.Col q = l :=
  ⟨k + l * g.height, coords_lt_size g.height g.width k l hk hl, g.row_mk k l hk,
    g.col_mk k l hk⟩

theorem WellFormed.exists_vr {g : Grid} (hg : g.WellFormed) (k : Nat) (hk : k < g.Size) :
    ∃ q, q < g.Size ∧ g.VRRank q = k := by
  have hdiv : k / g.width < g.height := by
    rw [Nat.div_lt_iff_lt_mul hg.width_pos]
    exact hk
  obtain ⟨q, hq, hrow, hcol⟩ :=
    g.exists_row_col (k / g.width) (k % g.width) hdiv (Nat.mod_lt _ hg.width_pos)
  refine ⟨q, hq, ?_⟩
  unfold VRRank
  rw [hrow, hcol, Nat.mul_comm]
  exact Nat.mod_add_div k g.width

end Grid

namespace DistData

theorem Participating.lt_size {g : Grid} {d : DistData} {p : Nat}
    (h : d.Participating g p = true) : p < g.Size := by
  unfold Participating Grid.InGrid at h
  simp only [Bool.and_eq_true, decide_eq_true_eq] at h
  exact h.1

theorem Participating.cross {g : Grid} {d : DistData} {p : Nat}
    (h : d.Participating g p = true) : d.CrossRank g p = d.root := by
  unfold Participating at h
  simp only [Bool.and_eq_true, decide_eq_true_eq] at h
  exact h.2

theorem participating_of {g : Grid} {d : DistData} {p : Nat} (hp : p < g.Size)
    (hc : d.CrossRank g p = d.root) : d.Participating g p = true := by
  unfold Participating Grid.InGrid
  simp only [Bool.and_eq_true, decide_eq_true_eq]
  exact ⟨hp, hc⟩

theorem ColStride_pos {g : Grid} (hg : g.WellFormed) (d : DistData) : 0 < d.ColStride g :=
  Dist.stride_pos hg _

theorem RowStride_pos {g : Grid} (hg : g.WellFormed) (d : DistData) : 0 < d.RowStride g :=
  Dist.stride_pos hg _

theorem ColShift_lt {g : Grid} (hg : g.WellFormed) (d : DistData) (p : Nat) :
    d.ColShift g p < d.ColStride g :=
  Shift_lt _ _ _ (ColStride_pos hg d)

theorem RowShift_lt {g : Grid} (hg : g.WellFormed) (d : DistData) (p : Nat) :
    d.RowShift g p < d.RowStride g :=
  Shift_lt _ _ _ (RowStride_pos hg d)

/-- Ownership of an entry in terms of the shifts of the process. -/
theorem OwnsEntry_iff {g : Grid} (hg : g.WellFormed) (d : DistData) (p i j : Nat) :
    d.OwnsEntry g p i j ↔
      d.Participating g p = true ∧ i % d.ColStride g = d.ColShift g p ∧
        j % d.RowStride g = d.RowShift g p := by
  unfold OwnsEntry
  constructor
  · rintro ⟨hp, hr, hc⟩
    have hlt := Participating.lt_size hp
    refine ⟨hp, ?_, ?_⟩
    · exact (owns_nat_iff _ _ _ _ (Dist.rank_lt_stride hg _ p hlt)).mp hr
    · exact (owns_nat_iff _ _ _ _ (Dist.rank_lt_stride hg _ p hlt)).mp hc
  · rintro ⟨hp, hr, hc⟩
    have hlt := Participating.lt_size hp
    refine ⟨hp, ?_, ?_⟩
    · exact (owns_nat_iff _ _ _ _ (Dist.rank_lt_stride hg _ p hlt)).mpr hr
    · exact (owns_nat_iff _ _ _ _ (Dist.rank_lt_stride hg _ p hlt)).mpr hc

/-- For a valid descriptor every pair of coordinates is the pair of some process of the
owning sub-grid. -/
theorem exists_proc {g : Grid} (hg : g.WellFormed) (d : DistData) (hv : d.Valid g)
    (kr kc : Nat) (hkr : kr < d.ColStride g) (hkc : kc < d.RowStride g) :
    ∃ q, q < g.Size ∧ d.CrossRank g q = d.root ∧ d.ColRank g q = kr ∧ d.RowRank g q = kc := by
  obtain ⟨cd, rd, ca, ra, root⟩ := d
  obtain ⟨_, _, hroot, hleg0⟩ := hv
  have hleg : (cd, rd) ∈ legalPairs := hleg0
  clear hleg0
  simp only [ColStride, RowStride] at hkr hkc
  simp only [CrossSize] at hroot
  simp only [CrossRank, ColRank, RowRank]
  cases cd <;> cases rd <;> first
    | exact absurd hleg (by decide)
    | simp [Dist.stride, Dist.rank] at hkr hkc hroot ⊢
  · -- [MC,MR]
    obtain ⟨q, hq, h1, h2⟩ := g.exists_row_col kr kc hkr hkc
    exact ⟨q, hq, hroot.symm, h1, h2⟩
  · -- [MC,STAR]
    obtain ⟨q, hq, h1, _⟩ := g.exists_row_col kr 0 hkr hg.width_pos
    exact ⟨q, hq, hroot.symm, h1, hkc.symm⟩
  · -- [MD,STAR]
    obtain ⟨q, hq, h1, h2⟩ := hg.md_cover root kr hroot hkr
    exact ⟨q, hq, h1, h2, hkc.symm⟩
  · -- [MR,MC]
    obtain ⟨q, hq, h1, h2⟩ := g.exists_row_col kc kr hkc hkr
    exact ⟨q, hq, hroot.symm, h2, h1⟩
  · -- [MR,STAR]
    obtain ⟨q, hq, _, h2⟩ := g.exists_row_col 0 kr hg.height_pos hkr
    exact ⟨q, hq, hroot.symm, h2, hkc.symm⟩
  · -- [VC,STAR]
    exact ⟨kr, hkr, hroot.symm, rfl, hkc.symm⟩
  · -- [VR,STAR]
    obtain ⟨q, hq, h1⟩ := hg.exists_vr kr hkr
    exact ⟨q, hq, hroot.symm, h1, hkc.symm⟩
  · -- [STAR,MC]
    obtain ⟨q, hq, h1, _⟩ := g.exists_row_col kc 0 hkc hg.width_pos
    exact ⟨q, hq, hroot.symm, hkr.symm, h1⟩
  · -- [STAR,MD]
    obtain ⟨q, hq, h1, h2⟩ := hg.md_cover root kc hroot hkc
    exact ⟨q, hq, h1, hkr.symm, h2⟩
  · -- [STAR,MR]
    obtain ⟨q, hq, _, h2⟩ := g.exists_row_col 0 kc hg.height_pos hkc
    exact ⟨q, hq, hroot.symm, hkr.symm, h2⟩
  · -- [STAR,VC]
    exact ⟨kc, hkc, hroot.symm, hkr.symm, rfl⟩
  · -- [STAR,VR]
    obtain ⟨q, hq, h1⟩ := hg.exists_vr kc hkc
    exact ⟨q, hq, hroot.symm, hkr.symm, h1⟩
  · -- [STAR,STAR]
    exact ⟨⟨0, hg.size_pos⟩, hroot.symm, hkr.symm, hkc.symm⟩
  · -- [CIRC,CIRC]
    exact ⟨root, hroot, rfl, hkr.symm, hkc.symm⟩

/-- Coverage: under a valid descriptor every global entry has an owner. -/
theorem exists_owner {g : Grid} (hg : g.WellFormed) (d : DistData) (hv : d.Valid g)
    (i j : Nat) : ∃ q, d.OwnsEntry g q i j := by
  have hsr : (0 : Int) < (d.ColStride g : Int) := by exact_mod_cast ColStride_pos hg d
  have hsc : (0 : Int) < (d.RowStride g : Int) := by exact_mod_cast RowStride_pos hg d
  have hr0 := Int.emod_nonneg ((i : Int) - d.colAlign) (ne_of_gt hsr)
  have hr1 := Int.emod_lt_of_pos ((i : Int) - d.colAlign) hsr
  have hc0 := Int.emod_nonneg ((j : Int) - d.rowAlign) (ne_of_gt hsc)
  have hc1 := Int.emod_lt_of_pos ((j : Int) - d.rowAlign) hsc
  obtain ⟨q, hq, hcross, hkr, hkc⟩ := exists_proc hg d hv
    (((i : Int) - d.colAlign) % (d.ColStride g : Int)).toNat
    (((j : Int) - d.rowAlign) % (d.RowStride g : Int)).toNat (by omega) (by omega)
  refine ⟨q, participating_of hq hcross, ?_, ?_⟩
  · unfold Owns
    rw [hkr, Int.toNat_of_nonneg hr0]
  · unfold Owns
    rw [hkc, Int.toNat_of_nonneg hc0]

end DistData

/-! ### Writes into a local buffer -/

theorem zip_map_self {α β : Type} (l : List α) (f : α → β) :
    l.zip (l.map f) = l.map (fun a => (a, f a)) := by
  induction l with
  | nil => rfl
  | cons a l ih => simp [ih]

/-- After a sequence of `SetLocal` writes, the slot `(x,y)` holds a value with property `Pv`
as soon as every write into the slot has it and either the slot had it before or some
write goes into the slot. -/
theorem foldl_SetLocal_of {α T : Type} (fr fc : α → Nat) (val : α → T) (Pv : T → Prop)
    (x y : Nat) :
    ∀ (W : List α) (L0 : Nat → Nat → T),
      (∀ e ∈ W, fr e = x → fc e = y → Pv (val e)) →
      (Pv (L0 x y) ∨ ∃ e ∈ W, fr e = x ∧ fc e = y) →
      Pv ((W.foldl (fun L e => SetLocal L (fr e) (fc e) (val e)) L0) x y) := by
  intro W
  induction W with
  | nil =>
    intro L0 _ h
    rcases h with h | ⟨e, he, _⟩
    · exact h
    · exact absurd he (List.not_mem_nil e)
  | cons a W ih =>
    intro L0 hall h
    rw [List.foldl_cons]
    apply ih
    · intro e he
      exact hall e (List.mem_cons_of_mem _ he)
    · by_cases hhit : fr a = x ∧ fc a = y
      · left
        have hv : SetLocal L0 (fr a) (fc a) (val a) x y = val a := by
          unfold SetLocal
          rw [if_pos ⟨hhit.1.symm, hhit.2.symm⟩]
        rw [hv]
        exact hall a (List.mem_cons_self a W) hhit.1 hhit.2
      · have hv : SetLocal L0 (fr a) (fc a) (val a) x y = L0 x y := by
          unfold SetLocal
          rw [if_neg]
          rintro ⟨h1, h2⟩
          exact hhit ⟨h1.symm, h2.symm⟩
        rcases h with h | ⟨e, he, hx⟩
        · left
          rw [hv]
          exact h
        · rcases List.mem_cons.mp he with rfl | he2
          · exact absurd hx hhit
          · right
            exact ⟨e, he2, hx⟩

/-- The same for a sequence of steps, each of which keeps the property of the slot. -/
theorem foldl_steps_of {T : Type} (F : Nat → (Nat → Nat → T) → (Nat → Nat → T))
    (Pv : T → Prop) (x y : Nat) :
    ∀ (Q : List Nat) (L0 : Nat → Nat → T),
      (∀ q ∈ Q, ∀ L, Pv (L x y) → Pv (F q L x y)) →
      (Pv (L0 x y) ∨ ∃ q ∈ Q, ∀ L, Pv (F q L x y)) →
      Pv ((Q.foldl (fun L q => F q L) L0) x y) := by
  intro Q
  induction Q with
  | nil =>
    intro L0 _ h
    rcases h with h | ⟨q, hq, _⟩
    · exact h
    · exact absurd hq (List.not_mem_nil q)
  | cons a Q ih =>
    intro L0 hkeep h
    rw [List.foldl_cons]
    apply ih
    · intro q hq
      exact hkeep q (List.mem_cons_of_mem _ hq)
    · rcases h with h | ⟨q, hq, hset⟩
      · left
        exact hkeep a (List.mem_cons_self a Q) L0 h
      · rcases List.mem_cons.mp hq with rfl | hq2
        · left
          exact hset L0
        · right
          exact ⟨q, hq2, hset⟩

/-! ### The general-purpose strategy -/

namespace copy

variable {T : Type}

theorem mem_localEntries (g : Grid) (src : DistData) (m n q : Nat) (e : Nat × Nat) :
    e ∈ localEntries g src m n q ↔ e.1 < src.LocalHeight g m q ∧ e.2 < src.LocalWidth g n q := by
  unfold localEntries
  simp only [List.mem_flatMap, List.mem_map, List.mem_range]
  constructor
  · rintro ⟨jl, hjl, il, hil, rfl⟩
    exact ⟨hil, hjl⟩
  · rintro ⟨h1, h2⟩
    exact ⟨e.2, h2, e.1, h1, rfl⟩

theorem mem_runFor (g : Grid) (src dst : DistData) (m n q p : Nat) (e : Nat × Nat) :
    e ∈ runFor g src dst m n q p ↔
      (e.1 < src.LocalHeight g m q ∧ e.2 < src.LocalWidth g n q) ∧
        dst.OwnsEntry g p (src.GlobalRow g q e.1) (src.GlobalCol g q e.2) := by
  unfold runFor
  rw [List.mem_filter, mem_localEntries, decide_eq_true_eq]

theorem unpack_pack (g : Grid) (A : DistMatrix T) (dst : DistData) (q p : Nat)
    (L : Nat → Nat → T) :
    unpack g A.data dst A.height A.width q p (pack g A dst q p) L =
      (runFor g A.data dst A.height A.width q p).foldl
        (fun L e => SetLocal L (dst.LocalRow g p (A.data.GlobalRow g q e.1))
          (dst.LocalCol g p (A.data.GlobalCol g q e.2)) (A.loc q e.1 e.2)) L := by
  unfold unpack pack
  rw [zip_map_self, List.foldl_map]

/-- A local index below the local height belongs to a participating process. -/
theorem participating_of_lt_LocalHeight {g : Grid} {src : DistData} {m q l : Nat}
    (h : l < src.LocalHeight g m q) : src.Participating g q = true := by
  unfold DistData.LocalHeight at h
  by_cases hp : src.Participating g q = true
  · exact hp
  · rw [if_neg hp] at h
    omega

/-- An entry of the run from `q` to `p` that is unpacked into the slot of `(i,j)` is the
entry `(i,j)` itself, and `q` owns it. -/
theorem run_hit {g : Grid} (hg : g.WellFormed) (src dst : DistData) (m n q p i j : Nat)
    (e : Nat × Nat) (he : e ∈ runFor g src dst m n q p) (hown : dst.OwnsEntry g p i j)
    (hr : dst.LocalRow g p (src.GlobalRow g q e.1) = dst.LocalRow g p i)
    (hc : dst.LocalCol g p (src.GlobalCol g q e.2) = dst.LocalCol g p j) :
    src.OwnsEntry g q i j ∧ e.1 = src.LocalRow g q i ∧ e.2 = src.LocalCol g q j := by
  rw [mem_runFor] at he
  obtain ⟨⟨hlh, _⟩, hdst⟩ := he
  have hpart := participating_of_lt_LocalHeight hlh
  rw [DistData.OwnsEntry_iff hg] at hdst hown
  have hi : src.GlobalRow g q e.1 = i :=
    LocalIndex_inj _ _ _ _ hdst.2.1 hown.2.1 hr
  have hj : src.GlobalCol g q e.2 = j :=
    LocalIndex_inj _ _ _ _ hdst.2.2 hown.2.2 hc
  refine ⟨?_, ?_, ?_⟩
  · rw [DistData.OwnsEntry_iff hg]
    refine ⟨hpart, ?_, ?_⟩
    · rw [← hi]
      exact GlobalIndex_mod _ _ _ (DistData.ColShift_lt hg src q)
    · rw [← hj]
      exact GlobalIndex_mod _ _ _ (DistData.RowShift_lt hg src q)
  · rw [← hi]
    exact (LocalIndex_GlobalIndex _ _ _ (DistData.ColStride_pos hg src)).symm
  · rw [← hj]
    exact (LocalIndex_GlobalIndex _ _ _ (DistData.RowStride_pos hg src)).symm

/-- The local index of an owned global index lies below the local size. -/
theorem LocalIndex_lt_Length (n s sh g : Nat) (hs : 0 < s) (h1 : sh < s) (hg : g < n)
    (hm : g % s = sh) : LocalIndex g sh s < Length n sh s := by
  obtain ⟨l, hl, rfl⟩ := (mem_owned_nat n s sh g hs h1).mp ⟨hg, hm⟩
  rw [LocalIndex_GlobalIndex _ _ _ hs]
  exact hl

/-- An entry owned by `q` under the source and by `p` under the destination is in the run
from `q` to `p`. -/
theorem run_contains {g : Grid} (hg : g.WellFormed) (src dst : DistData) (m n q p i j : Nat)
    (hi : i < m) (hj : j < n) (hsrc : src.OwnsEntry g q i j) (hdst : dst.OwnsEntry g p i j) :
    (src.LocalRow g q i, src.LocalCol g q j) ∈ runFor g src dst m n q p ∧
      src.GlobalRow g q (src.LocalRow g q i) = i ∧
      src.GlobalCol g q (src.LocalCol g q j) = j := by
  have hs := (DistData.OwnsEntry_iff hg src q i j).mp hsrc
  have h1 : src.GlobalRow g q (src.LocalRow g q i) = i := GlobalIndex_LocalIndex _ _ _ hs.2.1
  have h2 : src.GlobalCol g q (src.LocalCol g q j) = j := GlobalIndex_LocalIndex _ _ _ hs.2.2
  refine ⟨?_, h1, h2⟩
  rw [mem_runFor]
  refine ⟨⟨?_, ?_⟩, ?_⟩
  · simp only [DistData.LocalHeight, hs.1, if_true]
    exact LocalIndex_lt_Length _ _ _ _ (DistData.ColStride_pos hg src)
      (DistData.ColShift_lt hg src q) hi hs.2.1
  · simp only [DistData.LocalWidth, hs.1, if_true]
    exact LocalIndex_lt_Length _ _ _ _ (DistData.RowStride_pos hg src)
      (DistData.RowShift_lt hg src q) hj hs.2.2
  · simp only [h1, h2]
    exact hdst

/-- The general-purpose strategy delivers to every owner under the destination descriptor
the value an owner under the source descriptor held. -/
theorem GeneralPurpose_entry {g : Grid} (hg : g.WellFormed) (A B : DistMatrix T)
    (hA : A.data.Valid g) (i j p : Nat) (hi : i < A.height) (hj : j < A.width)
    (hown : B.data.OwnsEntry g p i j) :
    ∃ q, A.data.OwnsEntry g q i j ∧ (GeneralPurpose g A B).Get g p i j = A.Get g q i j := by
  have hstep : ∀ q, ∀ e ∈ runFor g A.data B.data A.height A.width q p,
      B.data.LocalRow g p (A.data.GlobalRow g q e.1) = B.data.LocalRow g p i →
      B.data.LocalCol g p (A.data.GlobalCol g q e.2) = B.data.LocalCol g p j →
      ∃ q2, A.data.OwnsEntry g q2 i j ∧ A.loc q e.1 e.2 = A.Get g q2 i j := by
    intro q e he hr hc
    obtain ⟨ho, h1, h2⟩ := run_hit hg A.data B.data A.height A.width q p i j e he hown hr hc
    refine ⟨q, ho, ?_⟩
    unfold DistMatrix.Get
    rw [← h1, ← h2]
  unfold DistMatrix.Get
  simp only [GeneralPurpose]
  apply foldl_steps_of
    (fun q L => unpack g A.data B.data A.height A.width q p (pack g A B.data q p) L)
    (fun v => ∃ q, A.data.OwnsEntry g q i j ∧ v = A.Get g q i j)
  · intro q _ L hL
    simp only [unpack_pack]
    exact foldl_SetLocal_of
      (fun e : Nat × Nat => B.data.LocalRow g p (A.data.GlobalRow g q e.1))
      (fun e : Nat × Nat => B.data.LocalCol g p (A.data.GlobalCol g q e.2))
      (fun e : Nat × Nat => A.loc q e.1 e.2)
      (fun v => ∃ q, A.data.OwnsEntry g q i j ∧ v = A.Get g q i j) _ _ _ L
      (fun e he hr hc => hstep q e he hr hc) (Or.inl hL)
  · right
    obtain ⟨q, hq⟩ := DistData.exists_owner hg A.data hA i j
    refine ⟨q, List.mem_range.mpr (DistData.Participating.lt_size hq.1), fun L => ?_⟩
    simp only [unpack_pack]
    obtain ⟨hmem, h1, h2⟩ :=
      run_contains hg A.data B.data A.height A.width q p i j hi hj hq hown
    exact foldl_SetLocal_of
      (fun e : Nat × Nat => B.data.LocalRow g p (A.data.GlobalRow g q e.1))
      (fun e : Nat × Nat => B.data.LocalCol g p (A.data.GlobalCol g q e.2))
      (fun e : Nat × Nat => A.loc q e.1 e.2)
      (fun v => ∃ q, A.data.OwnsEntry g q i j ∧ v = A.Get g q i j) _ _ _ L
      (fun e he hr hc => hstep q e he hr hc)
      (Or.inr ⟨_, hmem, by simp only [h1], by simp only [h2]⟩)

end copy

/-! ### Identity with shift and filter -/

namespace copy

variable {T : Type}

/-- The rotation along the diagonal delivers to every owner under the destination
`[STAR,MD]` descriptor the value the owner under the source `[STAR,MD]` descriptor held. -/
theorem Translate_entry {g : Grid} (hg : g.WellFormed) (A B : DistMatrix T)
    (hA : A.data.Valid g) (hAc : A.data.colDist = Dist.STAR) (hAr : A.data.rowDist = Dist.MD)
    (hBc : B.data.colDist = Dist.STAR) (hBr : B.data.rowDist = Dist.MD) (i j p : Nat)
    (hown : B.data.OwnsEntry g p i j) :
    ∃ q, A.data.OwnsEntry g q i j ∧ (Translate g A B).Get g p i j = A.Get g q i j := by
  obtain ⟨mA, nA, ⟨cdA, rdA, caA, raA, rootA⟩, locA⟩ := A
  obtain ⟨mB, nB, ⟨cdB, rdB, caB, raB, rootB⟩, locB⟩ := B
  simp only at hAc hAr hBc hBr
  subst hAc hAr hBc hBr
  obtain ⟨_, hra, hroot, _⟩ := hA
  simp only [DistData.RowStride, Dist.stride] at hra
  simp [DistData.CrossSize] at hroot
  have hs : 0 < g.LCM := hg.lcm_pos
  have hk : (g.MDRank p + raB + (g.LCM - raA % g.LCM)) % g.LCM < g.LCM := Nat.mod_lt _ hs
  obtain ⟨hq, hperp, hrank⟩ := Grid.MDProc_spec hg rootA _ hroot hk
  have hshift : Shift (g.MDRank (g.MDProc rootA
      ((g.MDRank p + raB + (g.LCM - raA % g.LCM)) % g.LCM))) raA g.LCM
      = Shift (g.MDRank p) raB g.LCM := by
    rw [hrank]
    unfold Shift
    rw [Nat.mod_add_mod, Nat.mod_eq_of_lt hra]
    have h1 : g.MDRank p + raB + (g.LCM - raA) + raA = g.MDRank p + raB + g.LCM := by omega
    rw [h1, Nat.add_mod_right]
  have hb := (DistData.OwnsEntry_iff hg _ p i j).mp hown
  simp only [DistData.RowStride, DistData.RowShift, DistData.RowRank, Dist.stride,
    Dist.rank] at hb
  refine ⟨g.MDProc rootA ((g.MDRank p + raB + (g.LCM - raA % g.LCM)) % g.LCM), ?_, ?_⟩
  · rw [DistData.OwnsEntry_iff hg]
    refine ⟨DistData.participating_of hq ?_, ?_, ?_⟩
    · simp [DistData.CrossRank, hperp]
    · simp [DistData.ColStride, DistData.ColShift, Dist.stride, Shift, Nat.mod_one]
    · simp only [DistData.RowStride, DistData.RowShift, DistData.RowRank, Dist.stride,
        Dist.rank]
      rw [hshift]
      exact hb.2.2
  · simp only [DistMatrix.Get, Translate, hb.1, if_true, DistData.RowStride, DistData.RowRank,
      DistData.LocalRow, DistData.LocalCol, DistData.ColStride, DistData.ColShift,
      DistData.RowShift, DistData.ColRank, Dist.stride, Dist.rank, hshift]
    simp [Shift, Nat.mod_one]

/-- The row filter delivers to every owner under the destination descriptor the value the
same process held in its own copy of the `[STAR,STAR]` source. -/
theorem RowFilter_entry {g : Grid} (hg : g.WellFormed) (A B : DistMatrix T)
    (hA : A.data.Valid g) (hAc : A.data.colDist = Dist.STAR)
    (hAr : A.data.rowDist = Dist.STAR) (hBc : B.data.colDist = Dist.STAR) (i j p : Nat)
    (hj : j < A.width) (hown : B.data.OwnsEntry g p i j) :
    A.data.OwnsEntry g p i j ∧ (RowFilter g A B).Get g p i j = A.Get g p i j := by
  obtain ⟨mA, nA, ⟨cdA, rdA, caA, raA, rootA⟩, locA⟩ := A
  obtain ⟨mB, nB, ⟨cdB, rdB, caB, raB, rootB⟩, locB⟩ := B
  simp only at hAc hAr hBc hj
  subst hAc hAr hBc
  obtain ⟨_, _, hroot, _⟩ := hA
  simp [DistData.CrossSize] at hroot
  have hb := (DistData.OwnsEntry_iff hg _ p i j).mp hown
  have hlt := DistData.Participating.lt_size hb.1
  have hcol : DistData.LocalCol g ⟨Dist.STAR, rdB, caB, raB, rootB⟩ p j
      < DistData.LocalWidth g ⟨Dist.STAR, rdB, caB, raB, rootB⟩ nA p := by
    simp only [DistData.LocalWidth, hb.1, if_true]
    exact LocalIndex_lt_Length _ _ _ _ (DistData.RowStride_pos hg _)
      (DistData.RowShift_lt hg _ p) hj hb.2.2
  have hglob : DistData.GlobalCol g ⟨Dist.STAR, rdB, caB, raB, rootB⟩ p
      (DistData.LocalCol g ⟨Dist.STAR, rdB, caB, raB, rootB⟩ p j) = j :=
    GlobalIndex_LocalIndex _ _ _ hb.2.2
  refine ⟨?_, ?_⟩
  · rw [DistData.OwnsEntry_iff hg]
    refine ⟨DistData.participating_of hlt ?_, ?_, ?_⟩
    · simp [DistData.CrossRank, hroot]
    · simp [DistData.ColStride, DistData.ColShift, Dist.stride, Shift, Nat.mod_one]
    · simp [DistData.RowStride, DistData.RowShift, Dist.stride, Shift, Nat.mod_one]
  · simp only [DistMatrix.Get, RowFilter]
    rw [if_pos ⟨hb.1, hcol⟩, hglob]
    simp [DistData.LocalRow, DistData.ColStride, DistData.ColShift, Dist.stride, Shift,
      Nat.mod_one]

end copy

theorem grid23_wellFormed : grid23.WellFormed where
  height_pos := by decide
  width_pos := by decide
  md_rank_lt := by
    intro p hp
    have hp6 : p < 6 := hp
    interval_cases p <;> decide
  md_perp_lt := by
    intro p _
    show 0 < Nat.gcd 2 3
    decide
  md_cover := by
    intro d k hd hk
    have hd1 : d < 1 := hd
    have hk6 : k < 6 := hk
    interval_cases d
    interval_cases k
    · exact ⟨0, by decide, rfl, rfl⟩
    · exact ⟨3, by decide, rfl, rfl⟩
    · exact ⟨4, by decide, rfl, rfl⟩
    · exact ⟨1, by decide, rfl, rfl⟩
    · exact ⟨2, by decide, rfl, rfl⟩
    · exact ⟨5, by decide, rfl, rfl⟩

/-! ### Assignment into `[STAR,MD]` -/

/-- The run-time dispatch of `operator=( const BlockMatrix<T>& )` on a source with one of
the fourteen distribution pairs: exactly one routine runs and `*this` is returned. -/
theorem assignBlockMatrix_cases {T : Type} (impl : copy.Routines T) (g : Grid)
    (A B : DistMatrix T) (hleg : (A.data.colDist, A.data.rowDist) ∈ legalPairs) :
    ∃ R, BDM.assignBlockMatrix impl g A B = some R ∧ R.returned = R.self ∧
      (R.self = impl.GeneralPurpose g A B ∨
        (R.self = impl.Translate g A B ∧ A.data.colDist = Dist.STAR ∧
          A.data.rowDist = Dist.MD) ∨
        (R.self = impl.RowFilter g A B ∧ A.data.colDist = Dist.STAR ∧
          A.data.rowDist = Dist.STAR)) := by
  obtain ⟨mA, nA, ⟨cd, rd, ca, ra, root⟩, locA⟩ := A
  have hpair : (cd, rd) ∈ legalPairs := hleg
  clear hleg
  unfold BDM.assignBlockMatrix
  cases cd <;> cases rd <;> first
    | exact absurd hpair (by decide)
    | exact ⟨_, rfl, rfl, Or.inl rfl⟩
    | exact ⟨_, rfl, rfl, Or.inr (Or.inl ⟨rfl, rfl, rfl⟩)⟩
    | exact ⟨_, rfl, rfl, Or.inr (Or.inr ⟨rfl, rfl, rfl⟩)⟩

/-- C1: for every source matrix `A` with one of the fourteen distribution pairs, after
`B = A` the `[STAR,MD]` destination has the global height and width of `A`, keeps its own
descriptor, every entry has an owner under it, and the value every owner holds for the
global entry `(i,j)` is the value an owner of `(i,j)` under the descriptor of `A` held
before the call (the value of every such owner when the redundant copies of `A` agree). -/
theorem assign_preserves_entries {T : Type} (g : Grid) (hg : g.WellFormed)
    (A B : DistMatrix T) (hA : A.data.Valid g) (hB : B.data.Valid g)
    (hBc : B.data.colDist = Dist.STAR) (hBr : B.data.rowDist = Dist.MD) :
    ∃ R, BDM.assignBlockMatrix (copy.engine T) g A B = some R ∧
      R.self.height = A.height ∧ R.self.width = A.width ∧ R.self.data = B.data ∧
      (∀ i j, ∃ p, R.self.data.OwnsEntry g p i j) ∧
      (∀ i j p, i < A.height → j < A.width → R.self.data.OwnsEntry g p i j →
        ∃ q, A.data.OwnsEntry g q i j ∧ R.self.Get g p i j = A.Get g q i j) ∧
      (A.Consistent g → ∀ i j p q, i < A.height → j < A.width →
        R.self.data.OwnsEntry g p i j → A.data.OwnsEntry g q i j →
        R.self.Get g p i j = A.Get g q i j) := by
  obtain ⟨R, hR, _, hcase⟩ := assignBlockMatrix_cases (copy.engine T) g A B hA.2.2.2
  have hmain : R.self.height = A.height ∧ R.self.width = A.width ∧ R.self.data = B.data ∧
      (∀ i j p, i < A.height → j < A.width → R.self.data.OwnsEntry g p i j →
        ∃ q, A.data.OwnsEntry g q i j ∧ R.self.Get g p i j = A.Get g q i j) := by
    rcases hcase with h | ⟨h, hc, hr⟩ | ⟨h, hc, hr⟩
    · rw [h]
      refine ⟨rfl, rfl, rfl, ?_⟩
      intro i j p hi hj hown
      exact copy.GeneralPurpose_entry hg A B hA i j p hi hj hown
    · rw [h]
      refine ⟨rfl, rfl, rfl, ?_⟩
      intro i j p _ _ hown
      exact copy.Translate_entry hg A B hA hc hr hBc hBr i j p hown
    · rw [h]
      refine ⟨rfl, rfl, rfl, ?_⟩
      intro i j p _ hj hown
      exact ⟨p, copy.RowFilter_entry hg A B hA hc hr hBc i j p hj hown⟩
  obtain ⟨h1, h2, h3, h4⟩ := hmain
  refine ⟨R, hR, h1, h2, h3, ?_, h4, ?_⟩
  · intro i j
    rw [h3]
    exact DistData.exists_owner hg B.data hB i j
  · intro hcons i j p q hi hj hp hq
    obtain ⟨q0, hq0, heq⟩ := h4 i j p hi hj hp
    rw [heq]
    exact hcons i j q0 q hi hj hq0 hq

/-- Witness of C1: the 3 x 7 `[MC,MR]` example assigned to the `[STAR,MD]` example on the
2 x 3 grid. -/
theorem assign_preserves_entries_witness :
    ∃ R, BDM.assignBlockMatrix (copy.engine Int) grid23 exampleMCMR exampleSTARMD = some R ∧
      R.self.height = exampleMCMR.height ∧ R.self.width = exampleMCMR.width ∧
      R.self.data = exampleSTARMD.data ∧
      (∀ i j, ∃ p, R.self.data.OwnsEntry grid23 p i j) ∧
      (∀ i j p, i < exampleMCMR.height → j < exampleMCMR.width →
        R.self.data.OwnsEntry grid23 p i j →
        ∃ q, exampleMCMR.data.OwnsEntry grid23 q i j ∧
          R.self.Get grid23 p i j = exampleMCMR.Get grid23 q i j) ∧
      (exampleMCMR.Consistent grid23 → ∀ i j p q, i < exampleMCMR.height →
        j < exampleMCMR.width → R.self.data.OwnsEntry grid23 p i j →
        exampleMCMR.data.OwnsEntry grid23 q i j →
        R.self.Get grid23 p i j = exampleMCMR.Get grid23 q i j) :=
  assign_preserves_entries grid23 grid23_wellFormed exampleMCMR exampleSTARMD
    (by decide) (by decide) rfl rfl

/-- C7, as stated, fails: on the `[CIRC,CIRC]` example the assignment runs the
general-purpose strategy, not the CIRC strategy. -/
theorem CIRC_CIRC_not_ViaCIRC :
    ¬ ((BDM.assign (copy.engine Int) Dist.CIRC Dist.CIRC grid23 exampleCIRC exampleSTARMD).map
        (fun R => R.calls.map Routine.strategy) = some [Strategy.ViaCIRC]) := by
  decide

/-- C7, amended: assigning a `[CIRC,CIRC]` matrix to a `[STAR,MD]` block matrix calls
`copy::GeneralPurpose` and nothing else, for every source matrix, and returns `*this`. -/
theorem assign_CIRC_CIRC {T : Type} (impl : copy.Routines T) (g : Grid) (A B : DistMatrix T) :
    ∃ R, BDM.assign impl Dist.CIRC Dist.CIRC g A B = some R ∧
      R.calls = [Routine.GeneralPurpose] ∧
      R.calls.map Routine.strategy = [Strategy.GeneralPurpose] ∧
      R.self = impl.GeneralPurpose g A B ∧ R.returned = R.self :=
  ⟨_, rfl, rfl, rfl, rfl, rfl⟩

/-- C8: assigning a `[STAR,STAR]` matrix to a `[STAR,MD]` block matrix calls
`copy::RowFilter`, the filter strategy on the row dimension, and nothing else, whatever the
body of the routine.  With the row filter of the redistribution engine, on a well-formed
grid, the call is pure local extraction: a participating process `p` fills its local column
`jLoc` from its own copy of the source, with the column whose global index is the one of
`jLoc` under the destination, a column of the matrix that `p` owns; and no other local entry
of any process changes. -/
theorem assign_STAR_STAR {T : Type} (impl : copy.Routines T) (g : Grid) (A B : DistMatrix T)
    (hg : g.WellFormed) (hAr : A.data.rowDist = Dist.STAR) :
    (∃ R, BDM.assign impl Dist.STAR Dist.STAR g A B = some R ∧
      R.calls = [Routine.RowFilter] ∧
      R.calls.map Routine.strategy = [Strategy.Filter] ∧
      R.self = impl.RowFilter g A B ∧ R.returned = R.self) ∧
    (∃ R, BDM.assign (copy.engine T) Dist.STAR Dist.STAR g A B = some R ∧
      R.self.height = A.height ∧ R.self.width = A.width ∧ R.self.data = B.data ∧
      ∀ p iLoc jLoc : Nat,
        (B.data.Participating g p = true → jLoc < B.data.LocalWidth g A.width p →
          B.data.GlobalCol g p jLoc < A.width ∧
          Owns (B.data.RowStride g) B.data.rowAlign (B.data.RowRank g p)
            (B.data.GlobalCol g p jLoc) ∧
          R.self.loc p iLoc jLoc = A.loc p iLoc (B.data.GlobalCol g p jLoc)) ∧
        (¬ (B.data.Participating g p = true ∧ jLoc < B.data.LocalWidth g A.width p) →
          R.self.loc p iLoc jLoc = B.loc p iLoc jLoc)) := by
  refine ⟨⟨_, rfl, rfl, rfl, rfl, rfl⟩, ⟨_, rfl, rfl, rfl, rfl, ?_⟩⟩
  intro p iLoc jLoc
  constructor
  · intro hp hj
    have hlt := DistData.Participating.lt_size hp
    have hsh := DistData.RowShift_lt hg B.data p
    have hmem : B.data.GlobalCol g p jLoc < A.width ∧
        B.data.GlobalCol g p jLoc % B.data.RowStride g = B.data.RowShift g p := by
      have hj2 : jLoc < Length A.width (B.data.RowShift g p) (B.data.RowStride g) := by
        unfold DistData.LocalWidth at hj
        rw [if_pos hp] at hj
        exact hj
      exact (mem_owned_nat A.width (B.data.RowStride g) (B.data.RowShift g p)
        (B.data.GlobalCol g p jLoc) (DistData.RowStride_pos hg B.data) hsh).mpr
        ⟨jLoc, hj2, rfl⟩
    refine ⟨hmem.1, ?_, ?_⟩
    · exact (owns_nat_iff (B.data.RowStride g) B.data.rowAlign (B.data.RowRank g p)
        (B.data.GlobalCol g p jLoc) (Dist.rank_lt_stride hg B.data.rowDist p hlt)).mpr hmem.2
    · show (copy.RowFilter g A B).loc p iLoc jLoc = _
      unfold copy.RowFilter
      simp only
      rw [if_pos ⟨hp, hj⟩]
      congr 1
      simp [DistData.LocalCol, DistData.RowShift, DistData.RowStride, DistData.RowRank, hAr,
        Dist.stride, Dist.rank, Shift, LocalIndex, Nat.mod_one]
  · intro hn
    show (copy.RowFilter g A B).loc p iLoc jLoc = _
    unfold copy.RowFilter
    simp only
    rw [if_neg hn]

/-- The theorem `assign_STAR_STAR` on the 2 x 3 grid, for the 3 x 7 `[STAR,STAR]` matrix with
entries `100 i + j` and a `[STAR,MD]` destination with row alignment 2: process 2, whose
first column is column 0, receives column 6 of its own copy as local column 1. -/
theorem assign_STAR_STAR_witness :
    grid23.WellFormed ∧
    (exampleMatrix ⟨Dist.STAR, Dist.STAR, 0, 0, 0⟩ 3 7).data.rowDist = Dist.STAR ∧
    ∃ R, BDM.assign (copy.engine Int) Dist.STAR Dist.STAR grid23
        (exampleMatrix ⟨Dist.STAR, Dist.STAR, 0, 0, 0⟩ 3 7) exampleSTARMD = some R ∧
      exampleSTARMD.data.GlobalCol grid23 2 1 = 6 ∧
      R.self.loc 2 2 1 = (exampleMatrix ⟨Dist.STAR, Dist.STAR, 0, 0, 0⟩ 3 7).loc 2 2 6 ∧
      R.self.loc 2 2 1 = 206 := by
  obtain ⟨R, hR, _, _, _, hloc⟩ := (assign_STAR_STAR (copy.engine Int) grid23
    (exampleMatrix ⟨Dist.STAR, Dist.STAR, 0, 0, 0⟩ 3 7) exampleSTARMD grid23_wellFormed rfl).2
  have h := ((hloc 2 2 1).1 (by decide) (by decide)).2.2
  have hcol : exampleSTARMD.data.GlobalCol grid23 2 1 = 6 := by decide
  rw [hcol] at h
  exact ⟨grid23_wellFormed, rfl, R, hR, hcol, h, by rw [h]; decide⟩

/-- C9: assigning a `[STAR,MD]` block matrix to a `[STAR,MD]` block matrix calls
`copy::Translate`, the identity-with-shift strategy, and nothing else, whatever the
alignments of source and destination, and the operator returns the destination itself. -/
theorem assign_STAR_MD {T : Type} (impl : copy.Routines T) (g : Grid) (A B : DistMatrix T) :
    ∃ R, BDM.assign impl Dist.STAR Dist.MD g A B = some R ∧
      R.calls = [Routine.Translate] ∧
      R.calls.map Routine.strategy = [Strategy.IdentityWithShift] ∧
      R.self = impl.Translate g A B ∧ R.returned = R.self :=
  ⟨_, rfl, rfl, rfl, rfl, rfl⟩

/-- C10: for each of the eleven mismatched source distributions the assignment into a
`[STAR,MD]` block matrix calls `copy::GeneralPurpose` and nothing else. -/
theorem assign_mismatched {T : Type} (impl : copy.Routines T) (g : Grid) (A B : DistMatrix T)
    (U V : Dist) (h : (U, V) ∈ BDM.mismatchedPairs) :
    ∃ R, BDM.assign impl U V g A B = some R ∧
      R.calls = [Routine.GeneralPurpose] ∧
      R.calls.map Routine.strategy = [Strategy.GeneralPurpose] ∧
      R.self = impl.GeneralPurpose g A B ∧ R.returned = R.self := by
  cases U <;> cases V <;> first
    | exact absurd h (by decide)
    | exact ⟨_, rfl, rfl, rfl, rfl, rfl⟩

/-- Witness of C10: the `[MC,MR]` example assigned to the `[STAR,MD]` example. -/
theorem assign_mismatched_witness :
    ∃ R, BDM.assign (copy.engine Int) Dist.MC Dist.MR grid23 exampleMCMR exampleSTARMD
        = some R ∧
      R.calls = [Routine.GeneralPurpose] ∧
      R.calls.map Routine.strategy = [Strategy.GeneralPurpose] ∧
      R.self = (copy.engine Int).GeneralPurpose grid23 exampleMCMR exampleSTARMD ∧
      R.returned = R.self :=
  assign_mismatched (copy.engine Int) grid23 exampleMCMR exampleSTARMD Dist.MC Dist.MR
    (by decide)

/-! ### Round trip through `[STAR,MD]` -/

/-- What the run-time dispatch into `[STAR,MD]` delivers with the routines of the
redistribution engine: shape, descriptor, and the value of an owner for every entry. -/
theorem assignBlockMatrix_entries {T : Type} {g : Grid} (hg : g.WellFormed)
    (A B : DistMatrix T) (hA : A.data.Valid g)
    (hBc : B.data.colDist = Dist.STAR) (hBr : B.data.rowDist = Dist.MD) :
    ∃ R, BDM.assignBlockMatrix (copy.engine T) g A B = some R ∧
      R.self.height = A.height ∧ R.self.width = A.width ∧ R.self.data = B.data ∧
      (∀ i j p, i < A.height → j < A.width → R.self.data.OwnsEntry g p i j →
        ∃ q, A.data.OwnsEntry g q i j ∧ R.self.Get g p i j = A.Get g q i j) := by
  obtain ⟨R, hR, _, hcase⟩ := assignBlockMatrix_cases (copy.engine T) g A B hA.2.2.2
  refine ⟨R, hR, ?_⟩
  rcases hcase with h | ⟨h, hc, hr⟩ | ⟨h, hc, hr⟩
  · rw [h]
    exact ⟨rfl, rfl, rfl, fun i j p hi hj hown =>
      copy.GeneralPurpose_entry hg A B hA i j p hi hj hown⟩
  · rw [h]
    exact ⟨rfl, rfl, rfl, fun i j p _ _ hown =>
      copy.Translate_entry hg A B hA hc hr hBc hBr i j p hown⟩
  · rw [h]
    exact ⟨rfl, rfl, rfl, fun i j p _ hj hown =>
      ⟨p, copy.RowFilter_entry hg A B hA hc hr hBc i j p hj hown⟩⟩

/-- What the assignment out of `[STAR,MD]` delivers: shape, descriptor, and the value of an
owner for every entry. -/
theorem assignFromSTARMD_entries {T : Type} {g : Grid} (hg : g.WellFormed)
    (B C : DistMatrix T) (hB : B.data.Valid g)
    (hBc : B.data.colDist = Dist.STAR) (hBr : B.data.rowDist = Dist.MD) :
    (copy.assignFromSTARMD g B C).height = B.height ∧
      (copy.assignFromSTARMD g B C).width = B.width ∧
      (copy.assignFromSTARMD g B C).data = C.data ∧
      (∀ i j p, i < B.height → j < B.width → C.data.OwnsEntry g p i j →
        ∃ q, B.data.OwnsEntry g q i j ∧
          (copy.assignFromSTARMD g B C).Get g p i j = B.Get g q i j) := by
  unfold copy.assignFromSTARMD
  by_cases hC : C.data.colDist = Dist.STAR ∧ C.data.rowDist = Dist.MD
  · rw [if_pos hC]
    exact ⟨rfl, rfl, rfl, fun i j p _ _ hown =>
      copy.Translate_entry hg B C hB hBc hBr hC.1 hC.2 i j p hown⟩
  · rw [if_neg hC]
    exact ⟨rfl, rfl, rfl, fun i j p hi hj hown =>
      copy.GeneralPurpose_entry hg B C hB i j p hi hj hown⟩

/-- The local slot `(iLoc,jLoc)` of a process is the slot of the global entry it stands for,
which the process owns and which lies inside the matrix. -/
theorem local_slot_owned {g : Grid} (hg : g.WellFormed) (d : DistData) (m n p iLoc jLoc : Nat)
    (hi : iLoc < d.LocalHeight g m p) (hj : jLoc < d.LocalWidth g n p) :
    d.GlobalRow g p iLoc < m ∧ d.GlobalCol g p jLoc < n ∧
      d.OwnsEntry g p (d.GlobalRow g p iLoc) (d.GlobalCol g p jLoc) ∧
      d.LocalRow g p (d.GlobalRow g p iLoc) = iLoc ∧
      d.LocalCol g p (d.GlobalCol g p jLoc) = jLoc := by
  have hpart := copy.participating_of_lt_LocalHeight hi
  simp only [DistData.LocalHeight, hpart, if_true] at hi
  simp only [DistData.LocalWidth, hpart, if_true] at hj
  have hr := (mem_owned_nat m _ _ (d.GlobalRow g p iLoc) (DistData.ColStride_pos hg d)
    (DistData.ColShift_lt hg d p)).mpr ⟨iLoc, hi, rfl⟩
  have hc := (mem_owned_nat n _ _ (d.GlobalCol g p jLoc) (DistData.RowStride_pos hg d)
    (DistData.RowShift_lt hg d p)).mpr ⟨jLoc, hj, rfl⟩
  refine ⟨hr.1, hc.1, ?_, ?_, ?_⟩
  · rw [DistData.OwnsEntry_iff hg]
    exact ⟨hpart, hr.2, hc.2⟩
  · exact LocalIndex_GlobalIndex _ _ _ (DistData.ColStride_pos hg d)
  · exact LocalIndex_GlobalIndex _ _ _ (DistData.RowStride_pos hg d)

/-- Every owner of an entry of an example matrix holds `100 i + j` for it. -/
theorem exampleMatrix_Get (d : DistData) (m n p i j : Nat)
    (h : d.OwnsEntry grid23 p i j) :
    (exampleMatrix d m n).Get grid23 p i j = 100 * (i : Int) + j := by
  have ho := (DistData.OwnsEntry_iff grid23_wellFormed d p i j).mp h
  have h1 : d.GlobalRow grid23 p (d.LocalRow grid23 p i) = i :=
    GlobalIndex_LocalIndex _ _ _ ho.2.1
  have h2 : d.GlobalCol grid23 p (d.LocalCol grid23 p j) = j :=
    GlobalIndex_LocalIndex _ _ _ ho.2.2
  simp only [DistMatrix.Get, exampleMatrix, h1, h2]

theorem exampleMatrix_consistent (d : DistData) (m n : Nat) :
    (exampleMatrix d m n).Consistent grid23 := by
  intro i j p q _ _ hp hq
  rw [exampleMatrix_Get d m n p i j hp, exampleMatrix_Get d m n q i j hq]

/-! ### Owners under a distribution without replication -/

namespace Grid

/-- The diagonal bookkeeping of a well-formed grid names every process once: it maps the
`r c` processes onto the `gcd(r,c) lcm(r,c) = r c` pairs (diagonal, position). -/
theorem WellFormed.md_inj {g : Grid} (hg : g.WellFormed) (p q : Nat) (hp : p < g.Size)
    (hq : q < g.Size) (h1 : g.MDPerpRank p = g.MDPerpRank q) (h2 : g.MDRank p = g.MDRank q) :
    p = q := by
  have hcard : (Finset.range g.Size).card
      ≤ ((Finset.range g.GCD) ×ˢ (Finset.range g.LCM)).card := by
    rw [Finset.card_product, Finset.card_range, Finset.card_range, Finset.card_range]
    unfold GCD LCM Size
    rw [Nat.gcd_mul_lcm]
  refine Finset.inj_on_of_surj_on_of_card_le
    (fun a _ => (g.MDPerpRank a, g.MDRank a)) ?_ ?_ hcard
    (Finset.mem_range.mpr hp) (Finset.mem_range.mpr hq) ?_
  · intro a ha
    rw [Finset.mem_product, Finset.mem_range, Finset.mem_range]
    exact ⟨hg.md_perp_lt a (Finset.mem_range.mp ha), hg.md_rank_lt a (Finset.mem_range.mp ha)⟩
  · rintro ⟨d, k⟩ hb
    rw [Finset.mem_product, Finset.mem_range, Finset.mem_range] at hb
    obtain ⟨a, ha, e1, e2⟩ := hg.md_cover d k hb.1 hb.2
    refine ⟨a, Finset.mem_range.mpr ha, ?_⟩
    show (g.MDPerpRank a, g.MDRank a) = (d, k)
    rw [e1, e2]
  · show (g.MDPerpRank p, g.MDRank p) = (g.MDPerpRank q, g.MDRank q)
    rw [h1, h2]

theorem row_col_inj (g : Grid) (p q : Nat) (h1 : g.Row p = g.Row q) (h2 : g.Col p = g.Col q) :
    p = q := by
  unfold Row at h1
  unfold Col at h2
  rw [← Nat.mod_add_div p g.height, ← Nat.mod_add_div q g.height, h1, h2]

theorem WellFormed.vr_inj {g : Grid} (hg : g.WellFormed) (p q : Nat) (hp : p < g.Size)
    (hq : q < g.Size) (h : g.VRRank p = g.VRRank q) : p = q := by
  unfold VRRank at h
  have hcp := hg.col_lt p hp
  have hcq := hg.col_lt q hq
  have hc : g.Col p = g.Col q := by
    have h3 := congrArg (fun x => x % g.width) h
    simp only [Nat.add_mul_mod_self_right] at h3
    rw [Nat.mod_eq_of_lt hcp, Nat.mod_eq_of_lt hcq] at h3
    exact h3
  have hr : g.Row p = g.Row q := by
    rw [hc] at h
    have h4 : g.Row p * g.width = g.Row q * g.width := by omega
    exact Nat.eq_of_mul_eq_mul_right hg.width_pos h4
  exact g.row_col_inj p q hr hc

end Grid

/-- Under a valid descriptor whose pair of distributions does not replicate, an entry has at
most one owner. -/
theorem owner_unique {g : Grid} (hg : g.WellFormed) (d : DistData) (hv : d.Valid g)
    (hnr : (d.colDist, d.rowDist) ∉ redundantPairs) (i j p q : Nat)
    (hp : d.OwnsEntry g p i j) (hq : d.OwnsEntry g q i j) : p = q := by
  have hpl := DistData.Participating.lt_size hp.1
  have hql := DistData.Participating.lt_size hq.1
  have hcross : d.CrossRank g p = d.CrossRank g q := by
    rw [DistData.Participating.cross hp.1, DistData.Participating.cross hq.1]
  have hcol : d.ColRank g p = d.ColRank g q := by
    have h1 := hp.2.1
    have h2 := hq.2.1
    unfold Owns at h1 h2
    have h3 : ((d.ColRank g p : Nat) : Int) = (d.ColRank g q : Nat) := by rw [← h1, ← h2]
    exact_mod_cast h3
  have hrow : d.RowRank g p = d.RowRank g q := by
    have h1 := hp.2.2
    have h2 := hq.2.2
    unfold Owns at h1 h2
    have h3 : ((d.RowRank g p : Nat) : Int) = (d.RowRank g q : Nat) := by rw [← h1, ← h2]
    exact_mod_cast h3
  obtain ⟨cd, rd, ca, ra, root⟩ := d
  have hleg : (cd, rd) ∈ legalPairs := hv.2.2.2
  have hnr2 : (cd, rd) ∉ redundantPairs := hnr
  simp only [DistData.CrossRank, DistData.ColRank, DistData.RowRank] at hcross hcol hrow
  cases cd <;> cases rd <;> first
    | exact absurd hleg (by decide)
    | exact absurd (by decide) hnr2
    | simp [Dist.rank, Grid.VCRank] at hcross hcol hrow
  · -- [MC,MR]
    exact g.row_col_inj p q hcol hrow
  · -- [MD,STAR]
    exact hg.md_inj p q hpl hql hcross hcol
  · -- [MR,MC]
    exact g.row_col_inj p q hrow hcol
  · -- [VC,STAR]
    exact hcol
  · -- [VR,STAR]
    exact hg.vr_inj p q hpl hql hcol
  · -- [STAR,MD]
    exact hg.md_inj p q hpl hql hcross hrow
  · -- [STAR,VC]
    exact hrow
  · -- [STAR,VR]
    exact hg.vr_inj p q hpl hql hrow
  · -- [CIRC,CIRC]
    exact hcross

/-- A matrix whose distribution does not replicate is consistent. -/
theorem consistent_of_not_redundant {T : Type} {g : Grid} (hg : g.WellFormed)
    (A : DistMatrix T) (hA : A.data.Valid g)
    (hnr : (A.data.colDist, A.data.rowDist) ∉ redundantPairs) : A.Consistent g := by
  intro i j p q _ _ hp hq
  rw [owner_unique hg A.data hA hnr i j p q hp hq]

/-- C11: round trip through `[STAR,MD]`.  For every matrix `A` with a valid descriptor whose
distribution does not replicate entries, or whose replicated copies agree, assigning `A` to a
`[STAR,MD]` matrix `B` and assigning the result to a matrix `C` with the descriptor of `A`
gives a matrix with the shape and descriptor of `A` whose local buffer equals the local
buffer of `A` on every process. -/
theorem roundTrip_restores_local {T : Type} (g : Grid) (hg : g.WellFormed)
    (A B C : DistMatrix T) (hA : A.data.Valid g) (hB : B.data.Valid g)
    (hBc : B.data.colDist = Dist.STAR) (hBr : B.data.rowDist = Dist.MD)
    (hC : C.data = A.data)
    (hrep : (A.data.colDist, A.data.rowDist) ∉ redundantPairs ∨ A.Consistent g) :
    ∃ C2, copy.roundTrip g A B C = some C2 ∧
      C2.height = A.height ∧ C2.width = A.width ∧ C2.data = A.data ∧
      (∀ p, C2.LocalHeight g p = A.LocalHeight g p ∧ C2.LocalWidth g p = A.LocalWidth g p) ∧
      (∀ p iLoc jLoc, iLoc < A.LocalHeight g p → jLoc < A.LocalWidth g p →
        C2.loc p iLoc jLoc = A.loc p iLoc jLoc) := by
  have hcons : A.Consistent g := hrep.elim (consistent_of_not_redundant hg A hA) id
  obtain ⟨R, hR, h1, h2, h3, h4⟩ := assignBlockMatrix_entries hg A B hA hBc hBr
  have hRv : R.self.data.Valid g := by rw [h3]; exact hB
  obtain ⟨k1, k2, k3, k4⟩ := assignFromSTARMD_entries hg R.self C hRv
    (by rw [h3]; exact hBc) (by rw [h3]; exact hBr)
  refine ⟨copy.assignFromSTARMD g R.self C, ?_, ?_, ?_, ?_, ?_, ?_⟩
  · unfold copy.roundTrip
    rw [hR]
    rfl
  · rw [k1, h1]
  · rw [k2, h2]
  · rw [k3, hC]
  · intro p
    unfold DistMatrix.LocalHeight DistMatrix.LocalWidth
    rw [k1, k2, k3, h1, h2, hC]
    exact ⟨rfl, rfl⟩
  · intro p iLoc jLoc hi hj
    obtain ⟨hi2, hj2, hown, hl1, hl2⟩ :=
      local_slot_owned hg A.data A.height A.width p iLoc jLoc hi hj
    obtain ⟨q, hq, e1⟩ := k4 _ _ p (by rw [h1]; exact hi2) (by rw [h2]; exact hj2)
      (by rw [hC]; exact hown)
    obtain ⟨r, hr, e2⟩ := h4 _ _ q hi2 hj2 hq
    have e3 := hcons _ _ r p hi2 hj2 hr hown
    have e4 : (copy.assignFromSTARMD g R.self C).Get g p
        (A.data.GlobalRow g p iLoc) (A.data.GlobalCol g p jLoc)
        = (copy.assignFromSTARMD g R.self C).loc p iLoc jLoc := by
      unfold DistMatrix.Get
      rw [k3, hC, hl1, hl2]
    have e5 : A.Get g p (A.data.GlobalRow g p iLoc) (A.data.GlobalCol g p jLoc)
        = A.loc p iLoc jLoc := by
      unfold DistMatrix.Get
      rw [hl1, hl2]
    rw [← e4, e1, e2, e3, e5]

/-- Witness of C11: the 3 x 7 `[MC,MR]` example sent through the `[STAR,MD]` example and
back on the 2 x 3 grid. -/
theorem roundTrip_restores_local_witness :
    ∃ C2, copy.roundTrip grid23 exampleMCMR exampleSTARMD exampleTarget = some C2 ∧
      C2.height = exampleMCMR.height ∧ C2.width = exampleMCMR.width ∧
      C2.data = exampleMCMR.data ∧
      (∀ p, C2.LocalHeight grid23 p = exampleMCMR.LocalHeight grid23 p ∧
        C2.LocalWidth grid23 p = exampleMCMR.LocalWidth grid23 p) ∧
      (∀ p iLoc jLoc, iLoc < exampleMCMR.LocalHeight grid23 p →
        jLoc < exampleMCMR.LocalWidth grid23 p →
        C2.loc p iLoc jLoc = exampleMCMR.loc p iLoc jLoc) :=
  roundTrip_restores_local grid23 grid23_wellFormed exampleMCMR exampleSTARMD exampleTarget
    (by decide) (by decide) rfl rfl rfl (Or.inr (exampleMatrix_consistent _ 3 7))

/-! ### User-defined reductions -/

namespace mpi

theorem reduceLoop_range (f : Int → Int → Int) (inData outData : Nat → Int) (n : Nat) :
    (List.range n).foldl (fun out j => Function.update out j (f (inData j) (out j))) outData
      = fun j => if j < n then f (inData j) (outData j) else outData j := by
  induction n with
  | zero => simp
  | succ n ih =>
    rw [List.range_succ, List.foldl_append, ih]
    funext j
    simp only [List.foldl_cons, List.foldl_nil, Function.update_apply, lt_self_iff_false,
      if_false]
    by_cases h : j = n
    · subst h
      simp
    · rw [if_neg h]
      by_cases h2 : j < n
      · rw [if_pos h2, if_pos (by omega)]
      · rw [if_neg h2, if_neg (by omega)]

theorem reduceLoop_apply (f : Int → Int → Int) (inData outData : Nat → Int) (length : Int)
    (j : Nat) :
    reduceLoop f inData outData length j
      = if (j : Int) < length then f (inData j) (outData j) else outData j := by
  unfold reduceLoop
  rw [reduceLoop_range]
  show (if j < length.toNat then f (inData j) (outData j) else outData j) = _
  by_cases h : (j : Int) < length
  · have h2 : j < length.toNat := by omega
    rw [if_pos h, if_pos h2]
  · have h2 : ¬ j < length.toNat := by omega
    rw [if_neg h, if_neg h2]

end mpi

/-- C12: after `SetUserReduceFunc(f, commutative)` for `Int`, the callback selected by the
same flag, applied to buffers `in` and `out` with length `L`, returns with
`out[j] = f(in[j], out_before[j])` for every `0 <= j < L`, and with `in` and every `out[j]`,
`j >= L`, unchanged. -/
theorem userCallback_after_Set (st : mpi.UserIntFuncs) (f : Int → Int → Int)
    (commutative : Bool) (inData outData : Nat → Int) (L : Int) :
    ∃ out2, mpi.userCallback commutative (mpi.SetUserReduceFunc f commutative st)
        inData outData L = some (inData, out2) ∧
      (∀ j : Nat, (j : Int) < L → out2 j = f (inData j) (outData j)) ∧
      (∀ j : Nat, L ≤ (j : Int) → out2 j = outData j) := by
  refine ⟨mpi.reduceLoop f inData outData L, ?_, ?_, ?_⟩
  · cases commutative <;> rfl
  · intro j hj
    rw [mpi.reduceLoop_apply, if_pos hj]
  · intro j hj
    rw [mpi.reduceLoop_apply, if_neg (by omega)]

/-- Witness of C12: the commutative slot with `f = max`, three entries reduced out of four. -/
theorem userCallback_after_Set_witness :
    ∃ out2, mpi.userCallback true (mpi.SetUserReduceFunc max true ⟨none, none⟩)
        (fun j : Nat => (j : Int)) (fun _ => 2) 3 = some ((fun j : Nat => (j : Int)), out2) ∧
      (∀ j : Nat, (j : Int) < 3 → out2 j = max (j : Int) 2) ∧
      (∀ j : Nat, (3 : Int) ≤ (j : Int) → out2 j = 2) :=
  userCallback_after_Set ⟨none, none⟩ max true (fun j : Nat => (j : Int)) (fun _ => 2) 3

/-! ### `AxpyTrapezoid`: error paths -/

/-- C13: `AxpyTrapezoid` on sparse matrices raises a `LogicError` if and only if `X` and `Y`
differ in height or in width, and when it raises `Y` is left as it was: nothing has been
reserved or queued. -/
theorem AxpyTrapezoidSparse_error_iff {S T : Type} [Mul T] (ops : SparseInterface S T)
    (uplo : UpperOrLower) (alpha : T) (X Y : S) (offset : Int) :
    ((AxpyTrapezoidSparse ops uplo alpha X Y offset).error ≠ none ↔
      (ops.Height X ≠ ops.Height Y ∨ ops.Width X ≠ ops.Width Y)) ∧
    ((AxpyTrapezoidSparse ops uplo alpha X Y offset).error ≠ none →
      (AxpyTrapezoidSparse ops uplo alpha X Y offset).error
          = some "X and Y must have the same dimensions" ∧
        (AxpyTrapezoidSparse ops uplo alpha X Y offset).state = Y) := by
  unfold AxpyTrapezoidSparse
  by_cases h : ops.Height X ≠ ops.Height Y ∨ ops.Width X ≠ ops.Width Y
  · rw [if_pos h]
    simp [h]
  · rw [if_neg h]
    simp [h]

/-- Witness of C13: a 2 x 2 and a 2 x 3 triplet matrix differ in width, the call raises and
the 2 x 3 matrix is returned as it was. -/
theorem AxpyTrapezoidSparse_error_iff_witness :
    (AxpyTrapezoidSparse tripletInterface UpperOrLower.UPPER 5
        ⟨2, 2, [(0, 1, 7)], []⟩ ⟨2, 3, [], []⟩ 0).error
          = some "X and Y must have the same dimensions" ∧
      (AxpyTrapezoidSparse tripletInterface UpperOrLower.UPPER 5
        ⟨2, 2, [(0, 1, 7)], []⟩ ⟨2, 3, [], []⟩ 0).state = ⟨2, 3, [], []⟩ :=
  (AxpyTrapezoidSparse_error_iff tripletInterface UpperOrLower.UPPER 5
    ⟨2, 2, [(0, 1, 7)], []⟩ ⟨2, 3, [], []⟩ 0).2
    ((AxpyTrapezoidSparse_error_iff tripletInterface UpperOrLower.UPPER 5
      ⟨2, 2, [(0, 1, 7)], []⟩ ⟨2, 3, [], []⟩ 0).1.mpr (Or.inr (by decide)))

/-- C14, as stated, fails: in a build that drops `DEBUG_ONLY`, on the non-square 1 x 2
matrices `X = [1 1]` and `Y = [0 0]` the dense overload raises nothing and updates `Y`. -/
theorem AxpyTrapezoid_release_no_error :
    Nonconformal (exampleRow 1) (exampleRow 0) ∧
    (AxpyTrapezoid 32 false UpperOrLower.UPPER 1 (exampleRow 1) (exampleRow 0)
      Storage.separate 0).error = none ∧
    (AxpyTrapezoid 32 false UpperOrLower.UPPER 1 (exampleRow 1) (exampleRow 0)
      Storage.separate 0).state.Get 0 0
      = 1 ∧
    (exampleRow 0).Get 0 0 = 0 := by
  decide

/-- C14, amended: in a build that keeps `DEBUG_ONLY`, `AxpyTrapezoid` on dense matrices
raises `LogicError("Nonconformal AxpyTrapezoid")` for every input in which `X` is not
square, `Y` is not square, or `X.Height() != Y.Height()`, and leaves `Y` as it was, and it
raises for no other input; in a build that drops `DEBUG_ONLY` it never raises. -/
theorem AxpyTrapezoid_debug_error {T : Type} [Add T] [Mul T] (w : Nat) (uplo : UpperOrLower)
    (alpha : T) (X Y : Matrix T) (st : Storage) (offset : Int) :
    (Nonconformal X Y →
      (AxpyTrapezoid w true uplo alpha X Y st offset).error
          = some "Nonconformal AxpyTrapezoid" ∧
        (AxpyTrapezoid w true uplo alpha X Y st offset).state = Y) ∧
    (¬ Nonconformal X Y → (AxpyTrapezoid w true uplo alpha X Y st offset).error = none) ∧
    (AxpyTrapezoid w false uplo alpha X Y st offset).error = none := by
  refine ⟨?_, ?_, ?_⟩
  · intro h
    unfold AxpyTrapezoid
    rw [if_pos ⟨rfl, h⟩]
    exact ⟨rfl, rfl⟩
  · intro h
    unfold AxpyTrapezoid
    rw [if_neg (fun hc => h hc.2)]
  · unfold AxpyTrapezoid
    rw [if_neg (by simp)]

/-- Witness of the amended C14: the non-square 1 x 2 matrices in a debug build. -/
theorem AxpyTrapezoid_debug_error_witness :
    (AxpyTrapezoid 32 true UpperOrLower.UPPER 1 (exampleRow 1) (exampleRow 0)
      Storage.separate 0).error
        = some "Nonconformal AxpyTrapezoid" ∧
      (AxpyTrapezoid 32 true UpperOrLower.UPPER 1 (exampleRow 1) (exampleRow 0)
      Storage.separate 0).state
        = exampleRow 0 :=
  (AxpyTrapezoid_debug_error 32 UpperOrLower.UPPER 1 (exampleRow 1) (exampleRow 0)
    Storage.separate 0).1
    (by decide)

/-! ### `Choose` and `LogChoose` -/

/-- In exact arithmetic the product after `t` steps of the loop of `Choose` is the quotient
of the falling factorials of `n` and `k`. -/
theorem chooseLoop_steps (Log Exp : ℚ → ℚ) (n k t : Nat) (ht : t ≤ k) (hk : k ≤ n) :
    (List.range t).foldl
      (fun product (j : Nat) =>
        (Arith.exact ℚ Log Exp).mul product
          ((Arith.exact ℚ Log Exp).div ((Arith.exact ℚ Log Exp).ofInt ((n : Int) - j))
            ((Arith.exact ℚ Log Exp).ofInt ((k : Int) - j))))
      ((Arith.exact ℚ Log Exp).ofInt 1)
      = (n.descFactorial t : ℚ) / (k.descFactorial t : ℚ) := by
  induction t with
  | zero => simp [Arith.exact]
  | succ t ih =>
    rw [List.range_succ, List.foldl_append, ih (by omega)]
    simp only [List.foldl_cons, List.foldl_nil, Arith.exact, Nat.descFactorial_succ]
    have hkt : ((k - t : Nat) : ℚ) ≠ 0 := by
      have : 0 < k - t := by omega
      exact_mod_cast this.ne'
    have hd : (k.descFactorial t : ℚ) ≠ 0 := by
      have h0 : k.descFactorial t ≠ 0 := by
        intro h
        have := Nat.descFactorial_eq_zero_iff_lt.mp h
        omega
      exact_mod_cast h0
    have e1 : (((n : Int) - (t : Int) : Int) : ℚ) = ((n - t : Nat) : ℚ) := by
      rw [Nat.cast_sub (by omega)]
      push_cast
      ring
    have e2 : (((k : Int) - (t : Int) : Int) : ℚ) = ((k - t : Nat) : ℚ) := by
      rw [Nat.cast_sub (by omega)]
      push_cast
      ring
    rw [e1, e2]
    push_cast
    field_simp
    ring

theorem chooseLoop_exact (Log Exp : ℚ → ℚ) (n k : Nat) (hk : k ≤ n) :
    chooseLoop (Arith.exact ℚ Log Exp) n k = (n.choose k : ℚ) := by
  unfold chooseLoop
  rw [Int.toNat_natCast, chooseLoop_steps Log Exp n k k (le_refl k) hk,
    Nat.descFactorial_self, Nat.descFactorial_eq_factorial_mul_choose]
  have hf : (k.factorial : ℚ) ≠ 0 := by exact_mod_cast (Nat.factorial_pos k).ne'
  push_cast
  field_simp

/-- The number of factors the loops of `Choose` and `LogChoose` run over. -/
theorem choose_steps (n k : Nat) (hk : k ≤ n) :
    (if (n : Int) - k < k then (n : Int) - k else (k : Int)) = ((min k (n - k) : Nat) : Int) := by
  by_cases h : (n : Int) - k < k
  · rw [if_pos h]
    have : min k (n - k) = n - k := by omega
    rw [this]
    omega
  · rw [if_neg h]
    have : min k (n - k) = k := by omega
    rw [this]

/-- C15: for all integers `0 <= k <= n`, `Choose(n,k)` evaluated in exact rational
arithmetic returns the binomial coefficient, which is `n!/(k!(n-k)!)` and
`(n(n-1)...(n-(k-1)))/(k(k-1)...1)`. -/
theorem Choose_exact (Log Exp : ℚ → ℚ) (n k : Nat) (hk : k ≤ n) :
    Choose (Arith.exact ℚ Log Exp) n k = Except.ok (n.choose k : ℚ) ∧
    (n.choose k : ℚ) = (n.factorial : ℚ) / ((k.factorial : ℚ) * ((n - k).factorial : ℚ)) ∧
    (n.choose k : ℚ) = (n.descFactorial k : ℚ) / (k.factorial : ℚ) := by
  refine ⟨?_, ?_, ?_⟩
  · unfold Choose
    rw [if_neg (by omega)]
    simp only []
    rw [choose_steps n k hk, chooseLoop_exact Log Exp n _ (by omega)]
    by_cases h : k ≤ n - k
    · rw [min_eq_left h]
    · rw [min_eq_right (by omega), Nat.choose_symm hk]
  · exact Nat.cast_choose ℚ hk
  · rw [Nat.descFactorial_eq_factorial_mul_choose]
    have hf : (k.factorial : ℚ) ≠ 0 := by exact_mod_cast (Nat.factorial_pos k).ne'
    push_cast
    field_simp

/-- Witness of C15: `Choose(5,2)` is 10. -/
theorem Choose_exact_witness :
    Choose (Arith.exact ℚ id id) (5 : Nat) (2 : Nat) = Except.ok ((Nat.choose 5 2 : Nat) : ℚ) ∧
    ((Nat.choose 5 2 : Nat) : ℚ)
      = (Nat.factorial 5 : ℚ) / ((Nat.factorial 2 : ℚ) * ((5 - 2).factorial : ℚ)) ∧
    ((Nat.choose 5 2 : Nat) : ℚ) = (Nat.descFactorial 5 2 : ℚ) / (Nat.factorial 2 : ℚ) :=
  Choose_exact id id 5 2 (by decide)

/-- C16: `Choose(n,k)` and `LogChoose(n,k)` raise a `LogicError` if and only if `k < 0` or
`k > n`, which includes every call with `n < 0`; for `0 <= k <= n` both return a value. -/
theorem Choose_error_iff {R : Type} (ar : Arith R) (n k : Int) :
    ((∃ msg, Choose ar n k = Except.error msg) ↔ (k < 0 ∨ k > n)) ∧
    ((∃ msg, LogChoose ar n k = Except.error msg) ↔ (k < 0 ∨ k > n)) ∧
    (n < 0 → (∃ msg, Choose ar n k = Except.error msg) ∧
      (∃ msg, LogChoose ar n k = Except.error msg)) ∧
    (0 ≤ k → k ≤ n → (∃ v, Choose ar n k = Except.ok v) ∧
      (∃ v, LogChoose ar n k = Except.ok v)) := by
  have hc : (∃ msg, Choose ar n k = Except.error msg) ↔ (k < 0 ∨ k > n) := by
    unfold Choose
    by_cases h : k < 0 ∨ k > n
    · rw [if_pos h]
      exact ⟨fun _ => h, fun _ => ⟨_, rfl⟩⟩
    · rw [if_neg h]
      constructor
      · rintro ⟨msg, hm⟩
        cases hm
      · intro h2
        exact absurd h2 h
  have hl : (∃ msg, LogChoose ar n k = Except.error msg) ↔ (k < 0 ∨ k > n) := by
    unfold LogChoose
    by_cases h : k < 0 ∨ k > n
    · rw [if_pos h]
      exact ⟨fun _ => h, fun _ => ⟨_, rfl⟩⟩
    · rw [if_neg h]
      constructor
      · rintro ⟨msg, hm⟩
        cases hm
      · intro h2
        exact absurd h2 h
  refine ⟨hc, hl, ?_, ?_⟩
  · intro hn
    have h : k < 0 ∨ k > n := by omega
    exact ⟨hc.mpr h, hl.mpr h⟩
  · intro h0 h1
    have h : ¬ (k < 0 ∨ k > n) := by omega
    constructor
    · unfold Choose
      rw [if_neg h]
      exact ⟨_, rfl⟩
    · unfold LogChoose
      rw [if_neg h]
      exact ⟨_, rfl⟩

/-- C17: symmetry.  For all integers `0 <= k <= n`, `Choose(n,k)` and `Choose(n,n-k)` return
the same value, in every arithmetic: both run the same loop over `min(k, n-k)` factors. -/
theorem Choose_symm {R : Type} (ar : Arith R) (n k : Int) (h0 : 0 ≤ k) (hk : k ≤ n) :
    Choose ar n k = Choose ar n (n - k) ∧
    Choose ar n k = Except.ok (chooseLoop ar n (min k (n - k))) := by
  have key : ∀ k2 : Int, 0 ≤ k2 → k2 ≤ n →
      Choose ar n k2 = Except.ok (chooseLoop ar n (min k2 (n - k2))) := by
    intro k2 h2 h3
    unfold Choose
    rw [if_neg (by omega)]
    simp only []
    by_cases h : n - k2 < k2
    · rw [if_pos h, min_eq_right (by omega)]
    · rw [if_neg h, min_eq_left (by omega)]
  refine ⟨?_, key k h0 hk⟩
  rw [key k h0 hk, key (n - k) (by omega) (by omega)]
  have e : n - (n - k) = k := by ring
  rw [e, min_comm]

/-- Witness of C16: `Choose(3,5)` and `LogChoose(3,5)` raise, `Choose(5,2)` and
`LogChoose(5,2)` return. -/
theorem Choose_error_iff_witness :
    ((∃ msg, Choose (Arith.exact ℚ id id) 3 5 = Except.error msg) ∧
      (∃ msg, LogChoose (Arith.exact ℚ id id) 3 5 = Except.error msg)) ∧
    ((∃ v, Choose (Arith.exact ℚ id id) 5 2 = Except.ok v) ∧
      (∃ v, LogChoose (Arith.exact ℚ id id) 5 2 = Except.ok v)) :=
  ⟨⟨(Choose_error_iff (Arith.exact ℚ id id) 3 5).1.mpr (Or.inr (by decide)),
      (Choose_error_iff (Arith.exact ℚ id id) 3 5).2.1.mpr (Or.inr (by decide))⟩,
    (Choose_error_iff (Arith.exact ℚ id id) 5 2).2.2.2 (by decide) (by decide)⟩

/-- Witness of C17: `Choose(5,2)` and `Choose(5,3)`. -/
theorem Choose_symm_witness :
    Choose (Arith.exact ℚ id id) 5 2 = Choose (Arith.exact ℚ id id) 5 (5 - 2) ∧
    Choose (Arith.exact ℚ id id) 5 2
      = Except.ok (chooseLoop (Arith.exact ℚ id id) 5 (min 2 (5 - 2))) :=
  Choose_symm (Arith.exact ℚ id id) 5 2 (by decide) (by decide)

/-! ### `LogBinomial` and `LogEulerian` -/

/-- Writes whose values do not depend on the vector written: every index of the list holds
its value afterwards, every other index is untouched. -/
theorem foldl_update_indep {R : Type} (val : Nat → R) :
    ∀ (ks : List Nat) (tmp : Nat → R),
      ks.foldl (fun tmp k => Function.update tmp k (val k)) tmp
        = fun k => if k ∈ ks then val k else tmp k := by
  intro ks
  induction ks with
  | nil =>
    intro tmp
    simp
  | cons a ks ih =>
    intro tmp
    rw [List.foldl_cons, ih]
    funext k
    by_cases h1 : k ∈ ks
    · rw [if_pos h1, if_pos (List.mem_cons_of_mem a h1)]
    · rw [if_neg h1]
      by_cases h2 : k = a
      · subst h2
        rw [if_pos (List.mem_cons_self k ks), Function.update_same]
      · rw [Function.update_noteq h2, if_neg]
        intro hmem
        rcases List.mem_cons.mp hmem with h | h
        · exact h2 h
        · exact h1 h

theorem mem_pass_range (j k : Nat) : k ∈ List.range' 1 (j - 1) ↔ (1 ≤ k ∧ k < j) := by
  rw [List.mem_range'_1]
  omega

theorem logBinomialPass_exact (j : Nat) (binom binomTmp : Nat → ℝ) :
    logBinomialPass (Arith.exact ℝ Real.log Real.exp) j binom binomTmp
      = fun k => if 1 ≤ k ∧ k < j then
          Real.log (Real.exp (binom k - binom (k - 1)) + 1) + binom (k - 1)
        else binomTmp k := by
  unfold logBinomialPass
  rw [foldl_update_indep]
  funext k
  simp only [mem_pass_range, Arith.exact, Int.cast_one]

/-- Pascal's rule under the logarithm: one pass turns row `t` into row `t+1`. -/
theorem logBinomial_step (t k : Nat) :
    (if 1 ≤ k ∧ k < t + 1 then
        Real.log (Real.exp (Real.log (t.choose k) - Real.log (t.choose (k - 1))) + 1)
          + Real.log (t.choose (k - 1))
      else Real.log (t.choose k))
      = Real.log ((t + 1).choose k) := by
  by_cases h : 1 ≤ k ∧ k < t + 1
  · rw [if_pos h]
    obtain ⟨i, rfl⟩ : ∃ i, k = i + 1 := ⟨k - 1, by omega⟩
    simp only [Nat.add_sub_cancel]
    have ha : (0 : ℝ) < (t.choose (i + 1) : ℝ) := by
      exact_mod_cast Nat.choose_pos (by omega)
    have hb : (0 : ℝ) < (t.choose i : ℝ) := by
      exact_mod_cast Nat.choose_pos (by omega)
    rw [Real.exp_sub, Real.exp_log ha, Real.exp_log hb,
      ← Real.log_mul (by positivity) hb.ne', Nat.choose_succ_succ]
    congr 1
    push_cast
    field_simp
    ring
  · rw [if_neg h]
    rcases Nat.eq_zero_or_pos k with h0 | h0
    · subst h0
      simp
    · have hk : t + 1 ≤ k := by omega
      rcases Nat.eq_or_lt_of_le hk with h1 | h1
      · subst h1
        simp
      · rw [Nat.choose_eq_zero_of_lt (by omega), Nat.choose_eq_zero_of_lt h1]

theorem logBinomial_passes (t : Nat) :
    (List.range' 1 t).foldl
      (fun (st : (Nat → ℝ) × (Nat → ℝ)) (j : Nat) =>
        (logBinomialPass (Arith.exact ℝ Real.log Real.exp) j st.1 st.2,
          logBinomialPass (Arith.exact ℝ Real.log Real.exp) j st.1 st.2))
      ((fun _ => (Arith.exact ℝ Real.log Real.exp).ofInt 0),
        (fun _ => (Arith.exact ℝ Real.log Real.exp).ofInt 0))
      = ((fun k => Real.log (t.choose k)), (fun k => Real.log (t.choose k))) := by
  induction t with
  | zero =>
    have h0 : (fun k : Nat => Real.log ((Nat.choose 0 k : Nat) : ℝ)) = fun _ => (0 : ℝ) := by
      funext k
      cases k <;> simp
    simp [Arith.exact, h0]
  | succ t ih =>
    rw [List.range'_1_concat, List.foldl_append, ih]
    simp only [List.foldl_cons, List.foldl_nil, logBinomialPass_exact]
    have e : (fun k => if 1 ≤ k ∧ k < 1 + t then
          Real.log (Real.exp (Real.log (t.choose k) - Real.log (t.choose (k - 1))) + 1)
            + Real.log (t.choose (k - 1))
        else Real.log (t.choose k)) = fun k => Real.log ((t + 1).choose k) := by
      funext k
      rw [Nat.add_comm 1 t]
      exact logBinomial_step t k
    rw [e]

/-- C18: for every `n >= 0`, `LogBinomial(n)` evaluated in exact real arithmetic returns a
vector of length `n+1` whose `k`-th entry is `log(choose(n,k))` for every `k = 0,...,n`; in
particular the entries 0 and `n` are 0. -/
theorem LogBinomial_exact (n : Nat) :
    LogBinomial (Arith.exact ℝ Real.log Real.exp) n
      = (List.range (n + 1)).map (fun k => Real.log (n.choose k)) ∧
    (LogBinomial (Arith.exact ℝ Real.log Real.exp) n).length = n + 1 ∧
    (∀ k, k ≤ n →
      (LogBinomial (Arith.exact ℝ Real.log Real.exp) n)[k]? = some (Real.log (n.choose k))) ∧
    (LogBinomial (Arith.exact ℝ Real.log Real.exp) n)[0]? = some 0 ∧
    (LogBinomial (Arith.exact ℝ Real.log Real.exp) n)[n]? = some 0 := by
  have hmain : LogBinomial (Arith.exact ℝ Real.log Real.exp) n
      = (List.range (n + 1)).map (fun k => Real.log (n.choose k)) := by
    unfold LogBinomial
    simp only [Int.toNat_natCast]
    rw [logBinomial_passes n]
    have e : ((n : Int) + 1).toNat = n + 1 := by omega
    rw [e]
  have hget : ∀ k, k ≤ n →
      (LogBinomial (Arith.exact ℝ Real.log Real.exp) n)[k]? = some (Real.log (n.choose k)) := by
    intro k hk
    rw [hmain, List.getElem?_map, List.getElem?_range (by omega)]
    rfl
  refine ⟨hmain, ?_, hget, ?_, ?_⟩
  · rw [hmain, List.length_map, List.length_range]
  · rw [hget 0 (Nat.zero_le n)]
    simp
  · rw [hget n (le_refl n)]
    simp

/-- Witness of C18: the rows 0 and 4. -/
theorem LogBinomial_exact_witness :
    (LogBinomial (Arith.exact ℝ Real.log Real.exp) (0 : Nat)).length = 0 + 1 ∧
    (LogBinomial (Arith.exact ℝ Real.log Real.exp) (4 : Nat))[2]?
      = some (Real.log (Nat.choose 4 2)) :=
  ⟨(LogBinomial_exact 0).2.1, (LogBinomial_exact 4).2.2.1 2 (by decide)⟩

theorem Eulerian_zero_col (n : Nat) : Eulerian n 0 = 1 := by
  induction n with
  | zero => rfl
  | succ n ih =>
    rw [Eulerian]
    exact ih

theorem Eulerian_eq_zero (n k : Nat) (hn : 1 ≤ n) (hk : n ≤ k) : Eulerian n k = 0 := by
  induction n generalizing k with
  | zero => omega
  | succ n ih =>
    obtain ⟨i, rfl⟩ : ∃ i, k = i + 1 := ⟨k - 1, by omega⟩
    rw [Eulerian]
    have h1 : Eulerian n (i + 1) = 0 := by
      rcases Nat.eq_zero_or_pos n with h0 | h0
      · subst h0
        rfl
      · exact ih (i + 1) h0 (by omega)
    have h2 : n + 1 - (i + 1) = 0 := by omega
    rw [h1, h2]
    simp

theorem Eulerian_pos (n k : Nat) (hk : k < n) : 0 < Eulerian n k := by
  induction n generalizing k with
  | zero => omega
  | succ n ih =>
    cases k with
    | zero =>
      rw [Eulerian_zero_col]
      exact Nat.one_pos
    | succ i =>
      rw [Eulerian]
      have h1 : 0 < Eulerian n i := ih i (by omega)
      have h2 : 0 < n + 1 - (i + 1) := by omega
      have h3 : 0 < (n + 1 - (i + 1)) * Eulerian n i := Nat.mul_pos h2 h1
      omega

theorem Eulerian_last (n : Nat) : Eulerian (n + 1) n = 1 := by
  induction n with
  | zero => rfl
  | succ n ih =>
    rw [Eulerian, Eulerian_eq_zero (n + 1) (n + 1) (by omega) (le_refl _), ih]
    have h : n + 1 + 1 - (n + 1) = 1 := by omega
    rw [h]
    simp

theorem logEulerianPass_exact (j : Nat) (euler eulerTmp : Nat → ℝ) :
    logEulerianPass (Arith.exact ℝ Real.log Real.exp) j euler eulerTmp
      = fun k => if 1 ≤ k ∧ k < j then
          Real.log (((k : ℝ) + 1) * Real.exp (euler k - euler (k - 1)) + (j : ℝ) - (k : ℝ) + 1)
            + euler (k - 1)
        else eulerTmp k := by
  unfold logEulerianPass
  rw [foldl_update_indep]
  funext k
  simp only [mem_pass_range, Arith.exact, Int.cast_one, Int.cast_add, Int.cast_natCast]

/-- The recurrence of the Eulerian numbers under the logarithm: the pass `j = t+1` turns row
`t+1` into row `t+2`. -/
theorem logEulerian_step (t k : Nat) :
    (if 1 ≤ k ∧ k < t + 1 then
        Real.log (((k : ℝ) + 1)
            * Real.exp (Real.log (Eulerian (t + 1) k) - Real.log (Eulerian (t + 1) (k - 1)))
          + ((t + 1 : Nat) : ℝ) - (k : ℝ) + 1)
          + Real.log (Eulerian (t + 1) (k - 1))
      else Real.log (Eulerian (t + 1) k))
      = Real.log (Eulerian (t + 2) k) := by
  by_cases h : 1 ≤ k ∧ k < t + 1
  · rw [if_pos h]
    obtain ⟨i, rfl⟩ : ∃ i, k = i + 1 := ⟨k - 1, by omega⟩
    simp only [Nat.add_sub_cancel]
    have ha : (0 : ℝ) < (Eulerian (t + 1) (i + 1) : ℝ) := by
      exact_mod_cast Eulerian_pos (t + 1) (i + 1) (by omega)
    have hb : (0 : ℝ) < (Eulerian (t + 1) i : ℝ) := by
      exact_mod_cast Eulerian_pos (t + 1) i (by omega)
    have hrec : Eulerian (t + 2) (i + 1)
        = (i + 2) * Eulerian (t + 1) (i + 1) + (t + 1 + 1 - (i + 1)) * Eulerian (t + 1) i := by
      rw [Eulerian]
    have hsub : ((t + 1 - i : Nat) : ℝ) = (t : ℝ) + 1 - (i : ℝ) := by
      rw [Nat.cast_sub (by omega)]
      push_cast
      ring
    have hpos : (0 : ℝ) < (t : ℝ) + 1 - (i : ℝ) := by
      have : (i : ℝ) < (t : ℝ) + 1 := by exact_mod_cast (by omega : i < t + 1)
      linarith
    have harg : (0 : ℝ) < (((i + 1 : Nat) : ℝ) + 1)
        * ((Eulerian (t + 1) (i + 1) : ℝ) / (Eulerian (t + 1) i : ℝ))
        + ((t + 1 : Nat) : ℝ) - ((i + 1 : Nat) : ℝ) + 1 := by
      have h1 : (0 : ℝ) < (((i + 1 : Nat) : ℝ) + 1)
          * ((Eulerian (t + 1) (i + 1) : ℝ) / (Eulerian (t + 1) i : ℝ)) := by positivity
      push_cast
      push_cast at h1
      linarith
    rw [Real.exp_sub, Real.exp_log ha, Real.exp_log hb, ← Real.log_mul harg.ne' hb.ne', hrec]
    congr 1
    push_cast
    rw [hsub]
    field_simp
    ring
  · rw [if_neg h]
    rcases Nat.eq_zero_or_pos k with h0 | h0
    · subst h0
      rw [Eulerian_zero_col, Eulerian_zero_col]
    · have hk : t + 1 ≤ k := by omega
      rw [Eulerian_eq_zero (t + 1) k (by omega) hk]
      rcases Nat.eq_or_lt_of_le hk with h1 | h1
      · subst h1
        rw [Eulerian_last]
        simp
      · rw [Eulerian_eq_zero (t + 2) k (by omega) (by omega)]

theorem logEulerian_passes (t : Nat) :
    (List.range' 1 t).foldl
      (fun (st : (Nat → ℝ) × (Nat → ℝ)) (j : Nat) =>
        (logEulerianPass (Arith.exact ℝ Real.log Real.exp) j st.1 st.2,
          logEulerianPass (Arith.exact ℝ Real.log Real.exp) j st.1 st.2))
      ((fun _ => (Arith.exact ℝ Real.log Real.exp).ofInt 0),
        (fun _ => (Arith.exact ℝ Real.log Real.exp).ofInt 0))
      = ((fun k => Real.log (Eulerian (t + 1) k)), (fun k => Real.log (Eulerian (t + 1) k))) := by
  induction t with
  | zero =>
    have h0 : (fun k : Nat => Real.log ((Eulerian (0 + 1) k : Nat) : ℝ)) = fun _ => (0 : ℝ) := by
      funext k
      cases k with
      | zero => simp [Eulerian]
      | succ i => simp [Eulerian]
    simp [Arith.exact, h0]
  | succ t ih =>
    rw [List.range'_1_concat, List.foldl_append, ih]
    simp only [List.foldl_cons, List.foldl_nil, logEulerianPass_exact]
    have e : (fun k => if 1 ≤ k ∧ k < 1 + t then
          Real.log (((k : ℝ) + 1)
              * Real.exp (Real.log (Eulerian (t + 1) k) - Real.log (Eulerian (t + 1) (k - 1)))
            + ((1 + t : Nat) : ℝ) - (k : ℝ) + 1)
            + Real.log (Eulerian (t + 1) (k - 1))
        else Real.log (Eulerian (t + 1) k)) = fun k => Real.log (Eulerian (t + 1 + 1) k) := by
      funext k
      rw [Nat.add_comm 1 t]
      exact logEulerian_step t k
    rw [e]

/-- C19: for every `n >= 1`, `LogEulerian(n)` evaluated in exact real arithmetic returns a
vector of length `n` whose entry `j-1`, for `j = 1,...,n`, is `log A(n, j-1)`, where `A` are
the Eulerian numbers: `A(1,0) = 1`, `A(n,0) = 1` and
`A(n,k) = (k+1) A(n-1,k) + (n-k) A(n-1,k-1)`. -/
theorem LogEulerian_exact (n : Nat) (hn : 1 ≤ n) :
    LogEulerian (Arith.exact ℝ Real.log Real.exp) n
      = (List.range n).map (fun k => Real.log (Eulerian n k)) ∧
    (LogEulerian (Arith.exact ℝ Real.log Real.exp) n).length = n ∧
    (∀ j, 1 ≤ j → j ≤ n →
      (LogEulerian (Arith.exact ℝ Real.log Real.exp) n)[j - 1]?
        = some (Real.log (Eulerian n (j - 1)))) ∧
    Eulerian 1 0 = 1 ∧
    (∀ m, Eulerian (m + 1) 0 = 1) ∧
    (∀ m k, 1 ≤ k → Eulerian (m + 2) k
      = (k + 1) * Eulerian (m + 1) k + (m + 2 - k) * Eulerian (m + 1) (k - 1)) := by
  have hmain : LogEulerian (Arith.exact ℝ Real.log Real.exp) n
      = (List.range n).map (fun k => Real.log (Eulerian n k)) := by
    obtain ⟨m, rfl⟩ : ∃ m, n = m + 1 := ⟨n - 1, by omega⟩
    unfold LogEulerian
    have e1 : (((m + 1 : Nat) : Int) - 1).toNat = m := by omega
    simp only [e1, Int.toNat_natCast]
    rw [logEulerian_passes m]
  refine ⟨hmain, ?_, ?_, rfl, fun m => Eulerian_zero_col (m + 1), ?_⟩
  · rw [hmain, List.length_map, List.length_range]
  · intro j h1 h2
    rw [hmain, List.getElem?_map, List.getElem?_range (by omega)]
    rfl
  · intro m k hk
    obtain ⟨i, rfl⟩ : ∃ i, k = i + 1 := ⟨k - 1, by omega⟩
    rw [Eulerian]
    simp only [Nat.add_sub_cancel]

/-- Witness of C19: `LogEulerian(3)` is `log 1, log 4, log 1`. -/
theorem LogEulerian_exact_witness :
    LogEulerian (Arith.exact ℝ Real.log Real.exp) (3 : Nat)
      = (List.range 3).map (fun k => Real.log (Eulerian 3 k)) ∧
    (LogEulerian (Arith.exact ℝ Real.log Real.exp) (3 : Nat)).length = 3 ∧
    (∀ j, 1 ≤ j → j ≤ 3 →
      (LogEulerian (Arith.exact ℝ Real.log Real.exp) (3 : Nat))[j - 1]?
        = some (Real.log (Eulerian 3 (j - 1)))) ∧
    Eulerian 1 0 = 1 ∧
    (∀ m, Eulerian (m + 1) 0 = 1) ∧
    (∀ m k, 1 ≤ k → Eulerian (m + 2) k
      = (k + 1) * Eulerian (m + 1) k + (m + 2 - k) * Eulerian (m + 1) (k - 1)) :=
  LogEulerian_exact 3 (by decide)

/-! ### The Lauchli matrix -/

/-- In a column-major buffer with leading dimension `L`, the position determines the row
below `L` and the column. -/
theorem flat_index_inj (L i j i2 j2 : Int) (h0 : 0 ≤ i) (h1 : i < L) (h2 : 0 ≤ i2)
    (h3 : i2 < L) (h : i + j * L = i2 + j2 * L) : i = i2 ∧ j = j2 := by
  have e1 : (i + j * L) % L = i := by
    rw [Int.add_mul_emod_self, Int.emod_eq_of_lt h0 h1]
  have e2 : (i2 + j2 * L) % L = i2 := by
    rw [Int.add_mul_emod_self, Int.emod_eq_of_lt h2 h3]
  have hi : i = i2 := by
    rw [← e1, ← e2, h]
  refine ⟨hi, ?_⟩
  subst hi
  have h4 : j * L = j2 * L := by omega
  exact Int.eq_of_mul_eq_mul_right (by omega) h4

/-- A sequence of conditional writes of one value `v`: shape and leading dimension stay, a
position some write goes to holds `v`, every other position is untouched. -/
theorem foldl_condSet {α T : Type} (c : α → Prop) [DecidablePred c] (r cl : α → Int) (v : T) :
    ∀ (xs : List α) (A : Matrix T),
      (xs.foldl (fun B x => if c x then B.Set (r x) (cl x) v else B) A).height = A.height ∧
      (xs.foldl (fun B x => if c x then B.Set (r x) (cl x) v else B) A).width = A.width ∧
      (xs.foldl (fun B x => if c x then B.Set (r x) (cl x) v else B) A).ldim = A.ldim ∧
      ∀ idx,
        ((∃ x ∈ xs, c x ∧ idx = r x + cl x * A.ldim) →
          (xs.foldl (fun B x => if c x then B.Set (r x) (cl x) v else B) A).buf idx = v) ∧
        ((¬ ∃ x ∈ xs, c x ∧ idx = r x + cl x * A.ldim) →
          (xs.foldl (fun B x => if c x then B.Set (r x) (cl x) v else B) A).buf idx
            = A.buf idx) := by
  intro xs
  induction xs with
  | nil =>
    intro A
    refine ⟨rfl, rfl, rfl, fun idx => ⟨?_, fun _ => rfl⟩⟩
    rintro ⟨x, hx, _⟩
    exact absurd hx (List.not_mem_nil x)
  | cons a xs ih =>
    intro A
    rw [List.foldl_cons]
    by_cases ha : c a
    · rw [if_pos ha]
      obtain ⟨k1, k2, k3, k4⟩ := ih (A.Set (r a) (cl a) v)
      refine ⟨k1, k2, k3, fun idx => ⟨?_, ?_⟩⟩
      · rintro ⟨x, hx, hcx, hidx⟩
        by_cases hrest : ∃ y ∈ xs, c y ∧ idx = r y + cl y * A.ldim
        · exact (k4 idx).1 hrest
        · rw [(k4 idx).2 hrest]
          rcases List.mem_cons.mp hx with rfl | hx2
          · simp only [Matrix.Set, hidx, Function.update_same]
          · exact absurd ⟨x, hx2, hcx, hidx⟩ hrest
      · intro hno
        have hrest : ¬ ∃ y ∈ xs, c y ∧ idx = r y + cl y * A.ldim := by
          rintro ⟨y, hy, hcy, hidx⟩
          exact hno ⟨y, List.mem_cons_of_mem a hy, hcy, hidx⟩
        rw [(k4 idx).2 hrest]
        have hne : idx ≠ r a + cl a * A.ldim := by
          intro hidx
          exact hno ⟨a, List.mem_cons_self a xs, ha, hidx⟩
        simp only [Matrix.Set, Function.update_noteq hne]
    · rw [if_neg ha]
      obtain ⟨k1, k2, k3, k4⟩ := ih A
      refine ⟨k1, k2, k3, fun idx => ⟨?_, ?_⟩⟩
      · rintro ⟨x, hx, hcx, hidx⟩
        rcases List.mem_cons.mp hx with rfl | hx2
        · exact absurd hcx ha
        · exact (k4 idx).1 ⟨x, hx2, hcx, hidx⟩
      · intro hno
        apply (k4 idx).2
        rintro ⟨y, hy, hcy, hidx⟩
        exact hno ⟨y, List.mem_cons_of_mem a hy, hcy, hidx⟩

theorem mem_windowEntries (m n : Int) (e : Int × Int) :
    e ∈ windowEntries m n ↔ (0 ≤ e.1 ∧ e.1 < m) ∧ (0 ≤ e.2 ∧ e.2 < n) := by
  unfold windowEntries
  simp only [List.mem_flatMap, List.mem_map, List.mem_range]
  constructor
  · rintro ⟨j, hj, i, hi, rfl⟩
    show (0 ≤ (i : Int) ∧ (i : Int) < m) ∧ (0 ≤ (j : Int) ∧ (j : Int) < n)
    omega
  · rintro ⟨⟨h1, h2⟩, h3, h4⟩
    have hj : e.2.toNat < n.toNat := by omega
    have hi : e.1.toNat < m.toNat := by omega
    refine ⟨e.2.toNat, hj, e.1.toNat, hi, ?_⟩
    rw [Int.toNat_of_nonneg h1, Int.toNat_of_nonneg h3]

/-- The effect of `Fill`: every entry of the window holds `alpha`, the rest of the buffer is
untouched. -/
theorem Fill_buf {T : Type} (A : Matrix T) (alpha : T) :
    (Fill A alpha).ldim = A.ldim ∧
    ∀ idx,
      ((∃ e ∈ windowEntries A.height A.width, idx = e.1 + e.2 * A.ldim) →
        (Fill A alpha).buf idx = alpha) ∧
      ((¬ ∃ e ∈ windowEntries A.height A.width, idx = e.1 + e.2 * A.ldim) →
        (Fill A alpha).buf idx = A.buf idx) := by
  have hfun : (fun (B : Matrix T) (e : Int × Int) => B.Set e.1 e.2 alpha)
      = fun B e => if True then B.Set e.1 e.2 alpha else B := by
    funext B e
    rw [if_pos trivial]
  obtain ⟨_, _, k3, k4⟩ := foldl_condSet (fun _ : Int × Int => True) (fun e => e.1)
    (fun e => e.2) alpha (windowEntries A.height A.width) A
  unfold Fill
  rw [hfun]
  refine ⟨k3, fun idx => ⟨?_, ?_⟩⟩
  · rintro ⟨e, he, hidx⟩
    exact (k4 idx).1 ⟨e, he, trivial, hidx⟩
  · intro hno
    apply (k4 idx).2
    rintro ⟨e, he, _, hidx⟩
    exact hno ⟨e, he, hidx⟩

/-- Filling the view of row 0 sets row 0 of the matrix and nothing else. -/
theorem fillFirstRow_buf {T : Type} (Z : Matrix T) (v : T) (i j : Int) (hi0 : 0 ≤ i)
    (hi : i < Z.ldim) (hj0 : 0 ≤ j) (hj : j < Z.width) :
    (throughRowView Z 0 (Fill (RowView Z 0 1) v)).buf (i + j * Z.ldim)
      = if i = 0 then v else Z.buf (i + j * Z.ldim) := by
  obtain ⟨_, f4⟩ := Fill_buf (RowView Z 0 1) v
  have hthrough : (throughRowView Z 0 (Fill (RowView Z 0 1) v)).buf (i + j * Z.ldim)
      = (Fill (RowView Z 0 1) v).buf (i + j * Z.ldim) := by
    simp only [throughRowView, sub_zero]
  rw [hthrough]
  by_cases hrow : i = 0
  · rw [if_pos hrow]
    apply (f4 _).1
    refine ⟨(0, j), (mem_windowEntries _ _ _).mpr ⟨⟨le_refl 0, ?_⟩, ⟨hj0, hj⟩⟩, ?_⟩
    · show (0 : Int) < 1 - 0
      decide
    · rw [hrow]
      rfl
  · rw [if_neg hrow, (f4 _).2]
    · simp only [RowView, zero_add]
    · rintro ⟨e, he, hidx⟩
      rw [mem_windowEntries] at he
      have h1 : e.1 < 1 - 0 := he.1.2
      have h2 : i + j * Z.ldim = e.1 + e.2 * Z.ldim := hidx
      have := flat_index_inj _ i j e.1 e.2 hi0 hi he.1.1 (by omega) h2
      omega

/-- The effect of `FillDiagonal` on the entries of the matrix. -/
theorem FillDiagonal_buf {T : Type} (A : Matrix T) (alpha : T) (offset : Int) :
    (FillDiagonal A alpha offset).height = A.height ∧
    (FillDiagonal A alpha offset).width = A.width ∧
    (FillDiagonal A alpha offset).ldim = A.ldim ∧
    ∀ i j : Int, 0 ≤ i → i < A.height → A.height ≤ A.ldim → 0 ≤ j → j < A.width →
      (FillDiagonal A alpha offset).buf (i + j * A.ldim)
        = if j - i = offset then alpha else A.buf (i + j * A.ldim) := by
  obtain ⟨k1, k2, k3, k4⟩ := foldl_condSet
    (fun j : Nat => 0 ≤ (j : Int) - offset ∧ (j : Int) - offset < A.height)
    (fun j : Nat => (j : Int) - offset) (fun j : Nat => (j : Int)) alpha
    (List.range A.width.toNat) A
  refine ⟨k1, k2, k3, ?_⟩
  intro i j hi0 hi hL hj0 hj
  by_cases hd : j - i = offset
  · rw [if_pos hd]
    apply (k4 _).1
    refine ⟨j.toNat, List.mem_range.mpr (by omega), ?_, ?_⟩
    · rw [Int.toNat_of_nonneg hj0]
      omega
    · rw [Int.toNat_of_nonneg hj0]
      have : j - offset = i := by omega
      rw [this]
  · rw [if_neg hd]
    apply (k4 _).2
    rintro ⟨x, _, ⟨hx0, hx1⟩, hidx⟩
    have := flat_index_inj _ i j ((x : Int) - offset) x hi0 (by omega) hx0 (by omega) hidx
    omega

theorem Zeros_ldim_ge {T : Type} [Zero T] (A : Matrix T) (m n : Int) :
    m ≤ (Zeros A m n).ldim := by
  simp only [Zeros]
  split
  · exact le_max_left m 1
  · omega

/-- The sequential `Lauchli`: shape and entries. -/
theorem Lauchli_Get {T : Type} [Zero T] [One T] (A : Matrix T) (n : Nat) (mu : T) :
    (Lauchli A n mu).height = (n : Int) + 1 ∧ (Lauchli A n mu).width = n ∧
    ∀ i j : Int, 0 ≤ i → i < (n : Int) + 1 → 0 ≤ j → j < n →
      (Lauchli A n mu).Get i j = lauchliEntry mu i j := by
  have hL : (n : Int) + 1 ≤ (Zeros A ((n : Int) + 1) n).ldim := Zeros_ldim_ge A _ _
  obtain ⟨k1, k2, k3, k4⟩ := FillDiagonal_buf
    (throughRowView (Zeros A ((n : Int) + 1) n) 0
      (Fill (RowView (Zeros A ((n : Int) + 1) n) 0 1) 1)) mu (-1)
  refine ⟨k1, k2, ?_⟩
  intro i j hi0 hi hj0 hj
  have e1 := k4 i j hi0 hi hL hj0 hj
  have e2 := fillFirstRow_buf (Zeros A ((n : Int) + 1) n) (1 : T) i j hi0 (by omega) hj0 hj
  have hget : (Lauchli A n mu).Get i j
      = (FillDiagonal (throughRowView (Zeros A ((n : Int) + 1) n) 0
          (Fill (RowView (Zeros A ((n : Int) + 1) n) 0 1) 1)) mu (-1)).buf
        (i + j * (Zeros A ((n : Int) + 1) n).ldim) := by
    unfold Matrix.Get
    have : (Lauchli A n mu).ldim = (Zeros A ((n : Int) + 1) n).ldim := k3
    rw [this]
    rfl
  have e3 : (throughRowView (Zeros A ((n : Int) + 1) n) 0
      (Fill (RowView (Zeros A ((n : Int) + 1) n) 0 1) 1)).ldim
      = (Zeros A ((n : Int) + 1) n).ldim := rfl
  rw [e3] at e1
  rw [hget, e1, e2]
  unfold lauchliEntry
  by_cases hrow : i = 0
  · have hd : ¬ (j - i = -1) := by omega
    rw [if_neg hd, if_pos hrow, if_pos hrow]
  · rw [if_neg hrow, if_neg hrow]
    by_cases hd : j - i = -1
    · rw [if_pos hd, if_pos (by omega)]
    · rw [if_neg hd, if_neg (by omega)]
      rfl

/-- The distributed `Lauchli`: shape, descriptor, and the entry every owner holds. -/
theorem DistLauchli_Get {T : Type} [Zero T] [One T] {g : Grid} (hg : g.WellFormed)
    (D : DistMatrix T) (n : Nat) (mu : T) :
    (D.Lauchli g n mu).height = n + 1 ∧ (D.Lauchli g n mu).width = n ∧
    (D.Lauchli g n mu).data = D.data ∧
    ∀ p i j, i < n + 1 → j < n → D.data.OwnsEntry g p i j →
      (D.Lauchli g n mu).Get g p i j = lauchliEntry mu (i : Int) (j : Int) := by
  have hh : ((n : Int) + 1).toNat = n + 1 := by omega
  have hw : ((n : Int)).toNat = n := by omega
  refine ⟨hh, hw, rfl, ?_⟩
  intro p i j hi hj hown
  have ho := (DistData.OwnsEntry_iff hg D.data p i j).mp hown
  have hrow : D.data.LocalRow g p i < D.data.LocalHeight g (n + 1) p := by
    simp only [DistData.LocalHeight, ho.1, if_true]
    exact copy.LocalIndex_lt_Length _ _ _ _ (DistData.ColStride_pos hg _)
      (DistData.ColShift_lt hg _ p) hi ho.2.1
  have hcol : D.data.LocalCol g p j < D.data.LocalWidth g n p := by
    simp only [DistData.LocalWidth, ho.1, if_true]
    exact copy.LocalIndex_lt_Length _ _ _ _ (DistData.RowStride_pos hg _)
      (DistData.RowShift_lt hg _ p) hj ho.2.2
  have hgr : D.data.GlobalRow g p (D.data.LocalRow g p i) = i :=
    GlobalIndex_LocalIndex _ _ _ ho.2.1
  have hgc : D.data.GlobalCol g p (D.data.LocalCol g p j) = j :=
    GlobalIndex_LocalIndex _ _ _ ho.2.2
  simp only [DistMatrix.Get, DistMatrix.Lauchli, DistMatrix.FillDiagonal, DistMatrix.FillRows,
    DistMatrix.Zeros, DistMatrix.LocalHeight, DistMatrix.LocalWidth, hh, hw, hrow, hcol, hgr,
    hgc, true_and, Nat.zero_le]
  unfold lauchliEntry
  by_cases h0 : i = 0
  · subst h0
    have hd : ¬ ((j : Int) - ((0 : Nat) : Int) = -1) := by omega
    rw [if_neg hd]
    simp
  · by_cases hd : (j : Int) - (i : Int) = -1
    · rw [if_pos hd, if_neg (by omega), if_pos (by omega)]
    · rw [if_neg hd, if_neg (by omega), if_neg (by omega), if_neg (by omega)]

/-- C20: for every `n >= 0` and every `mu`, both overloads of `Lauchli(A, n, mu)` leave `A`
as the `(n+1) x n` matrix with `A(0,j) = 1` for every column `j`, `A(j+1,j) = mu` for every
column `j`, and 0 in every other position, whatever `A` was before (for the distributed
overload: on every process that owns the entry). -/
theorem Lauchli_entries {T : Type} [Zero T] [One T] (g : Grid) (hg : g.WellFormed)
    (A : Matrix T) (D : DistMatrix T) (n : Nat) (mu : T) :
    ((Lauchli A n mu).height = (n : Int) + 1 ∧ (Lauchli A n mu).width = n ∧
      ∀ i j : Int, 0 ≤ i → i < (n : Int) + 1 → 0 ≤ j → j < n →
        (Lauchli A n mu).Get i j = lauchliEntry mu i j) ∧
    ((D.Lauchli g n mu).height = n + 1 ∧ (D.Lauchli g n mu).width = n ∧
      (D.Lauchli g n mu).data = D.data ∧
      ∀ p i j, i < n + 1 → j < n → D.data.OwnsEntry g p i j →
        (D.Lauchli g n mu).Get g p i j = lauchliEntry mu (i : Int) (j : Int)) ∧
    ((∀ j : Int, lauchliEntry mu 0 j = 1) ∧
      (∀ j : Int, 0 ≤ j → lauchliEntry mu (j + 1) j = mu) ∧
      (∀ i j : Int, i ≠ 0 → i ≠ j + 1 → lauchliEntry mu i j = 0)) := by
  refine ⟨Lauchli_Get A n mu, DistLauchli_Get hg D n mu, ?_, ?_, ?_⟩
  · intro j
    simp [lauchliEntry]
  · intro j hj
    unfold lauchliEntry
    rw [if_neg (by omega), if_pos rfl]
  · intro i j h1 h2
    unfold lauchliEntry
    rw [if_neg h1, if_neg h2]

/-- Witness of C20: `Lauchli(A, 3, 5)` on a 5 x 5 matrix of nines and on the `[MC,MR]`
example of the 2 x 3 grid. -/
theorem Lauchli_entries_witness :
    ((Lauchli (⟨5, 5, 7, fun _ => 9⟩ : Matrix Int) (3 : Nat) 5).height = ((3 : Nat) : Int) + 1 ∧
      (Lauchli (⟨5, 5, 7, fun _ => 9⟩ : Matrix Int) (3 : Nat) 5).width = (3 : Nat) ∧
      ∀ i j : Int, 0 ≤ i → i < ((3 : Nat) : Int) + 1 → 0 ≤ j → j < (3 : Nat) →
        (Lauchli (⟨5, 5, 7, fun _ => 9⟩ : Matrix Int) (3 : Nat) 5).Get i j
          = lauchliEntry 5 i j) ∧
    ((exampleMCMR.Lauchli grid23 (3 : Nat) 5).height = 3 + 1 ∧
      (exampleMCMR.Lauchli grid23 (3 : Nat) 5).width = 3 ∧
      (exampleMCMR.Lauchli grid23 (3 : Nat) 5).data = exampleMCMR.data ∧
      ∀ p i j, i < 3 + 1 → j < 3 → exampleMCMR.data.OwnsEntry grid23 p i j →
        (exampleMCMR.Lauchli grid23 (3 : Nat) 5).Get grid23 p i j
          = lauchliEntry 5 (i : Int) (j : Int)) ∧
    ((∀ j : Int, lauchliEntry (5 : Int) 0 j = 1) ∧
      (∀ j : Int, 0 ≤ j → lauchliEntry (5 : Int) (j + 1) j = 5) ∧
      (∀ i j : Int, i ≠ 0 → i ≠ j + 1 → lauchliEntry (5 : Int) i j = 0)) :=
  Lauchli_entries grid23 grid23_wellFormed ⟨5, 5, 7, fun _ => 9⟩ exampleMCMR 3 5

/-! ### `AxpyTrapezoid`: entries of the dense result -/

/-- An operation on `Int` whose mathematical result is in range has that result. -/
theorem wrapInt_of_InRange (w : Nat) (hw : 0 < w) (x : Int) (h : InRange w x) :
    wrapInt w x = x := by
  unfold InRange at h
  unfold wrapInt
  have e : ((2 ^ w : Nat) : Int) = 2 * ((2 ^ (w - 1) : Nat) : Int) := by
    have e2 : w = (w - 1) + 1 := by omega
    conv_lhs => rw [e2, pow_succ]
    push_cast
    ring
  rw [e]
  generalize ((2 ^ (w - 1) : Nat) : Int) = H at h ⊢
  rw [Int.emod_eq_of_lt (by omega) (by omega)]
  omega

/-- Positions of a column-major buffer with leading dimension `L` that holds `m` columns,
and the column offsets, are in range when `m * L` is. -/
theorem position_InRange (w : Nat) (L m i j : Int) (hi0 : 0 ≤ i) (hi : i ≤ L) (hj0 : 0 ≤ j)
    (hj : j < m) (hmL : m * L < ((2 ^ (w - 1) : Nat) : Int)) :
    InRange w (j * L) ∧ InRange w (i + j * L) := by
  have hL : 0 ≤ L := by omega
  have h1 : 0 ≤ j * L := mul_nonneg hj0 hL
  have h2 : (j + 1) * L ≤ m * L := Int.mul_le_mul_of_nonneg_right (by omega) hL
  have h3 : (j + 1) * L = j * L + L := by ring
  have hH : (0 : Int) ≤ ((2 ^ (w - 1) : Nat) : Int) := Int.natCast_nonneg _
  unfold InRange
  refine ⟨⟨by omega, by omega⟩, by omega, by omega⟩

/-- After `blas::Axpy`, when every entry of `x` is read with the value `src` gives to the
position of `y` it is added to, whatever the call has already written in front of that
position: the `n` positions of `y` from `yOff` on have received `alpha` times these values,
and every other position of `y` is as before. -/
theorem AxpyFrom_apply {T : Type} [Add T] [Mul T] (alpha : T) (rd : (Int → T) → Int → T)
    (src : Int → T) (xOff yOff : Int) (y : Int → T) (n : Int)
    (hrd : ∀ (k : Nat) (y2 : Int → T), (k : Int) < n →
      (∀ q, ¬ (yOff ≤ q ∧ q < yOff + k) → y2 q = y q) → rd y2 (xOff + k) = src (yOff + k))
    (pos : Int) :
    blas.AxpyFrom n alpha rd xOff y yOff pos
      = if yOff ≤ pos ∧ pos < yOff + n then y pos + alpha * src pos else y pos := by
  have aux : ∀ k : Nat, (k : Int) ≤ max n 0 → ∀ q,
      (List.range k).foldl
          (fun y (k : Nat) =>
            Function.update y (yOff + k) (y (yOff + k) + alpha * rd y (xOff + k))) y q
        = if yOff ≤ q ∧ q < yOff + k then y q + alpha * src q else y q := by
    intro k
    induction k with
    | zero =>
      intro _ q
      have h : ¬ (yOff ≤ q ∧ q < yOff + ((0 : Nat) : Int)) := by omega
      rw [if_neg h]
      rfl
    | succ k ih =>
      intro hk q
      have ih2 := ih (by omega)
      rw [List.range_succ, List.foldl_append, List.foldl_cons, List.foldl_nil]
      have hread := hrd k
        ((List.range k).foldl
          (fun y (k : Nat) =>
            Function.update y (yOff + k) (y (yOff + k) + alpha * rd y (xOff + k))) y)
        (by omega) (fun q2 hq2 => by rw [ih2 q2, if_neg hq2])
      by_cases hp : q = yOff + k
      · subst hp
        rw [Function.update_same, hread, ih2]
        have h1 : yOff ≤ yOff + (k : Int) ∧ yOff + (k : Int) < yOff + ((k + 1 : Nat) : Int) := by
          omega
        have h2 : ¬ (yOff ≤ yOff + (k : Int) ∧ yOff + (k : Int) < yOff + (k : Int)) := by omega
        rw [if_pos h1, if_neg h2]
      · rw [Function.update_noteq hp, ih2]
        by_cases hw : yOff ≤ q ∧ q < yOff + (k : Int)
        · have hw2 : yOff ≤ q ∧ q < yOff + ((k + 1 : Nat) : Int) := by omega
          rw [if_pos hw, if_pos hw2]
        · have hw2 : ¬ (yOff ≤ q ∧ q < yOff + ((k + 1 : Nat) : Int)) := by omega
          rw [if_neg hw, if_neg hw2]
  unfold blas.AxpyFrom
  rw [aux n.toNat (by omega) pos]
  by_cases hw : yOff ≤ pos ∧ pos < yOff + n
  · have hw2 : yOff ≤ pos ∧ pos < yOff + (n.toNat : Int) := by omega
    rw [if_pos hw, if_pos hw2]
  · have hw2 : ¬ (yOff ≤ pos ∧ pos < yOff + (n.toNat : Int)) := by omega
    rw [if_neg hw, if_neg hw2]

/-- One `blas::Axpy` per column, on the rows `lo j ≤ i < hi j` of column `j`, for matrices
with leading dimensions `Lx` and `Ly`, where the rows stay inside `[0, Ly)` and the entry
`(i,j)` of `x` is read as `xv i j` as long as the entry `(i,j)` of `y` has not been written:
the entries in these rows have received `alpha` times the entry of `x`, and every other
position of `y` is as before. -/
theorem foldl_AxpyFrom_columns {T : Type} [Add T] [Mul T] (alpha : T)
    (rd : (Int → T) → Int → T) (xv : Int → Nat → T) (cnt xo yo lo hi : Nat → Int)
    (Lx Ly : Int) (K : Nat) (y : Int → T)
    (hyo : ∀ j, j < K → yo j = lo j + j * Ly) (hxo : ∀ j, j < K → xo j = lo j + j * Lx)
    (hcnt : ∀ j, j < K → cnt j = hi j - lo j) (hlo : ∀ j, j < K → 0 ≤ lo j)
    (hhi : ∀ j, j < K → hi j ≤ Ly)
    (hrd : ∀ (y2 : Int → T) (i : Int) (j : Nat), j < K → lo j ≤ i → i < hi j →
      y2 (i + j * Ly) = y (i + j * Ly) → rd y2 (i + j * Lx) = xv i j) :
    ∀ k, k ≤ K →
      (∀ (i : Int) (j : Nat), j < k → lo j ≤ i → i < hi j →
        (List.range k).foldl (fun Y j => blas.AxpyFrom (cnt j) alpha rd (xo j) Y (yo j)) y
            (i + j * Ly)
          = y (i + j * Ly) + alpha * xv i j) ∧
      (∀ pos : Int,
        (∀ (i : Int) (j : Nat), j < k → lo j ≤ i → i < hi j → pos ≠ i + j * Ly) →
        (List.range k).foldl (fun Y j => blas.AxpyFrom (cnt j) alpha rd (xo j) Y (yo j)) y pos
          = y pos) := by
  intro k
  induction k with
  | zero =>
    intro _
    refine ⟨?_, fun _ _ => rfl⟩
    intro i j hj
    omega
  | succ k ih =>
    intro hk
    have hkK : k < K := by omega
    obtain ⟨ih1, ih2⟩ := ih (by omega)
    rw [List.range_succ, List.foldl_append, List.foldl_cons, List.foldl_nil]
    generalize (List.range k).foldl
      (fun Y j => blas.AxpyFrom (cnt j) alpha rd (xo j) Y (yo j)) y = Yk at ih1 ih2 ⊢
    have a1 := hyo k hkK
    have a2 := hxo k hkK
    have a3 := hcnt k hkK
    have a4 := hlo k hkK
    have a5 := hhi k hkK
    -- a position of column `k` lies in no earlier window
    have fresh : ∀ i : Int, lo k ≤ i → i < hi k → Yk (i + k * Ly) = y (i + k * Ly) := by
      intro i h1 h2
      refine ih2 _ ?_
      intro i2 j2 hj2 h3 h4 heq
      have b4 := hlo j2 (by omega)
      have b5 := hhi j2 (by omega)
      have key := flat_index_inj Ly i k i2 j2 (by omega) (by omega) (by omega) (by omega) heq
      omega
    have step := AxpyFrom_apply alpha rd (fun pos => xv (pos - k * Ly) k) (xo k) (yo k) Yk
      (cnt k) (by
        intro kk y2 hkk hy2
        have e1 : xo k + (kk : Int) = (lo k + kk) + k * Lx := by omega
        have e2 : yo k + (kk : Int) - k * Ly = lo k + kk := by omega
        have e3 : y2 ((lo k + kk) + k * Ly) = y ((lo k + kk) + k * Ly) := by
          rw [hy2 _ (by omega)]
          exact fresh _ (by omega) (by omega)
        show rd y2 (xo k + kk) = xv (yo k + kk - k * Ly) k
        rw [e1, e2]
        exact hrd y2 _ k hkK (by omega) (by omega) e3)
    constructor
    · intro i j hj h1 h2
      rw [step]
      by_cases hjk : j = k
      · subst hjk
        rw [if_pos (by omega), fresh i h1 h2]
        have e : i + (j : Int) * Ly - j * Ly = i := by omega
        show y _ + alpha * xv (i + (j : Int) * Ly - j * Ly) j = _
        rw [e]
      · have b4 := hlo j (by omega)
        have b5 := hhi j (by omega)
        have hno : ¬ (yo k ≤ i + j * Ly ∧ i + j * Ly < yo k + cnt k) := by
          intro hw
          have key := flat_index_inj Ly i j (i + j * Ly - k * Ly) k (by omega) (by omega)
            (by omega) (by omega) (by omega)
          omega
        rw [if_neg hno]
        exact ih1 i j (by omega) h1 h2
    · intro pos hpos
      rw [step]
      have hno : ¬ (yo k ≤ pos ∧ pos < yo k + cnt k) := by
        intro hw
        exact hpos (pos - k * Ly) k (by omega) (by omega) (by omega) (by omega)
      rw [if_neg hno]
      exact ih2 pos (fun i j hj h1 h2 => hpos i j (by omega) h1 h2)

/-- On square matrices of the same order the conformity check of the dense overload passes
in every build. -/
theorem not_Nonconformal {T : Type} (X Y : Matrix T) (m : Int) (hXh : X.height = m)
    (hXw : X.width = m) (hYh : Y.height = m) (hYw : Y.width = m) : ¬ Nonconformal X Y := by
  unfold Nonconformal
  omega

/-- The test of the sparse overload, spelled out. -/
theorem inTrapezoid_iff (uplo : UpperOrLower) (i j offset : Int) :
    inTrapezoid uplo i j offset = true ↔
      (uplo = UpperOrLower.UPPER ∧ j - i ≥ offset) ∨
        (uplo = UpperOrLower.LOWER ∧ j - i ≤ offset) := by
  unfold inTrapezoid
  simp

/-- The buffer the dense overload leaves in `Y` when the conformity check passes, for the
upper and for the lower triangle. -/
theorem AxpyTrapezoid_buf {T : Type} [Add T] [Mul T] (w : Nat) (debug : Bool)
    (uplo : UpperOrLower) (alpha : T) (X Y : Matrix T) (st : Storage) (offset : Int)
    (hc : ¬ Nonconformal X Y) :
    AxpyTrapezoid w debug uplo alpha X Y st offset
      = { state :=
            { Y with
              buf :=
                match uplo with
                | UpperOrLower.UPPER =>
                  (List.range X.width.toNat).foldl
                    (fun YBuf (j : Nat) =>
                      blas.AxpyFrom
                        (max (min (wrapInt w (wrapInt w ((j : Int) + 1) - offset)) X.height) 0)
                        alpha (st.read X) (wrapInt w (j * X.ldim)) YBuf
                        (wrapInt w (j * Y.ldim))) Y.buf
                | UpperOrLower.LOWER =>
                  (List.range X.width.toNat).foldl
                    (fun YBuf (j : Nat) =>
                      blas.AxpyFrom
                        (wrapInt w
                          (X.height - max (min (wrapInt w ((j : Int) - offset)) X.height) 0))
                        alpha (st.read X)
                        (wrapInt w
                          (max (min (wrapInt w ((j : Int) - offset)) X.height) 0
                            + wrapInt w (j * X.ldim))) YBuf
                        (wrapInt w
                          (max (min (wrapInt w ((j : Int) - offset)) X.height) 0
                            + wrapInt w (j * Y.ldim)))) Y.buf },
          error := none } := by
  unfold AxpyTrapezoid
  rw [if_neg (fun h => hc h.2)]

/-- With storage of its own, or as the matrix `Y` itself, the entry `(i,j)` of `X` is read
with the value it had before the call as long as the entry `(i,j)` of `Y` is unwritten. -/
theorem Storage.read_entry {T : Type} (st : Storage) (X Y : Matrix T)
    (hst : st = Storage.separate ∨ (st = Storage.shared 0 ∧ X = Y)) (y2 : Int → T)
    (i j : Int) (h : y2 (i + j * Y.ldim) = Y.buf (i + j * Y.ldim)) :
    st.read X y2 (i + j * X.ldim) = X.Get i j := by
  rcases hst with hs | ⟨hs, hXY⟩
  · subst hs
    rfl
  · subst hs
    subst hXY
    show y2 (0 + (i + j * X.ldim)) = X.buf (i + j * X.ldim)
    rw [zero_add, h]

/-- The order of a square matrix with representable positions is in range, with every
column index plus one and every number of rows left below a row. -/
theorem order_InRange (w : Nat) (L m i j : Int) (hi0 : 0 ≤ i) (hi : i ≤ m) (hj0 : 0 ≤ j)
    (hj : j < m) (hL : m ≤ L) (hmL : m * L < ((2 ^ (w - 1) : Nat) : Int)) :
    InRange w (j + 1) ∧ InRange w (m - i) := by
  have h1 : m * 1 ≤ m * L := Int.mul_le_mul_of_nonneg_left (by omega) (by omega)
  rw [mul_one] at h1
  unfold InRange
  refine ⟨⟨by omega, by omega⟩, by omega, by omega⟩

/-- The dense overload updates, in column `j`, the rows from `rowLo` up to, and not
including, `rowHi`, and nothing else. -/
theorem AxpyTrapezoid_columns {T : Type} [Add T] [Mul T] (w : Nat) (debug : Bool)
    (uplo : UpperOrLower) (alpha : T) (X Y : Matrix T) (st : Storage) (offset : Int)
    (hw : 0 < w) (hm : 0 ≤ X.height)
    (hXw : X.width = X.height) (hYh : Y.height = X.height) (hYw : Y.width = X.height)
    (hXl : X.height ≤ X.ldim) (hYl : X.height ≤ Y.ldim)
    (hXr : X.height * X.ldim < ((2 ^ (w - 1) : Nat) : Int))
    (hYr : X.height * Y.ldim < ((2 ^ (w - 1) : Nat) : Int))
    (hoff : ∀ j : Int, 0 ≤ j → j < X.height → InRange w (trapezoidEdge uplo j offset))
    (hst : st = Storage.separate ∨ (st = Storage.shared 0 ∧ X = Y)) :
    (∀ (i : Int) (j : Nat), j < X.width.toNat → rowLo uplo X.height offset j ≤ i →
        i < rowHi uplo X.height offset j →
      (AxpyTrapezoid w debug uplo alpha X Y st offset).state.buf (i + j * Y.ldim)
        = Y.buf (i + j * Y.ldim) + alpha * X.Get i j) ∧
    (∀ pos : Int,
      (∀ (i : Int) (j : Nat), j < X.width.toNat → rowLo uplo X.height offset j ≤ i →
        i < rowHi uplo X.height offset j → pos ≠ i + j * Y.ldim) →
      (AxpyTrapezoid w debug uplo alpha X Y st offset).state.buf pos = Y.buf pos) := by
  rw [AxpyTrapezoid_buf w debug uplo alpha X Y st offset
    (not_Nonconformal X Y X.height rfl hXw hYh hYw)]
  have hK : ∀ j : Nat, j < X.width.toNat → (0 : Int) ≤ j ∧ (j : Int) < X.height := by
    intro j hj
    omega
  have hwr := wrapInt_of_InRange w hw
  cases uplo with
  | UPPER =>
    exact foldl_AxpyFrom_columns alpha (st.read X) (fun i (j : Nat) => X.Get i j)
      (fun j : Nat =>
        max (min (wrapInt w (wrapInt w ((j : Int) + 1) - offset)) X.height) 0)
      (fun j : Nat => wrapInt w ((j : Int) * X.ldim))
      (fun j : Nat => wrapInt w ((j : Int) * Y.ldim))
      (fun _ => 0) (fun j : Nat => max (min ((j : Int) + 1 - offset) X.height) 0)
      X.ldim Y.ldim X.width.toNat Y.buf
      (fun j hj => by
        have b := hK j hj
        show wrapInt w _ = 0 + _
        rw [hwr _ (position_InRange w Y.ldim X.height 0 j (le_refl 0) (by omega) b.1 b.2
          hYr).1, zero_add])
      (fun j hj => by
        have b := hK j hj
        show wrapInt w _ = 0 + _
        rw [hwr _ (position_InRange w X.ldim X.height 0 j (le_refl 0) (by omega) b.1 b.2
          hXr).1, zero_add])
      (fun j hj => by
        have b := hK j hj
        have ho : InRange w ((j : Int) + 1 - offset) := hoff j b.1 b.2
        show max (min (wrapInt w (wrapInt w ((j : Int) + 1) - offset)) X.height) 0
          = max (min ((j : Int) + 1 - offset) X.height) 0 - 0
        rw [hwr _ (order_InRange w Y.ldim X.height 0 j (le_refl 0) hm b.1 b.2 hYl hYr).1,
          hwr _ ho, sub_zero])
      (fun _ _ => le_refl 0) (fun j _ => by show max _ _ ≤ _; omega)
      (fun y2 i j _ _ _ h => Storage.read_entry st X Y hst y2 i j h)
      X.width.toNat (le_refl _)
  | LOWER =>
    exact foldl_AxpyFrom_columns alpha (st.read X) (fun i (j : Nat) => X.Get i j)
      (fun j : Nat =>
        wrapInt w (X.height - max (min (wrapInt w ((j : Int) - offset)) X.height) 0))
      (fun j : Nat =>
        wrapInt w (max (min (wrapInt w ((j : Int) - offset)) X.height) 0
          + wrapInt w ((j : Int) * X.ldim)))
      (fun j : Nat =>
        wrapInt w (max (min (wrapInt w ((j : Int) - offset)) X.height) 0
          + wrapInt w ((j : Int) * Y.ldim)))
      (fun j : Nat => max (min ((j : Int) - offset) X.height) 0) (fun _ => X.height)
      X.ldim Y.ldim X.width.toNat Y.buf
      (fun j hj => by
        have b := hK j hj
        have c := position_InRange w Y.ldim X.height
          (max (min ((j : Int) - offset) X.height) 0) j (by omega) (by omega) b.1 b.2 hYr
        have ho : InRange w ((j : Int) - offset) := hoff j b.1 b.2
        show wrapInt w (max (min (wrapInt w ((j : Int) - offset)) X.height) 0
          + wrapInt w ((j : Int) * Y.ldim)) = _
        rw [hwr _ ho, hwr _ c.1, hwr _ c.2])
      (fun j hj => by
        have b := hK j hj
        have c := position_InRange w X.ldim X.height
          (max (min ((j : Int) - offset) X.height) 0) j (by omega) (by omega) b.1 b.2 hXr
        have ho : InRange w ((j : Int) - offset) := hoff j b.1 b.2
        show wrapInt w (max (min (wrapInt w ((j : Int) - offset)) X.height) 0
          + wrapInt w ((j : Int) * X.ldim)) = _
        rw [hwr _ ho, hwr _ c.1, hwr _ c.2])
      (fun j hj => by
        have b := hK j hj
        have ho : InRange w ((j : Int) - offset) := hoff j b.1 b.2
        show wrapInt w (X.height - max (min (wrapInt w ((j : Int) - offset)) X.height) 0)
          = _
        rw [hwr _ ho,
          hwr _ (order_InRange w Y.ldim X.height
            (max (min ((j : Int) - offset) X.height) 0) j (by omega) (by omega) b.1 b.2
            hYl hYr).2])
      (fun j _ => by show 0 ≤ max _ _; omega) (fun _ _ => hYl)
      (fun y2 i j _ _ _ h => Storage.read_entry st X Y hst y2 i j h)
      X.width.toNat (le_refl _)

/-- Inside the matrix, the test of the sparse overload holds exactly on the rows from
`rowLo` up to `rowHi`. -/
theorem inTrapezoid_rows (uplo : UpperOrLower) (m offset i : Int) (j : Nat) (hi0 : 0 ≤ i)
    (hi : i < m) :
    inTrapezoid uplo i j offset = true ↔
      rowLo uplo m offset j ≤ i ∧ i < rowHi uplo m offset j := by
  rw [inTrapezoid_iff]
  cases uplo with
  | UPPER =>
    show _ ↔ (0 : Int) ≤ i ∧ i < max (min ((j : Int) + 1 - offset) m) 0
    constructor
    · rintro (⟨_, h⟩ | ⟨h, _⟩)
      · omega
      · exact absurd h (by decide)
    · intro h
      exact Or.inl ⟨rfl, by omega⟩
  | LOWER =>
    show _ ↔ max (min ((j : Int) - offset) m) 0 ≤ i ∧ i < m
    constructor
    · rintro (⟨h, _⟩ | ⟨_, h⟩)
      · exact absurd h (by decide)
      · omega
    · intro h
      exact Or.inr ⟨rfl, by omega⟩

/-- C22, amended: for dense square matrices `X` and `Y` of the same order `m` (leading
dimensions at least `m`, buffer positions representable in the `w` bits of `Int`), where `X`
has storage of its own or is the matrix `Y` itself, and for every offset such that the
differences `j+1-offset` (upper triangle) or `j-offset` (lower triangle) of the columns
`0 ≤ j < m` are representable, the dense `AxpyTrapezoid` returns without error in every
build, keeps the shape and leading dimension of `Y`, and leaves
`Y(i,j) = Y_before(i,j) + alpha*X_before(i,j)` for exactly the entries that pass the test of
the sparse overload (`j - i ≥ offset` for `UPPER`, `j - i ≤ offset` for `LOWER`); every other
position of the buffer of `Y` is unchanged; `X` is unchanged when it has storage of its own,
and is `Y` after the call when it is the matrix `Y`. -/
theorem AxpyTrapezoid_entries {T : Type} [Add T] [Mul T] (w : Nat) (debug : Bool)
    (uplo : UpperOrLower) (alpha : T) (X Y : Matrix T) (st : Storage) (offset m : Int)
    (hw : 0 < w) (hm : 0 ≤ m)
    (hXh : X.height = m) (hXw : X.width = m) (hYh : Y.height = m) (hYw : Y.width = m)
    (hXl : m ≤ X.ldim) (hYl : m ≤ Y.ldim)
    (hXr : m * X.ldim < ((2 ^ (w - 1) : Nat) : Int))
    (hYr : m * Y.ldim < ((2 ^ (w - 1) : Nat) : Int))
    (hoff : ∀ j : Int, 0 ≤ j → j < m → InRange w (trapezoidEdge uplo j offset))
    (hst : st = Storage.separate ∨ (st = Storage.shared 0 ∧ X = Y)) :
    (AxpyTrapezoid w debug uplo alpha X Y st offset).error = none ∧
    (AxpyTrapezoid w debug uplo alpha X Y st offset).state.height = m ∧
    (AxpyTrapezoid w debug uplo alpha X Y st offset).state.width = m ∧
    (AxpyTrapezoid w debug uplo alpha X Y st offset).state.ldim = Y.ldim ∧
    (∀ i j : Int, 0 ≤ i → i < m → 0 ≤ j → j < m →
      (inTrapezoid uplo i j offset = true ↔
        (uplo = UpperOrLower.UPPER ∧ j - i ≥ offset) ∨
          (uplo = UpperOrLower.LOWER ∧ j - i ≤ offset)) ∧
      (AxpyTrapezoid w debug uplo alpha X Y st offset).state.Get i j
        = if inTrapezoid uplo i j offset = true then Y.Get i j + alpha * X.Get i j
          else Y.Get i j) ∧
    (∀ pos : Int,
      (∀ i j : Int, 0 ≤ i → i < m → 0 ≤ j → j < m → inTrapezoid uplo i j offset = true →
        pos ≠ i + j * Y.ldim) →
      (AxpyTrapezoid w debug uplo alpha X Y st offset).state.buf pos = Y.buf pos) ∧
    (st = Storage.separate →
      st.after X (AxpyTrapezoid w debug uplo alpha X Y st offset).state = X) ∧
    (st = Storage.shared 0 →
      st.after X (AxpyTrapezoid w debug uplo alpha X Y st offset).state
        = (AxpyTrapezoid w debug uplo alpha X Y st offset).state) := by
  subst hXh
  have hb := AxpyTrapezoid_buf w debug uplo alpha X Y st offset
    (not_Nonconformal X Y X.height rfl hXw hYh hYw)
  obtain ⟨c1, c2⟩ := AxpyTrapezoid_columns w debug uplo alpha X Y st offset hw hm hXw hYh hYw
    hXl hYl hXr hYr hoff hst
  have hld : (AxpyTrapezoid w debug uplo alpha X Y st offset).state.ldim = Y.ldim := by
    rw [hb]
  refine ⟨by rw [hb], by rw [hb]; exact hYh, by rw [hb]; exact hYw, hld, ?_, ?_, ?_, ?_⟩
  · intro i j hi0 hi hj0 hj
    refine ⟨inTrapezoid_iff uplo i j offset, ?_⟩
    have hjn : ((j.toNat : Nat) : Int) = j := Int.toNat_of_nonneg hj0
    have hjk : j.toNat < X.width.toNat := by omega
    have hrows := inTrapezoid_rows uplo X.height offset i j.toNat hi0 hi
    rw [hjn] at hrows
    show (AxpyTrapezoid w debug uplo alpha X Y st offset).state.buf
      (i + j * (AxpyTrapezoid w debug uplo alpha X Y st offset).state.ldim) = _
    rw [hld]
    by_cases ht : inTrapezoid uplo i j offset = true
    · rw [if_pos ht]
      have h := c1 i j.toNat hjk (hrows.mp ht).1 (hrows.mp ht).2
      rw [hjn] at h
      exact h
    · rw [if_neg ht]
      refine c2 (i + j * Y.ldim) ?_
      intro i2 j2 hj2 hlo hhi heq
      have hr2 : 0 ≤ rowLo uplo X.height offset j2 ∧ rowHi uplo X.height offset j2 ≤ X.height := by
        cases uplo with
        | UPPER => exact ⟨le_refl 0, by show max _ _ ≤ _; omega⟩
        | LOWER => exact ⟨by show 0 ≤ max _ _; omega, le_refl _⟩
      have key := flat_index_inj Y.ldim i j i2 j2 hi0 (by omega) (by omega) (by omega) heq
      apply ht
      rw [key.1, key.2]
      exact (inTrapezoid_rows uplo X.height offset i2 j2 (by omega) (by omega)).mpr ⟨hlo, hhi⟩
  · intro pos hpos
    refine c2 pos ?_
    intro i2 j2 hj2 hlo hhi
    have hr2 : 0 ≤ rowLo uplo X.height offset j2 ∧ rowHi uplo X.height offset j2 ≤ X.height := by
      cases uplo with
      | UPPER => exact ⟨le_refl 0, by show max _ _ ≤ _; omega⟩
      | LOWER => exact ⟨by show 0 ≤ max _ _; omega, le_refl _⟩
    exact hpos i2 j2 (by omega) (by omega) (by omega) (by omega)
      ((inTrapezoid_rows uplo X.height offset i2 j2 (by omega) (by omega)).mpr ⟨hlo, hhi⟩)
  · intro hs
    subst hs
    rfl
  · intro hs
    rcases hst with h1 | ⟨_, hXY⟩
    · rw [hs] at h1
      exact absurd h1 (by decide)
    · subst hs
      subst hXY
      rw [hb]
      show ({ X with buf := fun pos => _ } : Matrix T) = _
      congr 1
      funext pos
      rw [zero_add]

/-- C22, as stated, fails.  With an `Int` of 32 bits and the offset `-2^31`, on `X` all ones
and `Y` all zeros of order 2: the entry `(0,0)` passes the test of the upper triangle, yet
the call leaves it at 0 instead of `0 + 1*1`; and it fails the test of the lower triangle,
yet the call leaves 1 there.  With leading dimension `2^31 - 1` and offset 0 the entry `(1,1)`
passes the test of the lower triangle, yet the call leaves it at 0: its position `2^31` is
not representable.  And when `X` is the matrix `Y` itself (all ones, offset 0), `X(0,0)` is 2
after the call. -/
theorem AxpyTrapezoid_entries_fail :
    InRange 32 (-2147483648) ∧
    inTrapezoid UpperOrLower.UPPER 0 0 (-2147483648) = true ∧
    (AxpyTrapezoid 32 true UpperOrLower.UPPER 1 (exampleSquare 1) (exampleSquare 0)
      Storage.separate (-2147483648)).state.Get 0 0 = 0 ∧
    (exampleSquare 0).Get 0 0 + 1 * (exampleSquare 1).Get 0 0 = 1 ∧
    inTrapezoid UpperOrLower.LOWER 0 0 (-2147483648) = false ∧
    (AxpyTrapezoid 32 true UpperOrLower.LOWER 1 (exampleSquare 1) (exampleSquare 0)
      Storage.separate (-2147483648)).state.Get 0 0 = 1 ∧
    (exampleSquare 0).Get 0 0 = 0 ∧
    inTrapezoid UpperOrLower.LOWER 1 1 0 = true ∧
    (AxpyTrapezoid 32 true UpperOrLower.LOWER 1 (exampleStrided 1) (exampleStrided 0)
      Storage.separate 0).state.Get 1 1 = 0 ∧
    (exampleStrided 0).Get 1 1 + 1 * (exampleStrided 1).Get 1 1 = 1 ∧
    ((Storage.shared 0).after (exampleSquare 1)
      (AxpyTrapezoid 32 true UpperOrLower.UPPER 1 (exampleSquare 1) (exampleSquare 1)
        (Storage.shared 0) 0).state).Get 0 0 = 2 ∧
    (exampleSquare 1).Get 0 0 = 1 := by
  decide

/-- The theorem `AxpyTrapezoid_entries` for an `Int` of 32 bits at `alpha = 3`, `X` all ones
and `Y` all zeros of order 2 with storage of their own, and offset 1 in the upper triangle:
entry `(0,1)` becomes 3 and entry `(1,0)` stays 0. -/
theorem AxpyTrapezoid_entries_witness :
    (2 : Int) * (exampleSquare 1).ldim < ((2 ^ (32 - 1) : Nat) : Int) ∧
    (2 : Int) ≤ (exampleSquare 1).ldim ∧ (2 : Int) ≤ (exampleSquare 0).ldim ∧
    InRange 32 (trapezoidEdge UpperOrLower.UPPER 0 1) ∧
    InRange 32 (trapezoidEdge UpperOrLower.UPPER 1 1) ∧
    (AxpyTrapezoid 32 false UpperOrLower.UPPER 3 (exampleSquare 1) (exampleSquare 0)
      Storage.separate 1).state.Get 0 1 = 3 ∧
    (AxpyTrapezoid 32 false UpperOrLower.UPPER 3 (exampleSquare 1) (exampleSquare 0)
      Storage.separate 1).state.Get 1 0 = 0 := by
  have h := (AxpyTrapezoid_entries 32 false UpperOrLower.UPPER 3 (exampleSquare 1)
    (exampleSquare 0) Storage.separate 1 2 (by decide) (by decide) rfl rfl rfl rfl (by decide)
    (by decide) (by decide) (by decide)
    (fun j h0 h1 => by
      have hj : j = 0 ∨ j = 1 := by omega
      rcases hj with hj | hj <;> subst hj <;> decide)
    (Or.inl rfl)).2.2.2.2.1
  refine ⟨by decide, by decide, by decide, by decide, by decide, ?_, ?_⟩
  · rw [(h 0 1 (by decide) (by decide) (by decide) (by decide)).2]
    decide
  · rw [(h 1 0 (by decide) (by decide) (by decide) (by decide)).2]
    decide

/-! ### `AxpyTrapezoid` on distributed matrices -/

/-- The value of `LocalRowOffset(i)` is never negative, and it stays within the local height
of a dimension of extent `m` as long as `i ≤ m`; nothing bounds it for `i > m`. -/
theorem LocalRowOffset_bounds (s sh i m : Int) (hs : 1 ≤ s) (him : i ≤ m) :
    0 ≤ LocalRowOffset s sh i ∧ LocalRowOffset s sh i ≤ LocalCount m s sh := by
  unfold LocalRowOffset LocalCount
  have hs0 : (0 : Int) < s := by omega
  by_cases h1 : i - sh % s ≤ 0
  · rw [if_pos h1]
    refine ⟨le_refl 0, ?_⟩
    by_cases h2 : m - sh % s ≤ 0
    · rw [if_pos h2]
    · rw [if_neg h2]
      exact Int.ediv_nonneg (by omega) (by omega)
  · have h2 : ¬ m - sh % s ≤ 0 := by omega
    rw [if_neg h1, if_neg h2]
    exact ⟨Int.ediv_nonneg (by omega) (by omega), Int.ediv_le_ediv hs0 (by omega)⟩

/-- The example matrices satisfy the invariant of a distributed matrix on the 2 x 3 grid. -/
theorem exampleSTARSTAR_wellFormed (v : Int) : (exampleSTARSTAR v).WellFormed grid23 := by
  intro p
  have hl : ∀ q : Nat, q < 6 →
      ((DistData.LocalHeight grid23 ⟨Dist.STAR, Dist.STAR, 0, 0, 0⟩ 2 q : Nat) : Int) = 2 ∧
      ((DistData.LocalWidth grid23 ⟨Dist.STAR, Dist.STAR, 0, 0, 0⟩ 2 q : Nat) : Int) = 2 := by
    intro q hq
    interval_cases q <;> decide
  by_cases hp : p < 6
  · have h : (exampleSTARSTAR v).matrix p = exampleSquare v := if_pos hp
    rw [h]
    exact ⟨(hl p hp).1.symm, (hl p hp).2.symm, by show max (2 : Int) 1 ≤ 2; decide⟩
  · have h : (exampleSTARSTAR v).matrix p = exampleEmpty v := if_neg hp
    have hg : grid23.InGrid p = false := by
      unfold Grid.InGrid Grid.Size
      exact decide_eq_false hp
    have hpart : DistData.Participating grid23 (exampleSTARSTAR v).data p = false := by
      unfold DistData.Participating
      rw [hg]
      rfl
    rw [h]
    unfold DistData.LocalHeight DistData.LocalWidth
    rw [hpart]
    exact ⟨rfl, rfl, by show max (0 : Int) 1 ≤ 1; decide⟩

/-- C23, evaluated where it fails: `X` (all ones) and `Y` (all zeros) are 2 x 2, both
`[STAR,STAR]` on the 2 x 3 grid with local leading dimension 2, `alpha = 1`, offset `-2`.
On process 0 the local height is 2, yet for the upper triangle the row count passed to
`blas::Axpy` for the local column 0 is 3, and for the lower triangle the first row for the
local column 1 is 3 (the row count `2 - 3` is negative).  The upper call leaves 2 in the
entry `(0,1)` of `Y`, where the dense overload on the same local matrices (an `Int` of 32
bits, storage of their own) leaves 1, and it writes position 4 of the buffer of `Y`, behind
its `2 * 2` entries. -/
theorem AxpyTrapezoid_dist_overrun :
    (exampleSTARSTAR 1).WellFormed grid23 ∧ (exampleSTARSTAR 0).WellFormed grid23 ∧
    (exampleSTARSTAR 1).data = (exampleSTARSTAR 0).data ∧
    (exampleSTARSTAR 1).LocalHeight 0 = 2 ∧
    localHeightAbove UpperOrLower.UPPER ((exampleSTARSTAR 1).data.ColStride grid23)
      ((exampleSTARSTAR 1).data.ColShift grid23 0)
      ((exampleSTARSTAR 1).data.GlobalCol grid23 0 0) (-2) = 3 ∧
    localHeightAbove UpperOrLower.LOWER ((exampleSTARSTAR 1).data.ColStride grid23)
      ((exampleSTARSTAR 1).data.ColShift grid23 0)
      ((exampleSTARSTAR 1).data.GlobalCol grid23 0 1) (-2) = 3 ∧
    ((ElementalMatrix.AxpyTrapezoid true (fun X _ => X.matrix) UpperOrLower.UPPER 1 grid23
      (exampleSTARSTAR 1) (exampleSTARSTAR 0) (-2)).state.matrix 0).Get 0 1 = 2 ∧
    (AxpyTrapezoid 32 true UpperOrLower.UPPER 1 ((exampleSTARSTAR 1).matrix 0)
      ((exampleSTARSTAR 0).matrix 0) Storage.separate (-2)).state.Get 0 1 = 1 ∧
    ((exampleSTARSTAR 0).matrix 0).buf 4 = 0 ∧
    ((ElementalMatrix.AxpyTrapezoid true (fun X _ => X.matrix) UpperOrLower.UPPER 1 grid23
      (exampleSTARSTAR 1) (exampleSTARSTAR 0) (-2)).state.matrix 0).buf 4 = 1 :=
  ⟨exampleSTARSTAR_wellFormed 1, exampleSTARSTAR_wellFormed 0, by decide, by decide, by decide,
    by decide, by decide, by decide, by decide, by decide⟩

/-! ### Gaussian random matrices -/

/-- On the 2 x 3 grid the redundant rank of the model agrees, for `[STAR,MD]`, with the one
`STAR_MD.cpp` returns, and for `[MC,STAR]` and `[STAR,MR]` it is the column and the row of
the process in the grid. -/
theorem RedundantRank_grid23 :
    ∀ p, p < 6 →
      DistData.RedundantRank grid23 ⟨Dist.STAR, Dist.MD, 0, 0, 0⟩ (-1) p
        = BDM.RedundantRank (-1) grid23 p ∧
      DistData.RedundantComm grid23 ⟨Dist.STAR, Dist.MD, 0, 0, 0⟩ p = [p] ∧
      DistData.RedundantRank grid23 ⟨Dist.MC, Dist.STAR, 0, 0, 0⟩ (-1) p = grid23.Col p ∧
      DistData.RedundantRank grid23 ⟨Dist.STAR, Dist.MR, 0, 0, 0⟩ (-1) p = grid23.Row p := by
  decide

/-- Holding the same data is symmetric and transitive: a process that holds the data of `p`
has the partners of `p`. -/
theorem Redundant_congr (g : Grid) (d : DistData) (p r : Nat)
    (h : d.Redundant g p r = true) : ∀ x, d.Redundant g r x = d.Redundant g p x := by
  intro x
  unfold DistData.Redundant at h ⊢
  have h2 := of_decide_eq_true h
  rw [h2.1, h2.2.1, h2.2.2]

/-- Members of the redundant communicator of `p` are processes of the grid that hold the
same data as `p`. -/
theorem mem_RedundantComm (g : Grid) (d : DistData) (p q : Nat) :
    q ∈ d.RedundantComm g p ↔ p < g.Size ∧ q < g.Size ∧ d.Redundant g p q = true := by
  unfold DistData.RedundantComm Grid.InGrid
  by_cases hp : p < g.Size
  · rw [if_pos (decide_eq_true hp), List.mem_filter, List.mem_range]
    exact ⟨fun h => ⟨hp, h.1, h.2⟩, fun h => ⟨h.2.1, h.2.2⟩⟩
  · rw [if_neg (by simpa using hp)]
    simp [hp]

/-- A process of the grid belongs to its redundant communicator. -/
theorem self_mem_RedundantComm (g : Grid) (d : DistData) (p : Nat) (hp : p < g.Size) :
    p ∈ d.RedundantComm g p := by
  rw [mem_RedundantComm]
  refine ⟨hp, hp, ?_⟩
  unfold DistData.Redundant
  exact decide_eq_true ⟨rfl, rfl, rfl⟩

/-- All members of a redundant communicator have this communicator. -/
theorem RedundantComm_of_mem (g : Grid) (d : DistData) (p q : Nat)
    (hq : q ∈ d.RedundantComm g p) : d.RedundantComm g q = d.RedundantComm g p := by
  obtain ⟨hp, hq2, hr⟩ := (mem_RedundantComm g d p q).mp hq
  unfold DistData.RedundantComm Grid.InGrid
  rw [if_pos (decide_eq_true hp), if_pos (decide_eq_true hq2)]
  congr 1
  funext x
  exact Redundant_congr g d p q hr x

/-- The redundant rank of a member of a communicator `r :: rest` is zero exactly for `r`. -/
theorem RedundantRank_eq_zero_iff (g : Grid) (d : DistData) (undef : Int) (p q r : Nat)
    (rest : List Nat) (hc : d.RedundantComm g p = r :: rest) (hq : q ∈ d.RedundantComm g p) :
    d.RedundantRank g undef q = 0 ↔ q = r := by
  obtain ⟨_, hq2, _⟩ := (mem_RedundantComm g d p q).mp hq
  unfold DistData.RedundantRank Grid.InGrid
  rw [if_pos (decide_eq_true hq2), RedundantComm_of_mem g d p q hq, hc]
  constructor
  · intro h
    by_contra hne
    rw [List.indexOf_cons_ne _ (fun e => hne e.symm)] at h
    simp at h
    omega
  · intro h
    rw [h, List.indexOf_cons_self]
    rfl

/-- Processes that hold the same data have the same local shape. -/
theorem LocalShape_of_Redundant (g : Grid) (d : DistData) (m n p q : Nat) (hp : p < g.Size)
    (hq : q < g.Size) (h : d.Redundant g p q = true) :
    d.LocalHeight g m q = d.LocalHeight g m p ∧ d.LocalWidth g n q = d.LocalWidth g n p := by
  have h2 := of_decide_eq_true h
  unfold DistData.LocalHeight DistData.LocalWidth DistData.Participating DistData.ColShift
    DistData.RowShift Grid.InGrid
  rw [h2.1, h2.2.1, h2.2.2, decide_eq_true hp, decide_eq_true hq]
  exact ⟨rfl, rfl⟩

/-- The routine `EntrywiseFill` keeps the shape and the leading dimension of the matrix. -/
theorem EntrywiseFill_shape {σ T : Type} (A : Matrix T) (func : σ → T × σ) (s : σ) :
    (EntrywiseFill A func s).1.height = A.height ∧ (EntrywiseFill A func s).1.width = A.width ∧
      (EntrywiseFill A func s).1.ldim = A.ldim := by
  unfold EntrywiseFill
  generalize windowEntries A.height A.width = xs
  have aux : ∀ (xs : List (Int × Int)) (st : Matrix T × σ),
      (xs.foldl (fun (st : Matrix T × σ) e =>
          (st.1.Set e.1 e.2 (func st.2).1, (func st.2).2)) st).1.height = st.1.height ∧
      (xs.foldl (fun (st : Matrix T × σ) e =>
          (st.1.Set e.1 e.2 (func st.2).1, (func st.2).2)) st).1.width = st.1.width ∧
      (xs.foldl (fun (st : Matrix T × σ) e =>
          (st.1.Set e.1 e.2 (func st.2).1, (func st.2).2)) st).1.ldim = st.1.ldim := by
    intro xs
    induction xs with
    | nil =>
      intro st
      exact ⟨rfl, rfl, rfl⟩
    | cons a xs ih =>
      intro st
      rw [List.foldl_cons]
      exact ih _
  exact aux xs (A, s)

/-- Writing the entries of a window from a source matrix: the shape and the leading
dimension stay, and every entry of the window holds the value of the source. -/
theorem foldl_Set_window {T : Type} (val : Int → Int → T) (L h : Int) (hL : h ≤ L) :
    ∀ (xs : List (Int × Int)) (B : Matrix T), B.ldim = L →
      (∀ e ∈ xs, 0 ≤ e.1 ∧ e.1 < h) →
      (xs.foldl (fun C e => C.Set e.1 e.2 (val e.1 e.2)) B).height = B.height ∧
      (xs.foldl (fun C e => C.Set e.1 e.2 (val e.1 e.2)) B).width = B.width ∧
      (xs.foldl (fun C e => C.Set e.1 e.2 (val e.1 e.2)) B).ldim = B.ldim ∧
      ∀ e ∈ xs, (xs.foldl (fun C e => C.Set e.1 e.2 (val e.1 e.2)) B).Get e.1 e.2
        = val e.1 e.2 := by
  intro xs
  induction xs using List.reverseRecOn with
  | nil =>
    intro B _ _
    exact ⟨rfl, rfl, rfl, fun e he => absurd he (List.not_mem_nil e)⟩
  | append_singleton xs a ih =>
    intro B hB hxs
    rw [List.foldl_append, List.foldl_cons, List.foldl_nil]
    obtain ⟨h1, h2, h3, h4⟩ := ih B hB (fun e he => hxs e (List.mem_append_left _ he))
    generalize xs.foldl (fun C e => C.Set e.1 e.2 (val e.1 e.2)) B = R at h1 h2 h3 h4 ⊢
    refine ⟨h1, h2, h3, ?_⟩
    intro e he
    show Function.update R.buf (a.1 + a.2 * R.ldim) (val a.1 a.2) (e.1 + e.2 * R.ldim) = _
    rw [h3, hB]
    by_cases hea : e.1 + e.2 * L = a.1 + a.2 * L
    · have ha := hxs a (List.mem_append_right _ (List.mem_singleton_self a))
      have he2 := hxs e he
      have key := flat_index_inj L e.1 e.2 a.1 a.2 he2.1 (by omega) ha.1 (by omega) hea
      rw [hea, Function.update_same, key.1, key.2]
    · rw [Function.update_noteq hea]
      rcases List.mem_append.mp he with he1 | he1
      · have := h4 e he1
        unfold Matrix.Get at this
        rw [h3, hB] at this
        exact this
      · rw [List.mem_singleton] at he1
        rw [he1] at hea
        exact absurd rfl hea

/-- The local matrix that `MakeGaussian` leaves on a member `q` of a redundant communicator
whose first member is `r`: the samples drawn by `r`, on `r` itself, and on every other
member its own local matrix with the entries of its window received from `r`. -/
theorem MakeGaussian_matrix {σ F B : Type} (undef : Int) (SampleNormal : F → B → σ → F × σ)
    (g : Grid) (A : ElementalMatrix F) (mean : F) (stddev : B) (gen : Nat → σ)
    (p q r : Nat) (rest : List Nat) (hc : A.data.RedundantComm g p = r :: rest)
    (hq : q ∈ A.data.RedundantComm g p) :
    ((ElementalMatrix.MakeGaussian undef SampleNormal g A mean stddev gen).1.matrix r
      = (MakeGaussian SampleNormal (A.matrix r) mean stddev (gen r)).1) ∧
    ((ElementalMatrix.MakeGaussian undef SampleNormal g A mean stddev gen).2 r
      = (MakeGaussian SampleNormal (A.matrix r) mean stddev (gen r)).2) ∧
    (q ≠ r →
      (ElementalMatrix.MakeGaussian undef SampleNormal g A mean stddev gen).2 q = gen q ∧
      (ElementalMatrix.MakeGaussian undef SampleNormal g A mean stddev gen).1.matrix q
        = (windowEntries (A.matrix q).height (A.matrix q).width).foldl
            (fun C e => C.Set e.1 e.2
              ((MakeGaussian SampleNormal (A.matrix r) mean stddev (gen r)).1.Get e.1 e.2))
            (A.matrix q)) := by
  have hr : r ∈ A.data.RedundantComm g p := by
    rw [hc]
    exact List.mem_cons_self r rest
  have hr0 : A.data.RedundantRank g undef r = 0 :=
    (RedundantRank_eq_zero_iff g A.data undef p r r rest hc hr).mpr rfl
  have hcr : (A.data.RedundantComm g r)[0]? = some r := by
    rw [RedundantComm_of_mem g A.data p r hr, hc]
    exact List.getElem?_cons_zero
  have hcq : (A.data.RedundantComm g q)[0]? = some r := by
    rw [RedundantComm_of_mem g A.data p q hq, hc]
    exact List.getElem?_cons_zero
  refine ⟨?_, ?_, ?_⟩
  · simp only [ElementalMatrix.MakeGaussian, Broadcast, hcr, hr0, if_true]
  · simp only [ElementalMatrix.MakeGaussian, hr0, if_true]
  · intro hne
    have hq0 : ¬ A.data.RedundantRank g undef q = 0 := fun h =>
      hne ((RedundantRank_eq_zero_iff g A.data undef p q r rest hc hq).mp h)
    have hne2 : ¬ r = q := fun e => hne e.symm
    constructor
    · simp only [ElementalMatrix.MakeGaussian, hq0, if_false]
    · simp only [ElementalMatrix.MakeGaussian, Broadcast, hcq, hq0, hr0, hne2, if_false, if_true]

/-- C21: after `MakeGaussian` on a distributed matrix, every process `p` of the grid has in
its redundant communicator a member `r` of rank 0 such that: `r` holds the samples it drew
with its own generator; among the members only `r` has redundant rank 0, and the generator
of every other member is untouched; and every member holds a local matrix of the shape of
the one of `r` with the same entries, received by the broadcast from root 0. -/
theorem MakeGaussian_redundant {σ F B : Type} (undef : Int)
    (SampleNormal : F → B → σ → F × σ) (g : Grid) (A : ElementalMatrix F) (mean : F)
    (stddev : B) (gen : Nat → σ) (hA : A.WellFormed g) (p : Nat) (hp : p < g.Size) :
    ∃ r, (A.data.RedundantComm g p)[0]? = some r ∧ A.data.RedundantRank g undef r = 0 ∧
      (ElementalMatrix.MakeGaussian undef SampleNormal g A mean stddev gen).1.matrix r
        = (MakeGaussian SampleNormal (A.matrix r) mean stddev (gen r)).1 ∧
      (ElementalMatrix.MakeGaussian undef SampleNormal g A mean stddev gen).2 r
        = (MakeGaussian SampleNormal (A.matrix r) mean stddev (gen r)).2 ∧
      ∀ q ∈ A.data.RedundantComm g p,
        (A.data.RedundantRank g undef q = 0 ↔ q = r) ∧
        (q ≠ r →
          (ElementalMatrix.MakeGaussian undef SampleNormal g A mean stddev gen).2 q = gen q) ∧
        ((ElementalMatrix.MakeGaussian undef SampleNormal g A mean stddev gen).1.matrix q).height
          = ((ElementalMatrix.MakeGaussian undef SampleNormal g A mean stddev gen).1.matrix
              r).height ∧
        ((ElementalMatrix.MakeGaussian undef SampleNormal g A mean stddev gen).1.matrix q).width
          = ((ElementalMatrix.MakeGaussian undef SampleNormal g A mean stddev gen).1.matrix
              r).width ∧
        ∀ i j : Int,
          0 ≤ i →
          i < ((ElementalMatrix.MakeGaussian undef SampleNormal g A mean stddev gen).1.matrix
              r).height →
          0 ≤ j →
          j < ((ElementalMatrix.MakeGaussian undef SampleNormal g A mean stddev gen).1.matrix
              r).width →
          ((ElementalMatrix.MakeGaussian undef SampleNormal g A mean stddev gen).1.matrix q).Get
              i j
            = ((ElementalMatrix.MakeGaussian undef SampleNormal g A mean stddev gen).1.matrix
                r).Get i j := by
  have hself := self_mem_RedundantComm g A.data p hp
  cases hc : A.data.RedundantComm g p with
  | nil =>
    rw [hc] at hself
    exact absurd hself (List.not_mem_nil p)
  | cons r rest =>
    have hr : r ∈ A.data.RedundantComm g p := by
      rw [hc]
      exact List.mem_cons_self r rest
    have Mr := MakeGaussian_matrix undef SampleNormal g A mean stddev gen p r r rest hc hr
    refine ⟨r, List.getElem?_cons_zero,
      (RedundantRank_eq_zero_iff g A.data undef p r r rest hc hr).mpr rfl, Mr.1, Mr.2.1, ?_⟩
    intro q hq
    rw [← hc] at hq
    refine ⟨RedundantRank_eq_zero_iff g A.data undef p q r rest hc hq, ?_⟩
    by_cases hqr : q = r
    · subst hqr
      exact ⟨fun h => absurd rfl h, rfl, rfl, fun _ _ _ _ _ _ => rfl⟩
    · obtain ⟨hgen, hmat⟩ :=
        (MakeGaussian_matrix undef SampleNormal g A mean stddev gen p q r rest hc hq).2.2 hqr
      refine ⟨fun _ => hgen, ?_⟩
      rw [hmat, Mr.1]
      obtain ⟨_, hq2, hpq⟩ := (mem_RedundantComm g A.data p q).mp hq
      obtain ⟨_, hr2, hpr⟩ := (mem_RedundantComm g A.data p r).mp hr
      have sq := LocalShape_of_Redundant g A.data A.height A.width p q hp hq2 hpq
      have sr := LocalShape_of_Redundant g A.data A.height A.width p r hp hr2 hpr
      have hh : (A.matrix q).height = (A.matrix r).height := by
        rw [(hA q).1, (hA r).1, sq.1, sr.1]
      have hw : (A.matrix q).width = (A.matrix r).width := by
        rw [(hA q).2.1, (hA r).2.1, sq.2, sr.2]
      have hL : (A.matrix q).height ≤ (A.matrix q).ldim := by
        have := (hA q).2.2
        omega
      have fr := EntrywiseFill_shape (A.matrix r) (fun s => SampleNormal mean stddev s) (gen r)
      have fr1 : (MakeGaussian SampleNormal (A.matrix r) mean stddev (gen r)).1.height
          = (A.matrix r).height := fr.1
      have fr2 : (MakeGaussian SampleNormal (A.matrix r) mean stddev (gen r)).1.width
          = (A.matrix r).width := fr.2.1
      have win := foldl_Set_window
        (fun i j => (MakeGaussian SampleNormal (A.matrix r) mean stddev (gen r)).1.Get i j)
        (A.matrix q).ldim (A.matrix q).height hL
        (windowEntries (A.matrix q).height (A.matrix q).width) (A.matrix q) rfl
        (fun e he => ((mem_windowEntries _ _ e).mp he).1)
      refine ⟨?_, ?_, ?_⟩
      · rw [fr1, ← hh]
        exact win.1
      · rw [fr2, ← hw]
        exact win.2.1
      · intro i j hi0 hi hj0 hj
        rw [fr1, ← hh] at hi
        rw [fr2, ← hw] at hj
        exact win.2.2.2 (i, j) ((mem_windowEntries _ _ (i, j)).mpr ⟨⟨hi0, hi⟩, hj0, hj⟩)

/-- The example matrix satisfies the invariant of a distributed matrix on the 2 x 3 grid. -/
theorem exampleMCSTAR_wellFormed : exampleMCSTAR.WellFormed grid23 := by
  intro p
  by_cases hp : p < 6
  · interval_cases p <;> decide
  · have h : exampleMCSTAR.matrix p = exampleEmpty 0 := if_neg hp
    have hg : grid23.InGrid p = false := by
      unfold Grid.InGrid Grid.Size
      exact decide_eq_false hp
    have hpart : DistData.Participating grid23 exampleMCSTAR.data p = false := by
      unfold DistData.Participating
      rw [hg]
      rfl
    rw [h]
    unfold DistData.LocalHeight DistData.LocalWidth
    rw [hpart]
    exact ⟨rfl, rfl, by decide⟩

/-- The theorem `MakeGaussian_redundant` for the 3 x 2 matrix `[MC,STAR]` on the 2 x 3 grid
and process 3, whose redundant communicator is the grid row `1, 3, 5`: process 3 holds at
`(0,1)` what process 1 holds, the second sample `5 + 10 * 101` that process 1 drew, and the
generator of process 3 is in its initial state. -/
theorem MakeGaussian_redundant_witness :
    exampleMCSTAR.WellFormed grid23 ∧ 3 < grid23.Size ∧
    ((ElementalMatrix.MakeGaussian (-1) exampleSampler grid23 exampleMCSTAR 5 1
        (fun p => (p : Int) * 100)).1.matrix 3).Get 0 1
      = ((ElementalMatrix.MakeGaussian (-1) exampleSampler grid23 exampleMCSTAR 5 1
        (fun p => (p : Int) * 100)).1.matrix 1).Get 0 1 ∧
    ((ElementalMatrix.MakeGaussian (-1) exampleSampler grid23 exampleMCSTAR 5 1
        (fun p => (p : Int) * 100)).1.matrix 1).Get 0 1 = 1015 ∧
    (ElementalMatrix.MakeGaussian (-1) exampleSampler grid23 exampleMCSTAR 5 1
        (fun p => (p : Int) * 100)).2 3 = 300 := by
  obtain ⟨r, hr, _, _, _, hall⟩ := MakeGaussian_redundant (-1) exampleSampler grid23
    exampleMCSTAR 5 1 (fun p => (p : Int) * 100) exampleMCSTAR_wellFormed 3 (by decide)
  have h1 : (exampleMCSTAR.data.RedundantComm grid23 3)[0]? = some 1 := by decide
  rw [h1] at hr
  have hr1 : 1 = r := Option.some.inj hr
  subst hr1
  obtain ⟨_, hgen, _, _, hent⟩ := hall 3 (by decide)
  exact ⟨exampleMCSTAR_wellFormed, by decide,
    hent 0 1 (by decide) (by decide) (by decide) (by decide), by decide, hgen (by decide)⟩
end El
